import Mathlib

/-!
# Forge consensus core of thor-core: a shallow embedding

The definitions below transcribe the consensus-relevant functions of
`src/pow.cpp`, `src/chain.cpp` and `src/miner.cpp`.

Conventions of the embedding
* A `CBlockIndex*` is a value of `PIndex`: either `nullptr` or an entry that
  carries its own `pprev` and `pskip` pointers.  The block index is a forest
  that only ever grows at the leaves, so a pointer is identified with the
  entry it points to.
* `int`, `uint32_t`, `int64_t` are `Int` with the conversions written out
  (`wrapU32`, `wrapI32`); `arith_uint256` is `Nat` reduced modulo `2^256`
  after every operation that can leave the range.
* A function that can hit a failed `assert`, a null dereference or a division
  by zero returns `Outcome.aborted`; `return false` of a validation function
  is `Outcome.rejected`.
* Functions of the repository that are not part of the translated sources
  (activation predicates, script and key handling, UTXO access, hashing) are
  fields of `Env`, so every theorem holds for all their possible behaviours.
-/

namespace Forge

/-! ## Machine integers -/

/-- Conversion of a mathematical integer to `uint32_t`. -/
def wrapU32 (x : Int) : Int := x % 2 ^ 32

/-- Conversion of a mathematical integer to (two's complement) `int`. -/
def wrapI32 (x : Int) : Int := (x + 2 ^ 31) % 2 ^ 32 - 2 ^ 31

/-- Reduction to the range of `arith_uint256`. -/
def wrap256 (x : Nat) : Nat := x % 2 ^ 256

/-! ## Results of validation code -/

/-- Result of a piece of validation code: it ran through with a value,
it executed `return false`, or it left defined behaviour (failed `assert`,
null dereference, division by zero). -/
inductive Outcome (α : Type) where
  | ok (a : α) : Outcome α
  | rejected : Outcome α
  | aborted : Outcome α
deriving DecidableEq, Repr

/-- Sequencing of validation steps: the first step that does not run through
decides the result. -/
def Outcome.andThen {α β : Type} : Outcome α → (α → Outcome β) → Outcome β
  | .ok a, f => f a
  | .rejected, _ => .rejected
  | .aborted, _ => .aborted

/-! ## Data model -/

/-- The header fields read by the consensus code (`CBlockIndex::GetBlockHeader`). -/
structure CBlockHeader where
  nTime : Int
  nBits : Nat
  nNonce : Nat
deriving DecidableEq, Repr

/-- A pointer `CBlockIndex*`: null, or an entry with its height, header fields,
parent pointer and skip pointer. -/
inductive PIndex where
  | nullptr : PIndex
  | entry (nHeight : Int) (hdr : CBlockHeader) (pprev pskip : PIndex) : PIndex
deriving DecidableEq, Repr

/-- A transaction output. -/
structure CTxOut where
  nValue : Int
  scriptPubKey : List Nat
deriving DecidableEq, Repr

/-- An unspent output as stored in the UTXO set. -/
structure Coin where
  out : CTxOut
  nHeight : Int
deriving DecidableEq, Repr

/-- A transaction: an identifier standing for its inputs, and its outputs. -/
structure CTransaction where
  id : Nat
  vout : List CTxOut
deriving DecidableEq, Repr

/-- The block handed to `CheckForgeProof`: the parent found in
`mapBlockIndex[pblock->hashPrevBlock]` and the transactions. -/
structure CBlock where
  pindexPrev : PIndex
  vtx : List CTransaction
deriving DecidableEq, Repr

/-- A destination `CTxDestination` (a variant): no destination, a key hash, or any other
alternative (script hash, witness programs). -/
inductive CTxDestination where
  | noDestination : CTxDestination
  | keyID (id : Nat) : CTxDestination
  | other (which : Nat) (id : Nat) : CTxDestination
deriving DecidableEq, Repr

/-- The struct `Consensus::Params` (consensus/params.h), the fields used below.  The two
address strings are represented by the scripts that
`GetScriptForDestination(DecodeDestination(..))` makes of them. -/
structure Params where
  powLimit : Nat
  fPowAllowMinDifficultyBlocks : Bool
  nPowTargetSpacing : Int
  lastScryptBlock : Int
  minHammerCost : Int
  hammerCostFactor : Int
  hammerCreationScript : List Nat
  forgeCommunityScript : List Nat
  communityContribFactor : Int
  hammerGestationBlocks : Int
  hammerLifespanBlocks : Int
  powLimitForge : Nat
  powLimitForge2 : Nat
  forgeNonceMarker : Nat
  minForgeCheckBlock : Int
  forgeTargetAdjustAggression : Int
  forgeBlockSpacingTarget : Int
  minK : Int
  maxK : Int
  minK2 : Int
  maxK2 : Int
  maxForgeDiff : ℚ
  maxKPow : Int
  powSplit1 : ℚ
  powSplit2 : ℚ
  maxConsecutiveForgeBlocks : Int
  forgeDifficultyWindow : Int
  forgeDifficultyWindow2 : Int

/-- The collaborators of the consensus core whose code is outside the
translated sources.  `GetDifficulty` is `GetDifficulty(index, true)` of
rpc/blockchain.cpp; its `double` is given as the rational number it denotes. -/
structure Env where
  IsForgeMined : CBlockHeader → Bool
  IsForgeEnabled : PIndex → Bool
  IsForge11Enabled : PIndex → Bool
  IsForge12Enabled : PIndex → Bool
  IsForge13Enabled : Int → Bool
  IsForge13EnabledAt : PIndex → Bool
  IsBCT : CTransaction → Bool
  IsCoinBase : CTransaction → Bool
  GetDeterministicRandString : PIndex → List Nat
  hammerHash : List Nat → List Nat → Int → Nat
  ExtractDestination : List Nat → Option CTxDestination
  RecoverCompactID : List Nat → List Nat → Option Nat
  GetCoin : List Nat → Nat → Option Coin
  GetTxByHashAndHeight : List Nat → Int → PIndex → Option (CTransaction × Int)
  IsBCTScript : List Nat → List Nat → Option (List Nat)
  GetBlockSubsidy : Int → Int
  GetDifficulty : PIndex → ℚ

/-! ## CheckForgeProof: interleaving step (pow.cpp 544-562) -/

/-- The loop
`while (pindexTemp->GetBlockHeader().IsForgeMined(..)) { assert(pindexTemp->pprev); pindexTemp = pindexTemp->pprev; forgeBlocksAtTip++; }`
started at `pindexTemp` with the counter at `n`; the result is the final
counter. -/
def forgeBlocksAtTip (E : Env) : PIndex → Int → Outcome Int
  | .nullptr, _ => .aborted
  | .entry _ hdr pprev _, n =>
    if E.IsForgeMined hdr then
      match pprev with
      | .nullptr => .aborted
      | .entry _ _ _ _ => forgeBlocksAtTip E pprev (n + 1)
    else .ok n

/-- The test `pindexPrev->GetBlockHeader().IsForgeMined(consensusParams)`. -/
def isForgeMinedAt (E : Env) : PIndex → Outcome Bool
  | .nullptr => .aborted
  | .entry _ hdr _ _ => .ok (E.IsForgeMined hdr)

/-- The interleaving step of `CheckForgeProof`. -/
def InterleavingStep (E : Env) (P : Params) (pindexPrev : PIndex) : Outcome Unit :=
  if E.IsForge11Enabled pindexPrev then
    (forgeBlocksAtTip E pindexPrev 0).andThen fun forgeBlocksAtTip =>
      if forgeBlocksAtTip ≥ P.maxConsecutiveForgeBlocks then .rejected else .ok ()
  else
    (isForgeMinedAt E pindexPrev).andThen fun mined =>
      if mined then .rejected else .ok ()

/-! ## Proof script: assembly in BusyHammers (miner.cpp 862-871) -/

/-- Modelled from the spec: the opcode values of `script/script.h`, which is
not among the translated sources; `OP_RETURN`, `OP_TRUE`, `OP_FALSE` and the
`OP_PUSHDATA` opcodes have their Bitcoin-standard values. -/
def OP_RETURN : Nat := 0x6a

/-- Modelled from the spec: opcode `OP_TRUE` of `script/script.h`. -/
def OP_TRUE : Nat := 0x51

/-- Modelled from the spec: opcode `OP_FALSE` of `script/script.h`. -/
def OP_FALSE : Nat := 0x00

/-- Modelled from the spec: `WriteLE32` of `crypto/common.h`, the four bytes of
a `uint32_t`, least significant first. -/
def WriteLE32 (x : Int) : List Nat :=
  let u := (wrapU32 x).toNat
  [u % 256, u / 256 % 256, u / 65536 % 256, u / 16777216 % 256]

/-- Modelled from the spec: `ReadLE32` of `crypto/common.h` applied at offset
`i` of a script (bytes outside the script read as 0). -/
def ReadLE32 (s : List Nat) (i : Nat) : Int :=
  ((s.getD i 0 + 256 * s.getD (i + 1) 0 + 65536 * s.getD (i + 2) 0
      + 16777216 * s.getD (i + 3) 0 : Nat) : Int)

/-- Modelled from the spec: `CScript::operator<<(opcodetype)` of
`script/script.h`, which appends the opcode as one byte. -/
def pushOpcode (s : List Nat) (opcode : Nat) : List Nat := s ++ [opcode]

/-- Modelled from the spec: `CScript::operator<<(const std::vector<unsigned char>&)`
of `script/script.h`: a size marker (the length itself below `OP_PUSHDATA1`,
otherwise `OP_PUSHDATA1/2/4` and the little-endian length) followed by the
bytes.  The spec fixes the markers `0x04`, `0x40` and `0x41` for the pushes of
4, 64 and 65 bytes. -/
def pushData (s b : List Nat) : List Nat :=
  if b.length < 0x4c then s ++ [b.length] ++ b
  else if b.length ≤ 0xff then s ++ [0x4c, b.length] ++ b
  else if b.length ≤ 0xffff then s ++ [0x4d, b.length % 256, b.length / 256] ++ b
  else s ++ (0x4e :: WriteLE32 b.length) ++ b

/-- The proof script built by `BusyHammers`:
`forgeProofScript << OP_RETURN << OP_HAMMER << hammerNonceVec << bctHeightVec << communityContribFlag << txidVec << messageProofVec`. -/
def forgeProofScript (OP_HAMMER : Nat) (solvingHammer bctHeight : Int) (communityContrib : Bool)
    (txid messageProofVec : List Nat) : List Nat :=
  let hammerNonceVec := WriteLE32 solvingHammer
  let bctHeightVec := WriteLE32 bctHeight
  let communityContribFlag := if communityContrib then OP_TRUE else OP_FALSE
  pushData (pushData (pushOpcode (pushData (pushData
    (pushOpcode (pushOpcode [] OP_RETURN) OP_HAMMER) hammerNonceVec) bctHeightVec)
    communityContribFlag) txid) messageProofVec

/-! ## CheckForgeProof (pow.cpp 517-812), step by step -/

/-- Modelled from the spec: `arith_uint256::SetCompact` (arith_uint256.cpp is
not among the translated sources), the Bitcoin-standard compact form with one
byte of exponent and three bytes of mantissa.  The result is the value, then
`fNegative`, then `fOverflow`. -/
def SetCompact (nCompact : Nat) : Nat × Bool × Bool :=
  let nSize := nCompact >>> 24
  let nWord := if nSize ≤ 3 then (nCompact &&& 0x007fffff) >>> (8 * (3 - nSize))
               else nCompact &&& 0x007fffff
  let value := if nSize ≤ 3 then nWord else wrap256 (nWord <<< (8 * (nSize - 3)))
  (value,
   decide (nWord ≠ 0) && decide (nCompact &&& 0x00800000 ≠ 0),
   decide (nWord ≠ 0) && (decide (nSize > 34) || (decide (nWord > 0xff) && decide (nSize > 33))
      || (decide (nWord > 0xffff) && decide (nSize > 32))))

/-- Lines 564-597: no BCT among the non-coinbase transactions, a coinbase with
2 or 3 outputs, a first output script of at least 144 bytes that starts
`OP_RETURN OP_HAMMER`.  The result is the coinbase transaction. -/
def CoinbaseStep (E : Env) (OP_HAMMER : Nat) (vtx : List CTransaction) : Outcome CTransaction :=
  if (vtx.drop 1).any E.IsBCT then .rejected
  else
    match vtx with
    | [] => .aborted
    | txCoinbase :: _ =>
      if !E.IsCoinBase txCoinbase then .rejected
      else if txCoinbase.vout.length < 2 ∨ txCoinbase.vout.length > 3 then .rejected
      else
        match txCoinbase.vout with
        | [] => .aborted
        | vout0 :: _ =>
          if vout0.scriptPubKey.length < 144 then .rejected
          else if vout0.scriptPubKey.getD 0 0 ≠ OP_RETURN ∨ vout0.scriptPubKey.getD 1 0 ≠ OP_HAMMER
            then .rejected
          else .ok txCoinbase

/-- The values read from the proof script at fixed offsets (lines 599-618 and
638): `hammerNonce`, `bctClaimedHeight`, `communityContrib`, `txidStr`,
`messageSig`. -/
structure ForgeProof where
  hammerNonce : Int
  bctClaimedHeight : Int
  communityContrib : Bool
  txidStr : List Nat
  messageSig : List Nat
deriving DecidableEq, Repr

/-- The fixed-offset reads of `CheckForgeProof`. -/
def ParseProof (script : List Nat) : ForgeProof where
  hammerNonce := ReadLE32 script 3
  bctClaimedHeight := ReadLE32 script 8
  communityContrib := decide (script.getD 12 0 = OP_TRUE)
  txidStr := (script.drop 14).take 64
  messageSig := (script.drop 79).take 65

/-- Lines 620-635: the hammer hash must be below the target decoded from
`GetNextForgeWorkRequired(pindexPrev)`. -/
def HashTargetStep (E : Env) (GetNextForgeWorkRequired : PIndex → Nat) (pindexPrev : PIndex)
    (pr : ForgeProof) : Outcome Unit :=
  let deterministicRandString := E.GetDeterministicRandString pindexPrev
  let hammerHashTarget := (SetCompact (GetNextForgeWorkRequired pindexPrev)).1
  let hammerHash := E.hammerHash deterministicRandString pr.txidStr pr.hammerNonce
  if hammerHash ≥ hammerHashTarget then .rejected else .ok ()

/-- Lines 642-672: the gold destination of `vout[1]` must be a valid key hash
and the key recovered from the signature over the deterministic random string
must hash to it.  The result is the gold destination. -/
def SignatureStep (E : Env) (pindexPrev : PIndex) (txCoinbase : CTransaction) (pr : ForgeProof) :
    Outcome CTxDestination :=
  match txCoinbase.vout.drop 1 with
  | [] => .aborted
  | vout1 :: _ =>
    match E.ExtractDestination vout1.scriptPubKey with
    | none => .rejected
    | some goldDestination =>
      if goldDestination = .noDestination then .rejected
      else
        match goldDestination with
        | .keyID keyID =>
          match E.RecoverCompactID (E.GetDeterministicRandString pindexPrev) pr.messageSig with
          | none => .rejected
          | some id => if id ≠ keyID then .rejected else .ok goldDestination
        | _ => .rejected

/-- What the lookup of the BCT output yields (lines 674-705). -/
structure FoundBCT where
  bct : Option CTransaction
  bctFoundHeight : Int
  bctValue : Int
  bctScriptPubKey : List Nat
deriving DecidableEq, Repr

/-- Lines 674-705: the outpoint `(txid, 0)` from the UTXO set, otherwise the
transaction from the block at the claimed height. -/
def LocateBCT (E : Env) (pindexPrev : PIndex) (pr : ForgeProof) : Outcome FoundBCT :=
  match E.GetCoin pr.txidStr 0 with
  | some coin => .ok ⟨none, wrapU32 coin.nHeight, coin.out.nValue, coin.out.scriptPubKey⟩
  | none =>
    match E.GetTxByHashAndHeight pr.txidStr pr.bctClaimedHeight pindexPrev with
    | none => .rejected
    | some (bct, foundAtHeight) =>
      match bct.vout with
      | [] => .aborted
      | vout0 :: _ => .ok ⟨some bct, wrapU32 foundAtHeight, vout0.nValue, vout0.scriptPubKey⟩

/-- Lines 711-729: when no reference to the BCT is held, the outpoint
`(txid, 1)` from the UTXO set, otherwise a second drill.  The result is the
reference to the BCT held afterwards and, on a UTXO hit, the donation. -/
def DonationLookup (E : Env) (P : Params) (pindexPrev : PIndex) (pr : ForgeProof)
    (bct : Option CTransaction) : Outcome (Option CTransaction × Option Int) :=
  match bct with
  | some t => .ok (some t, none)
  | none =>
    match E.GetCoin pr.txidStr 1 with
    | some coin =>
      if coin.out.scriptPubKey ≠ P.forgeCommunityScript then .rejected
      else .ok (none, some coin.out.nValue)
    | none =>
      match E.GetTxByHashAndHeight pr.txidStr pr.bctClaimedHeight pindexPrev with
      | none => .rejected
      | some (t, _) => .ok (some t, none)

/-- Lines 730-736: with a reference to the BCT, its second output must pay the
community script and gives the donation. -/
def DonationAmount (P : Params) : Option CTransaction × Option Int → Outcome Int
  | (some t, _) =>
    match t.vout.drop 1 with
    | [] => .rejected
    | vout1 :: _ =>
      if vout1.scriptPubKey ≠ P.forgeCommunityScript then .rejected else .ok vout1.nValue
  | (none, some donationAmount) => .ok donationAmount
  | (none, none) => .aborted

/-- Lines 738-746 in `int64_t`: the donation must equal
`(bctValue + donationAmount) / communityContribFactor`; the result is the
updated `bctValue`.  A sum outside `int64_t` and a zero divisor are undefined. -/
def DonationCheck (P : Params) (bctValue donationAmount : Int) : Outcome Int :=
  if bctValue + donationAmount < -2 ^ 63 ∨ 2 ^ 63 ≤ bctValue + donationAmount then .aborted
  else if P.communityContribFactor = 0 then .aborted
  else
    let expectedDonationAmount := Int.tdiv (bctValue + donationAmount) P.communityContribFactor
    if donationAmount ≠ expectedDonationAmount then .rejected
    else .ok (bctValue + donationAmount)

/-- The donation step (lines 707-747); the result is the value of `bctValue`
after it. -/
def DonationStep (E : Env) (P : Params) (pindexPrev : PIndex) (pr : ForgeProof)
    (bct : Option CTransaction) (bctValue : Int) : Outcome Int :=
  if pr.communityContrib then
    (DonationLookup E P pindexPrev pr bct).andThen fun held =>
      (DonationAmount P held).andThen fun donationAmount =>
        DonationCheck P bctValue donationAmount
  else .ok bctValue

/-- The check `bctFoundHeight != bctClaimedHeight` and the maturity step (lines
750-764).  `blockHeight` is an `int`, `bctFoundHeight` a `uint32_t`: the
difference is formed in `unsigned int` and converted to `int`; the sum of the
two parameters is an `int` and undefined outside its range. -/
def MaturityStep (P : Params) (blockHeight bctFoundHeight bctClaimedHeight : Int) :
    Outcome Unit :=
  if bctFoundHeight ≠ bctClaimedHeight then .rejected
  else
    let bctDepth := wrapI32 (wrapU32 (blockHeight - bctFoundHeight))
    if bctDepth < P.hammerGestationBlocks then .rejected
    else if P.hammerGestationBlocks + P.hammerLifespanBlocks < -2 ^ 31
        ∨ 2 ^ 31 ≤ P.hammerGestationBlocks + P.hammerLifespanBlocks then .aborted
    else if bctDepth > P.hammerGestationBlocks + P.hammerLifespanBlocks then .rejected
    else .ok ()

/-- Lines 766-783: the BCT output must carry a BCT script whose gold
destination is the one paid by the coinbase. -/
def GoldStep (E : Env) (P : Params) (bctScriptPubKey : List Nat)
    (goldDestination : CTxDestination) : Outcome Unit :=
  match E.IsBCTScript bctScriptPubKey P.hammerCreationScript with
  | none => .rejected
  | some scriptPubKeyGold =>
    match E.ExtractDestination scriptPubKeyGold with
    | none => .rejected
    | some goldDestinationBCT =>
      if goldDestination ≠ goldDestinationBCT then .rejected else .ok ()

/-- Modelled from the spec: `GetHammerCost` (validation.cpp is not among the
translated sources), `max(minHammerCost, blockSubsidy(h) / hammerCostFactor)`. -/
def GetHammerCost (E : Env) (P : Params) (nHeight : Int) : Int :=
  max P.minHammerCost (Int.tdiv (E.GetBlockSubsidy nHeight) P.hammerCostFactor)

/-- The final step (lines 785-806): `hammerCount` is an `unsigned int`
initialised from the `int64_t` quotient. -/
def HammerCountStep (E : Env) (P : Params) (bctFoundHeight bctValue hammerNonce : Int) :
    Outcome Unit :=
  let hammerCost := GetHammerCost E P bctFoundHeight
  if bctValue < P.minHammerCost then .rejected
  else if bctValue < hammerCost then .rejected
  else if hammerCost = 0 then .aborted
  else
    let hammerCount := wrapU32 (Int.tdiv bctValue hammerCost)
    if hammerNonce ≥ hammerCount then .rejected else .ok ()

/-- The function `CheckForgeProof`: `ok ()` is `return true`.  The parent is
dereferenced (`pindexPrev->nHeight`) before it is tested for null.  The target
function `GetNextForgeWorkRequired` is passed in. -/
def CheckForgeProof (E : Env) (P : Params) (OP_HAMMER : Nat)
    (GetNextForgeWorkRequired : PIndex → Nat) (pblock : CBlock) : Outcome Unit :=
  match pblock.pindexPrev with
  | .nullptr => .aborted
  | .entry nHeight hdr pprev pskip =>
    let pindexPrev := PIndex.entry nHeight hdr pprev pskip
    let blockHeight := nHeight + 1
    if !E.IsForgeEnabled pindexPrev then .rejected
    else
      (InterleavingStep E P pindexPrev).andThen fun _ =>
      (CoinbaseStep E OP_HAMMER pblock.vtx).andThen fun txCoinbase =>
      let pr := ParseProof ((txCoinbase.vout.headD ⟨0, []⟩).scriptPubKey)
      (HashTargetStep E GetNextForgeWorkRequired pindexPrev pr).andThen fun _ =>
      (SignatureStep E pindexPrev txCoinbase pr).andThen fun goldDestination =>
      (LocateBCT E pindexPrev pr).andThen fun found =>
      (DonationStep E P pindexPrev pr found.bct found.bctValue).andThen fun bctValue =>
      (MaturityStep P blockHeight found.bctFoundHeight pr.bctClaimedHeight).andThen fun _ =>
      (GoldStep E P found.bctScriptPubKey goldDestination).andThen fun _ =>
      HammerCountStep E P found.bctFoundHeight bctValue pr.hammerNonce

/-! ## Skip list of the block index (chain.cpp 73-123) -/

/-- Turn the lowest `1` bit in the binary representation of a number into a `0`. -/
def InvertLowestOne (n : Int) : Int := Int.land n (n - 1)

/-- Compute what height to jump back to with the `pskip` pointer. -/
def GetSkipHeight (height : Int) : Int :=
  if height < 2 then 0
  else if Int.land height 1 ≠ 0 then InvertLowestOne (InvertLowestOne (height - 1)) + 1
  else InvertLowestOne height

/-- The loop of `CBlockIndex::GetAncestor` from the state
`(pindexWalk, heightWalk)`.  Every iteration lowers `heightWalk`, and the first
argument bounds the number of iterations; `GetAncestor` starts it with
`nHeight - height`, which is never used up. -/
def GetAncestorWalk (height : Int) : Nat → PIndex → Int → Outcome PIndex
  | fuel, pindexWalk, heightWalk =>
    if heightWalk > height then
      match fuel with
      | 0 => .aborted
      | fuel + 1 =>
        match pindexWalk with
        | .nullptr => .aborted
        | .entry _ _ pprev pskip =>
          let heightSkip := GetSkipHeight heightWalk
          let heightSkipPrev := GetSkipHeight (heightWalk - 1)
          if pskip ≠ .nullptr ∧
              (heightSkip = height ∨
               (heightSkip > height ∧ ¬(heightSkipPrev < heightSkip - 2 ∧
                                         heightSkipPrev ≥ height))) then
            GetAncestorWalk height fuel pskip heightSkip
          else
            match pprev with
            | .nullptr => .aborted
            | .entry _ _ _ _ => GetAncestorWalk height fuel pprev (heightWalk - 1)
    else .ok pindexWalk

/-- The method `CBlockIndex::GetAncestor`: the null pointer outside `0..nHeight`,
otherwise the result of the walk. -/
def GetAncestor : PIndex → Int → Outcome PIndex
  | .nullptr, _ => .aborted
  | .entry nHeight hdr pprev pskip, height =>
    if height > nHeight ∨ height < 0 then .ok .nullptr
    else GetAncestorWalk height (nHeight - height).toNat (.entry nHeight hdr pprev pskip) nHeight

/-- The method `CBlockIndex::BuildSkip`; the result is the entry after the call. -/
def BuildSkip : PIndex → Outcome PIndex
  | .nullptr => .aborted
  | .entry nHeight hdr pprev pskip =>
    match pprev with
    | .nullptr => .ok (.entry nHeight hdr pprev pskip)
    | .entry _ _ _ _ =>
      (GetAncestor pprev (GetSkipHeight nHeight)).andThen fun a =>
        .ok (.entry nHeight hdr pprev a)

/-! ## Work of a block (chain.cpp 127-282) -/

/-- The expression `(~bnTarget / (bnTarget + 1)) + 1` in `arith_uint256`;
`base_uint::operator/=` throws on a zero divisor. -/
def workFromTarget (bnTarget : Nat) : Outcome Nat :=
  if wrap256 (bnTarget + 1) = 0 then .aborted
  else .ok (wrap256 ((2 ^ 256 - 1 - bnTarget) / wrap256 (bnTarget + 1) + 1))

/-- The loop `while (pindexTemp->GetBlockHeader().IsForgeMined(..)) { assert(pindexTemp->pprev); pindexTemp = pindexTemp->pprev; }`
of `GetBlockProof`; the result is the block it stops at. -/
def skipForgeMined (E : Env) : PIndex → Outcome PIndex
  | .nullptr => .aborted
  | .entry nHeight hdr pprev pskip =>
    if E.IsForgeMined hdr then
      match pprev with
      | .nullptr => .aborted
      | .entry _ _ _ _ => skipForgeMined E pprev
    else .ok (.entry nHeight hdr pprev pskip)

/-- The loop `for (blocksSinceForge = 0; blocksSinceForge < maxKPow; blocksSinceForge++)`
of the Forge 1.1 branch for PoW blocks (lines 203-214), with `remaining`
iterations left, at `currBlock`; the result is `blocksSinceForge` and
`lastForgeDifficulty`. -/
def findLastForge (E : Env) : Nat → PIndex → Int → Outcome (Int × ℚ)
  | 0, _, blocksSinceForge => .ok (blocksSinceForge, 0)
  | _ + 1, .nullptr, _ => .aborted
  | remaining + 1, .entry nHeight hdr pprev pskip, blocksSinceForge =>
    if E.IsForgeMined hdr then
      .ok (blocksSinceForge, E.GetDifficulty (.entry nHeight hdr pprev pskip))
    else
      match pprev with
      | .nullptr => .aborted
      | .entry _ _ _ _ => findLastForge E remaining pprev (blocksSinceForge + 1)

/-- The factor `k` of a PoW block under Forge 1.1 (lines 216-224). -/
def powBonusK (P : Params) (blocksSinceForge : Int) (lastForgeDifficulty : ℚ) : Nat :=
  let k := (wrapU32 (P.maxKPow - blocksSinceForge)).toNat
  let k := if lastForgeDifficulty < P.powSplit1 then k >>> 1 else k
  let k := if lastForgeDifficulty < P.powSplit2 then k >>> 1 else k
  if k < 1 then 1 else k

/-- The bonus of a PoW block under Forge 1.1 (lines 199-226): scan for the
last forge-mined block, scale. -/
def powBonus (E : Env) (P : Params) (pprev : PIndex) (bnTargetScaled : Nat) : Outcome Nat :=
  (findLastForge E P.maxKPow.toNat pprev 0).andThen fun r =>
    .ok (wrap256 (bnTargetScaled * powBonusK P r.1 r.2))

/-- The loop `for (blocksSinceForge = 0; blocksSinceForge < maxKPow; blocksSinceForge++)`
of the Forge 1.2 branch for PoW blocks (lines 239-248), with `remaining`
iterations left, at `currBlock`. -/
def findLastForge12 (E : Env) : Nat → PIndex → Int → Outcome (Int × ℚ)
  | 0, _, blocksSinceForge => .ok (blocksSinceForge, 0)
  | _ + 1, .nullptr, _ => .aborted
  | remaining + 1, .entry nHeight hdr pprev pskip, blocksSinceForge =>
    if E.IsForgeMined hdr then
      .ok (blocksSinceForge, E.GetDifficulty (.entry nHeight hdr pprev pskip))
    else
      match pprev with
      | .nullptr => .aborted
      | .entry _ _ _ _ => findLastForge12 E remaining pprev (blocksSinceForge + 1)

/-- The factor `k` of a PoW block under Forge 1.2 (lines 250-257). -/
def powBonusK12 (P : Params) (blocksSinceForge : Int) (lastForgeDifficulty : ℚ) : Nat :=
  let k := (wrapU32 (P.maxKPow - blocksSinceForge)).toNat
  let k := if lastForgeDifficulty < P.powSplit1 then k >>> 1 else k
  let k := if lastForgeDifficulty < P.powSplit2 then k >>> 1 else k
  if k < 1 then 1 else k

/-- The bonus of a PoW block under Forge 1.2 (lines 235-259). -/
def powBonus12 (E : Env) (P : Params) (pprev : PIndex) (bnTargetScaled : Nat) : Outcome Nat :=
  (findLastForge12 E P.maxKPow.toNat pprev 0).andThen fun r =>
    .ok (wrap256 (bnTargetScaled * powBonusK12 P r.1 r.2))

/-- The integer nearest to `t`, the even one of the two when `t` lies half-way. -/
def roundTiesEven (t : ℚ) : Int :=
  let f := Int.floor t
  if t - f < 1 / 2 then f
  else if 1 / 2 < t - f then f + 1
  else if f % 2 = 0 then f else f + 1

/-- The exponent of the spacing of a binary floating-point format around `x`:
`prec` bits below the leading bit of `x`, and no less than `emin`, the
exponent of the least subnormal number. -/
def quantumExp (prec : Nat) (emin : Int) (x : ℚ) : Int :=
  max (Int.log 2 |x| - ((prec : Int) - 1)) emin

/-- The result of an arithmetic operation in a binary floating-point format
(IEEE 754, round to nearest, ties to even) whose exact result is `x`: the
multiple of the spacing nearest to `x`, or `none` (an infinity) when that is
`2^emax` or more in size. -/
def roundBinary (prec : Nat) (emin : Int) (emax : Nat) (x : ℚ) : Option ℚ :=
  let y := (roundTiesEven (x / 2 ^ quantumExp prec emin x) : ℚ) * 2 ^ quantumExp prec emin x
  if |y| < 2 ^ emax then some y else none

/-- Rounding to `double` (binary64). -/
def toDouble (x : ℚ) : Option ℚ := roundBinary 53 (-1074) 1024 x

/-- Rounding to `float` (binary32). -/
def toFloat (x : ℚ) : Option ℚ := roundBinary 24 (-149) 128 x

/-- The value of `std::min(forgeDiff / maxForgeDiff, 1.0)` in `double`: a
quotient that is `+inf` is cut to `1.0`; `none` stands for a result that is no
finite number (`-inf`, or the NaN of `0.0 / 0.0`). -/
def cappedQuotient (maxForgeDiff forgeDiff : ℚ) : Option ℚ :=
  if maxForgeDiff = 0 then (if 0 < forgeDiff then some 1 else none)
  else
    match toDouble (forgeDiff / maxForgeDiff) with
    | some q => some (min q 1)
    | none => if 0 < forgeDiff / maxForgeDiff then some 1 else none

/-- The expression
`floor(std::min(forgeDiff / maxForgeDiff, 1.0) * (maxK - minK) + minK)`
stored in an `unsigned int` (lines 171 and 185), every operation rounded to
`double`.  `maxK - minK` is an `int`.  A value that is no finite number stays
so up to the conversion to `unsigned int`, which is undefined for it as for a
value outside `0 .. 2^32 - 1`. -/
def forgeBonusK (maxForgeDiff : ℚ) (minK maxK : Int) (forgeDiff : ℚ) : Outcome Nat :=
  if maxK - minK < -2 ^ 31 ∨ 2 ^ 31 ≤ maxK - minK then .aborted
  else
    match cappedQuotient maxForgeDiff forgeDiff with
    | none => .aborted
    | some c =>
      match toDouble (c * ((maxK - minK : Int) : ℚ)) with
      | none => .aborted
      | some p =>
        match toDouble (p + (minK : ℚ)) with
        | none => .aborted
        | some s =>
          if Int.floor s < 0 ∨ 2 ^ 32 ≤ Int.floor s then .aborted
          else .ok (Int.floor s).toNat

/-- The function `GetBlockProof` of chain.cpp. -/
def GetBlockProof (E : Env) (P : Params) : PIndex → Outcome Nat
  | .nullptr => .aborted
  | .entry nHeight hdr pprev pskip =>
    let block := PIndex.entry nHeight hdr pprev pskip
    let (bnTarget, fNegative, fOverflow) := SetCompact hdr.nBits
    if fNegative ∨ fOverflow ∨ bnTarget = 0 then .ok 0
    else
      (workFromTarget bnTarget).andThen fun bnTargetScaled =>
      if E.IsForgeMined hdr then
        match pprev with
        | .nullptr => .aborted
        | .entry _ _ _ _ =>
          (skipForgeMined E pprev).andThen fun pindexTemp =>
          match pindexTemp with
          | .nullptr => .aborted
          | .entry _ hdrTemp _ _ =>
            let (bnPreviousTarget, fNegative, fOverflow) := SetCompact hdrTemp.nBits
            if fNegative ∨ fOverflow ∨ bnPreviousTarget = 0 then .ok 0
            else
              (workFromTarget bnPreviousTarget).andThen fun previousWork =>
              let bnTargetScaled := wrap256 (bnTargetScaled + previousWork)
              (if E.IsForge11Enabled block ∧ ¬ E.IsForge12Enabled block then
                (forgeBonusK P.maxForgeDiff P.minK P.maxK (E.GetDifficulty block)).andThen fun k =>
                  .ok (wrap256 (bnTargetScaled * k))
              else .ok bnTargetScaled).andThen fun bnTargetScaled =>
              if E.IsForge12Enabled block then
                (forgeBonusK P.maxForgeDiff P.minK2 P.maxK2 (E.GetDifficulty block)).andThen fun k =>
                  .ok (wrap256 (bnTargetScaled * k))
              else .ok bnTargetScaled
      else if E.IsForge11Enabled block ∧ ¬ E.IsForge12Enabled block then
        powBonus E P pprev bnTargetScaled
      else if E.IsForge12Enabled block then
        powBonus12 E P pprev bnTargetScaled
      else .ok bnTargetScaled

/-- The function `GetNumHashes` of chain.cpp. -/
def GetNumHashes (E : Env) : PIndex → Outcome Nat
  | .nullptr => .aborted
  | .entry _ hdr _ _ =>
    let (bnTarget, fNegative, fOverflow) := SetCompact hdr.nBits
    if fNegative ∨ fOverflow ∨ bnTarget = 0 ∨ E.IsForgeMined hdr then .ok 0
    else workFromTarget bnTarget

/-- Modelled from the spec: the accumulation of chain work in validation.cpp
(not among the translated sources), "chain work at block B = chain work at
`B.prev` + B's per-block work", an `arith_uint256` sum. -/
def nChainWork (prevChainWork blockProof : Nat) : Nat := wrap256 (prevChainWork + blockProof)

/-! ## Compact encoding (arith_uint256.cpp) -/

/-- The number of binary digits of a value below `2^fuel` (0 for 0). -/
def bitsAux : Nat → Nat → Nat
  | 0, _ => 0
  | fuel + 1, x => if x = 0 then 0 else bitsAux fuel (x / 2) + 1

/-- Modelled from the spec: `base_uint::bits` of arith_uint256.cpp (not among
the translated sources), the position of the highest set bit plus one of a
256-bit value, or zero. -/
def bits (x : Nat) : Nat := bitsAux 256 x

/-- Modelled from the spec: `arith_uint256::GetCompact` (arith_uint256.cpp is
not among the translated sources) for a non-negative value, the
Bitcoin-standard compact form with one byte of exponent and three bytes of
mantissa. -/
def GetCompact (x : Nat) : Nat :=
  let nSize := (bits x + 7) / 8
  let nCompact := if nSize ≤ 3 then ((x % 2 ^ 64) <<< (8 * (3 - nSize))) % 2 ^ 32
                  else (x >>> (8 * (nSize - 3))) % 2 ^ 64 % 2 ^ 32
  let shifted := decide (nCompact &&& 0x00800000 ≠ 0)
  let nCompact := if shifted then nCompact >>> 8 else nCompact
  let nSize := if shifted then nSize + 1 else nSize
  (nCompact ||| (nSize <<< 24)) % 2 ^ 32

/-! ## DarkGravityWave (pow.cpp 26-130) -/

/-- The loop `for (nCountBlocks = 1; nCountBlocks <= nPastBlocks; nCountBlocks++)`
of `DarkGravityWave` with `remaining` iterations left, at `pindex` with the
running value `bnPastTargetAvg`; the result is the final `pindex` and
`bnPastTargetAvg`.  Forge-mined blocks are skipped, and every step back
asserts `pindex->pprev`. -/
def dgwAverage (E : Env) (nPastBlocks : Nat) : Nat → Nat → PIndex → Nat → Outcome (PIndex × Nat)
  | 0, _, pindex, bnPastTargetAvg => .ok (pindex, bnPastTargetAvg)
  | remaining + 1, nCountBlocks, pindex, bnPastTargetAvg =>
    match skipForgeMined E pindex with
    | .ok (.entry nHeight hdr pprev pskip) =>
      let bnTarget := (SetCompact hdr.nBits).1
      let avg := if nCountBlocks = 1 then bnTarget
        else wrap256 (wrap256 (bnPastTargetAvg * nCountBlocks) + bnTarget) / (nCountBlocks + 1)
      if nCountBlocks ≠ nPastBlocks then
        match pprev with
        | .nullptr => .aborted
        | .entry _ _ _ _ => dgwAverage E nPastBlocks remaining (nCountBlocks + 1) pprev avg
      else
        dgwAverage E nPastBlocks remaining (nCountBlocks + 1) (.entry nHeight hdr pprev pskip) avg
    | .ok .nullptr => .aborted
    | .rejected => .rejected
    | .aborted => .aborted

/-- The field `nTime` of a block (`GetBlockTime`; 0 for the null pointer). -/
def PIndex.time : PIndex → Int
  | .nullptr => 0
  | .entry _ hdr _ _ => hdr.nTime

/-- The stale-tip tiers of `DarkGravityWave` (lines 88-122) applied to the
retargeted value `bnNew`, with the slack measured from the block
`DarkGravityWave` holds in `pindexLast` at that point. -/
def staleTipTiers (P : Params) (bnPowLimit : Nat) (blockTime lastTime : Int) (bnNew : Nat) : Nat :=
  if blockTime > lastTime + P.nPowTargetSpacing * 30 then bnPowLimit
  else if blockTime > lastTime + P.nPowTargetSpacing * 25 then wrap256 (bnNew * 100000)
  else if blockTime > lastTime + P.nPowTargetSpacing * 20 then wrap256 (bnNew * 10000)
  else if blockTime > lastTime + P.nPowTargetSpacing * 15 then wrap256 (bnNew * 1000)
  else if blockTime > lastTime + P.nPowTargetSpacing * 10 then wrap256 (bnNew * 100)
  else bnNew

/-- The part of `DarkGravityWave` behind the skip of forge-mined blocks at the
tip (lines 44-129); `pindexLast` is the block the function holds from there on. -/
def dgwFromTip (E : Env) (P : Params) (pindexLast : PIndex) (blockTime : Int) : Outcome Nat :=
  let bnPowLimit := P.powLimit
  match pindexLast with
  | .nullptr => .ok (GetCompact bnPowLimit)
  | .entry nHeight hdr pprev pskip =>
    if nHeight - P.lastScryptBlock < 24 then .ok (GetCompact bnPowLimit)
    else
      (dgwAverage E 24 24 1 (.entry nHeight hdr pprev pskip) 0).andThen fun r =>
      let bnPastTargetAvg := r.2
      let nActualTimespan := hdr.nTime - r.1.time
      let nTargetTimespan := 24 * P.nPowTargetSpacing
      let nActualTimespan :=
        if nActualTimespan < Int.tdiv nTargetTimespan 3 then Int.tdiv nTargetTimespan 3
        else nActualTimespan
      let nActualTimespan :=
        if nActualTimespan > nTargetTimespan * 3 then nTargetTimespan * 3 else nActualTimespan
      let bnNew := wrap256 (bnPastTargetAvg * (wrapU32 nActualTimespan).toNat)
      if (nTargetTimespan % 2 ^ 64).toNat = 0 then .aborted
      else
        let bnNew := bnNew / (nTargetTimespan % 2 ^ 64).toNat
        let bnNew := staleTipTiers P bnPowLimit blockTime hdr.nTime bnNew
        let bnNew := if bnNew > bnPowLimit then bnPowLimit else bnNew
        .ok (GetCompact bnNew)

/-- The function `DarkGravityWave` of pow.cpp, applied to `pindexLast` and the
time of the candidate header.  The factors of `bnNew *= ..` are converted to
`uint32_t`, the divisor of `bnNew /= ..` to `uint64_t`. -/
def DarkGravityWave (E : Env) (P : Params) (pindexLast : PIndex) (blockTime : Int) :
    Outcome Nat :=
  match pindexLast with
  | .nullptr => .aborted
  | .entry _ hdr _ _ =>
    if P.fPowAllowMinDifficultyBlocks ∧ blockTime > hdr.nTime + P.nPowTargetSpacing * 10 then
      .ok (GetCompact P.powLimit)
    else if E.IsForge11Enabled pindexLast then
      (skipForgeMined E pindexLast).andThen fun pindexLast =>
        dgwFromTip E P pindexLast blockTime
    else dgwFromTip E P pindexLast blockTime

/-! ## Forge difficulty (pow.cpp 241-410) -/

/-- The loop `while (forgeBlockCount < window && pindexLast->pprev && pindexLast->nHeight >= params.minForgeCheckBlock)`
of the two SMA functions; the result is `hammerHashTarget` and
`forgeBlockCount` at its end. -/
def smaWalk (E : Env) (P : Params) (window : Int) : PIndex → Nat → Int → Outcome (Nat × Int)
  | .nullptr, _, _ => .aborted
  | .entry nHeight hdr pprev _, hammerHashTarget, forgeBlockCount =>
    match pprev with
    | .nullptr => .ok (hammerHashTarget, forgeBlockCount)
    | .entry _ _ _ _ =>
      if forgeBlockCount < window ∧ nHeight ≥ P.minForgeCheckBlock then
        if E.IsForgeMined hdr then
          smaWalk E P window pprev (wrap256 (hammerHashTarget + (SetCompact hdr.nBits).1))
            (forgeBlockCount + 1)
        else smaWalk E P window pprev hammerHashTarget forgeBlockCount
      else .ok (hammerHashTarget, forgeBlockCount)

/-- The common body of `GetNextForge11WorkRequired` and
`GetNextForge12WorkRequired`, which differ in the window and the limit only. -/
def forgeSMA (E : Env) (P : Params) (window : Int) (bnPowLimit : Nat) (pindexLast : PIndex) :
    Outcome Nat :=
  (smaWalk E P window pindexLast 0 0).andThen fun r =>
    let forgeBlockCount := r.2
    if forgeBlockCount = 0 then .ok (GetCompact bnPowLimit)
    else if (forgeBlockCount % 2 ^ 64).toNat = 0 then .aborted
    else
      let hammerHashTarget := r.1 / (forgeBlockCount % 2 ^ 64).toNat
      let hammerHashTarget := wrap256 (hammerHashTarget * (wrapU32 forgeBlockCount).toNat)
      let hammerHashTarget := hammerHashTarget / (forgeBlockCount % 2 ^ 64).toNat
      let hammerHashTarget := if hammerHashTarget > bnPowLimit then bnPowLimit else hammerHashTarget
      .ok (GetCompact hammerHashTarget)

/-- The function `GetNextForge11WorkRequired` of pow.cpp. -/
def GetNextForge11WorkRequired (E : Env) (P : Params) (pindexLast : PIndex) : Outcome Nat :=
  forgeSMA E P P.forgeDifficultyWindow P.powLimitForge pindexLast

/-- The function `GetNextForge12WorkRequired` of pow.cpp. -/
def GetNextForge12WorkRequired (E : Env) (P : Params) (pindexLast : PIndex) : Outcome Nat :=
  forgeSMA E P P.forgeDifficultyWindow2 P.powLimitForge2 pindexLast

/-- The loop `for (int i = 0; i < params.forgeDifficultyWindow2; i++)` of
`GetNextForge13WorkRequired` with `remaining` iterations left; `none` is the
early `return bnPowLimit.GetCompact()` for a window that is not available. -/
def windowWalk (E : Env) (P : Params) : Nat → PIndex → Nat → Int → Outcome (Option (Nat × Int))
  | 0, _, hammerHashTarget, forgeBlockCount => .ok (some (hammerHashTarget, forgeBlockCount))
  | _ + 1, .nullptr, _, _ => .aborted
  | remaining + 1, .entry nHeight hdr pprev _, hammerHashTarget, forgeBlockCount =>
    match pprev with
    | .nullptr => .ok none
    | .entry _ _ _ _ =>
      if nHeight < P.minForgeCheckBlock then .ok none
      else if E.IsForgeMined hdr then
        windowWalk E P remaining pprev (wrap256 (hammerHashTarget + (SetCompact hdr.nBits).1))
          (forgeBlockCount + 1)
      else windowWalk E P remaining pprev hammerHashTarget forgeBlockCount

/-- The function `GetNextForge13WorkRequired` of pow.cpp. -/
def GetNextForge13WorkRequired (E : Env) (P : Params) (pindexLast : PIndex) : Outcome Nat :=
  let bnPowLimit := P.powLimitForge2
  if P.forgeBlockSpacingTarget = 0 then .aborted
  else
    let targetBlockCount := Int.tdiv P.forgeDifficultyWindow2 P.forgeBlockSpacingTarget
    (windowWalk E P P.forgeDifficultyWindow2.toNat pindexLast 0 0).andThen fun r =>
      match r with
      | none => .ok (GetCompact bnPowLimit)
      | some (sum, forgeBlockCount) =>
        if forgeBlockCount = 0 then .ok (GetCompact bnPowLimit)
        else if (forgeBlockCount % 2 ^ 64).toNat = 0 then .aborted
        else
          let hammerHashTarget := sum / (forgeBlockCount % 2 ^ 64).toNat
          let hammerHashTarget := wrap256 (hammerHashTarget * (wrapU32 targetBlockCount).toNat)
          let hammerHashTarget := hammerHashTarget / (forgeBlockCount % 2 ^ 64).toNat
          let hammerHashTarget :=
            if hammerHashTarget > bnPowLimit then bnPowLimit else hammerHashTarget
          .ok (GetCompact hammerHashTarget)

/-- The loop `while (true)` of the Forge 1.0 part of `GetNextForgeWorkRequired`
(lines 368-388): `none` is the early return of the pow-limit, taken at the
block the walk stands on; otherwise the result is the forge-mined block found
and `numPowBlocks`. -/
def emaWalk (E : Env) (P : Params) : PIndex → Int → Outcome (Option Nat × PIndex × Int)
  | .nullptr, _ => .aborted
  | .entry nHeight hdr pprev pskip, numPowBlocks =>
    let pindexLast := PIndex.entry nHeight hdr pprev pskip
    match pprev with
    | .nullptr =>
      .ok (some (if E.IsForge12Enabled pindexLast then GetCompact P.powLimitForge2
                 else GetCompact P.powLimitForge), pindexLast, numPowBlocks)
    | .entry _ _ _ _ =>
      if nHeight < P.minForgeCheckBlock then
        .ok (some (if E.IsForge12Enabled pindexLast then GetCompact P.powLimitForge2
                   else GetCompact P.powLimitForge), pindexLast, numPowBlocks)
      else if E.IsForgeMined hdr then .ok (none, pindexLast, numPowBlocks)
      else emaWalk E P pprev (numPowBlocks + 1)

/-- The Forge 1.0 part of `GetNextForgeWorkRequired` (lines 361-409), the EMA. -/
def forgeEMA (E : Env) (P : Params) (pindexLast : PIndex) : Outcome Nat :=
  let bnPowLimit := P.powLimitForge
  let bnPowLimit2 := P.powLimitForge2
  (emaWalk E P pindexLast 0).andThen fun r =>
    match r with
    | (some limit, _, _) => .ok limit
    | (none, .nullptr, _) => .aborted
    | (none, .entry nHeight hdr pprev pskip, numPowBlocks) =>
      let pindexLast := PIndex.entry nHeight hdr pprev pskip
      let hammerHashTarget := (SetCompact hdr.nBits).1
      if numPowBlocks = 0 then .ok (GetCompact 0)
      else if P.forgeBlockSpacingTarget = 0 then .aborted
      else
        let interval := Int.tdiv P.forgeTargetAdjustAggression P.forgeBlockSpacingTarget
        let hammerHashTarget := wrap256 (hammerHashTarget *
          (wrapU32 ((interval - 1) * P.forgeBlockSpacingTarget + numPowBlocks + numPowBlocks)).toNat)
        if (((interval + 1) * P.forgeBlockSpacingTarget) % 2 ^ 64).toNat = 0 then .aborted
        else
          let hammerHashTarget :=
            hammerHashTarget / (((interval + 1) * P.forgeBlockSpacingTarget) % 2 ^ 64).toNat
          let hammerHashTarget :=
            if hammerHashTarget > bnPowLimit2 ∧ E.IsForge12Enabled pindexLast then bnPowLimit2
            else hammerHashTarget
          let hammerHashTarget :=
            if hammerHashTarget > bnPowLimit2 ∧ ¬ E.IsForge12Enabled pindexLast then bnPowLimit
            else hammerHashTarget
          .ok (GetCompact hammerHashTarget)

/-- The function `GetNextForgeWorkRequired` of pow.cpp.  The source writes
`$$` for the last conjunction of its first two conditions, which is read as
`&&`; these two conditions call `IsForge13Enabled(pindexLast, params)`, the
third one `IsForge13Enabled(pindexLast->nHeight)`. -/
def GetNextForgeWorkRequired (E : Env) (P : Params) (pindexLast : PIndex) : Outcome Nat :=
  match pindexLast with
  | .nullptr => .aborted
  | .entry nHeight _ _ _ =>
    if E.IsForge11Enabled pindexLast ∧ ¬ E.IsForge12Enabled pindexLast
        ∧ ¬ E.IsForge13EnabledAt pindexLast then
      GetNextForge11WorkRequired E P pindexLast
    else if E.IsForge11Enabled pindexLast ∧ E.IsForge12Enabled pindexLast
        ∧ ¬ E.IsForge13EnabledAt pindexLast then
      GetNextForge12WorkRequired E P pindexLast
    else if E.IsForge13Enabled nHeight then
      GetNextForge13WorkRequired E P pindexLast
    else forgeEMA E P pindexLast

/-! ## GetNetworkForgeInfo: donation test (pow.cpp 458-464) -/

/-- The treatment of a BCT with a community output in `GetNetworkForgeInfo`, in
`int64_t`: `none` is the `continue` for a donation that is not the expected
one, otherwise the result is `hammerFeePaid` with the donation added back.  A
sum outside `int64_t` and a zero divisor are undefined. -/
def forgeInfoFeePaid (P : Params) (hammerFeePaid donationAmount : Int) : Outcome (Option Int) :=
  if hammerFeePaid + donationAmount < -2 ^ 63 ∨ 2 ^ 63 ≤ hammerFeePaid + donationAmount then
    .aborted
  else if P.communityContribFactor = 0 then .aborted
  else
    let expectedDonationAmount :=
      Int.tdiv (hammerFeePaid + donationAmount) P.communityContribFactor
    if donationAmount ≠ expectedDonationAmount then .ok none
    else .ok (some (hammerFeePaid + donationAmount))

/-! ## CChain::SetTip (chain.cpp 15-25) -/

/-- The call `vChain.resize(n)`: the vector is cut to `n` entries or filled up
with null pointers. -/
def resize (vChain : List PIndex) (n : Nat) : List PIndex :=
  vChain.take n ++ List.replicate (n - vChain.length) .nullptr

/-- The loop `while (pindex && vChain[pindex->nHeight] != pindex)` of
`CChain::SetTip`.  An index outside the vector is undefined behaviour;
equality of the blocks stands for equality of the pointers. -/
def SetTipWalk : PIndex → List PIndex → Outcome (List PIndex)
  | .nullptr, vChain => .ok vChain
  | .entry nHeight hdr pprev pskip, vChain =>
    if nHeight < 0 ∨ (vChain.length : Int) ≤ nHeight then .aborted
    else if vChain.getD nHeight.toNat .nullptr = .entry nHeight hdr pprev pskip then .ok vChain
    else SetTipWalk pprev (vChain.set nHeight.toNat (.entry nHeight hdr pprev pskip))

/-- The function `CChain::SetTip`; the result is `vChain` after the call.  A
negative `nHeight + 1` is no size of a vector. -/
def SetTip (pindex : PIndex) (vChain : List PIndex) : Outcome (List PIndex) :=
  match pindex with
  | .nullptr => .ok []
  | .entry nHeight hdr pprev pskip =>
    if nHeight + 1 < 0 then .aborted
    else SetTipWalk (.entry nHeight hdr pprev pskip) (resize vChain (nHeight + 1).toNat)

/-! ## BusyHammers: interleaving pre-check (miner.cpp 651-670) -/

/-- The loop `while (pindexTemp->GetBlockHeader().IsForgeMined(consensusParams))`
of `BusyHammers` from `pindexTemp` with `forgeBlocksAtTip` counted so far. -/
def minerForgeBlocksAtTip (E : Env) : PIndex → Int → Outcome Int
  | .nullptr, _ => .aborted
  | .entry _ hdr pprev _, forgeBlocksAtTip =>
    if E.IsForgeMined hdr then
      match pprev with
      | .nullptr => .aborted
      | .entry _ _ _ _ => minerForgeBlocksAtTip E pprev (forgeBlocksAtTip + 1)
    else .ok forgeBlocksAtTip

/-- The interleaving pre-check of `BusyHammers`; `rejected` is the
`return false` that skips the search. -/
def MinerInterleavingCheck (E : Env) (P : Params) (pindexPrev : PIndex) : Outcome Unit :=
  if E.IsForge11Enabled pindexPrev then
    (minerForgeBlocksAtTip E pindexPrev 0).andThen fun forgeBlocksAtTip =>
      if forgeBlocksAtTip ≥ P.maxConsecutiveForgeBlocks then .rejected else .ok ()
  else
    match pindexPrev with
    | .nullptr => .aborted
    | .entry _ hdr _ _ => if E.IsForgeMined hdr then .rejected else .ok ()

/-! ## BusyHammers: binning of the hammers (miner.cpp 696-756) -/

/-- The fields of `CHammerCreationTransactionInfo` that `BusyHammers` reads. -/
structure CHammerCreationTransactionInfo where
  txid : String
  hammerStatus : String
  hammerCount : Int
  goldAddress : String
  communityContrib : Bool
deriving DecidableEq, Repr

/-- A range of hammers of one BCT, `CHammerRange`. -/
structure CHammerRange where
  txid : String
  goldAddress : String
  communityContrib : Bool
  offset : Int
  count : Int
deriving DecidableEq, Repr

/-- The loop `for (.. it = bcts.begin(); it != bcts.end(); it++)` that adds up
`totalHammers` (lines 697-704). -/
def totalHammers : List CHammerCreationTransactionInfo → Int
  | [] => 0
  | bct :: rest =>
    if bct.hammerStatus ≠ "ready" then totalHammers rest
    else bct.hammerCount + totalHammers rest

/-- The initialiser `ceil(totalHammers / (float)threadCount)` of the `int`
`hammersPerBin` (line 720): both operands are converted to `float`, the
quotient is a `float`, and its ceiling is converted to `int`.  A quotient that
is no finite number (a zero divisor) and a ceiling outside `int` have no
defined conversion. -/
def hammersPerBin (totalHammers threadCount : Int) : Outcome Int :=
  match toFloat totalHammers, toFloat threadCount with
  | some a, some b =>
    if b = 0 then .aborted
    else
      match toFloat (a / b) with
      | none => .aborted
      | some q =>
        if Int.ceil q < -2 ^ 31 ∨ 2 ^ 31 ≤ Int.ceil q then .aborted
        else .ok (Int.ceil q)
  | _, _ => .aborted

/-- The loop `do { bctIterator++; if (bctIterator == bcts.end()) break; bct = *bctIterator; } while (bct.hammerStatus != "mature");`
applied to the BCTs behind the current one; the result is the BCTs from the
new current one on (none at the end). -/
def nextBCT : List CHammerCreationTransactionInfo → List CHammerCreationTransactionInfo
  | [] => []
  | bct :: rest => if bct.hammerStatus ≠ "mature" then nextBCT rest else bct :: rest

/-- The inner loop `while (bctIterator != bcts.end())` (lines 731-753) that
fills one bin.  The BCTs are those from the iterator on, their head being
`bct`; the result is the BCTs left, `hammerOffset` and the bin.  The first
argument bounds the number of iterations. -/
def fillBin (hammersPerBin : Int) : Nat → List CHammerCreationTransactionInfo → Int → Int →
    List CHammerRange → Outcome (List CHammerCreationTransactionInfo × Int × List CHammerRange)
  | 0, _, _, _, _ => .aborted
  | _ + 1, [], hammerOffset, _, currentBin => .ok ([], hammerOffset, currentBin)
  | fuel + 1, bct :: rest, hammerOffset, hammersInBin, currentBin =>
    let spaceLeft := hammersPerBin - hammersInBin
    if bct.hammerCount - hammerOffset ≤ spaceLeft then
      fillBin hammersPerBin fuel (nextBCT rest) 0
        (hammersInBin + (bct.hammerCount - hammerOffset))
        (currentBin ++ [⟨bct.txid, bct.goldAddress, bct.communityContrib, hammerOffset,
          bct.hammerCount - hammerOffset⟩])
    else
      .ok (bct :: rest, hammerOffset + spaceLeft,
        currentBin ++ [⟨bct.txid, bct.goldAddress, bct.communityContrib, hammerOffset, spaceLeft⟩])

/-- The outer loop `while (bctIterator != bcts.end())` (lines 728-756); the
result is `hammerBins`.  The first argument bounds the number of bins; a loop
that does not end within it is `aborted`. -/
def binLoop (hammersPerBin : Int) : Nat → List CHammerCreationTransactionInfo → Int →
    List (List CHammerRange) → Outcome (List (List CHammerRange))
  | _, [], _, hammerBins => .ok hammerBins
  | 0, _ :: _, _, _ => .aborted
  | fuel + 1, bct :: rest, hammerOffset, hammerBins =>
    (fillBin hammersPerBin (rest.length + 2) (bct :: rest) hammerOffset 0 []).andThen fun r =>
      binLoop hammersPerBin fuel r.1 r.2.1 (hammerBins ++ [r.2.2])

/-- The binning of `BusyHammers` (lines 696-756) for the BCTs of the wallet and
the thread count in use: `rejected` is the `return false` for no ready hammer,
otherwise the result is `hammerBins`.  Every bin that the loop pushes takes up
a BCT or `hammersPerBin` hammers of one, which bounds their number. -/
def BusyHammersBins (bcts : List CHammerCreationTransactionInfo) (threadCount : Int) :
    Outcome (List (List CHammerRange)) :=
  if totalHammers bcts = 0 then .rejected
  else
    (hammersPerBin (totalHammers bcts) threadCount).andThen fun hammersPerBin =>
      binLoop hammersPerBin
        (bcts.length + ((bcts.map fun bct => bct.hammerCount.toNat).sum) + 1) bcts 0 []

/-! ## GetNetworkForgeInfo: the scan of the blocks (pow.cpp 441-511) -/

/-- The loop `for (int i = 0; i < totalHammerLifespan; i++)` of
`GetNetworkForgeInfo` with `remaining` iterations left, at depth `i` and block
`pindexPrev`, as far as the counting goes: the result lists the blocks whose
BCTs are counted, each with `true` when they are counted as ready
(`readyHammers`, `readyBCTs`) and `false` when as created
(`i < hammerGestationBlocks`).  Forge-mined blocks are not looked into, and
the loop ends at a block without parent. -/
def forgeInfoScan (E : Env) (P : Params) : Nat → Int → PIndex → Outcome (List (PIndex × Bool))
  | 0, _, _ => .ok []
  | _ + 1, _, .nullptr => .aborted
  | remaining + 1, i, .entry nHeight hdr pprev pskip =>
    let here : List (PIndex × Bool) :=
      if E.IsForgeMined hdr then []
      else [(.entry nHeight hdr pprev pskip, !decide (i < P.hammerGestationBlocks))]
    match pprev with
    | .nullptr => .ok here
    | .entry _ _ _ _ =>
      (forgeInfoScan E P remaining (i + 1) pprev).andThen fun rest => .ok (here ++ rest)

/-- The blocks `GetNetworkForgeInfo` counts from the tip `pindexPrev`, with
`totalHammerLifespan = hammerLifespanBlocks + hammerGestationBlocks` iterations. -/
def GetNetworkForgeInfoScan (E : Env) (P : Params) (pindexPrev : PIndex) :
    Outcome (List (PIndex × Bool)) :=
  forgeInfoScan E P (P.hammerLifespanBlocks + P.hammerGestationBlocks).toNat 0 pindexPrev

/-! ## Notions used to state the properties -/

/-- The block reached from `b` by following `pprev` exactly `n` times. -/
def nthPrev : Nat → PIndex → PIndex
  | 0, b => b
  | _ + 1, .nullptr => .nullptr
  | n + 1, .entry _ _ pprev _ => nthPrev n pprev

/-- The field `nHeight` (0 for the null pointer). -/
def PIndex.height : PIndex → Int
  | .nullptr => 0
  | .entry nHeight _ _ _ => nHeight

/-- The chain behind a block: the block, its parent, and so on to the genesis. -/
def chainOf : PIndex → List PIndex
  | .nullptr => []
  | .entry nHeight hdr pprev pskip => .entry nHeight hdr pprev pskip :: chainOf pprev

/-- The number of consecutive forge-mined blocks ending at a block, counted
along `pprev`. -/
def consecutiveForge (E : Env) : PIndex → Nat
  | .nullptr => 0
  | .entry _ hdr pprev _ => if E.IsForgeMined hdr then consecutiveForge E pprev + 1 else 0

/-- Some block of the chain behind (and including) `b` is not forge-mined. -/
def hasPowBlock (E : Env) : PIndex → Bool
  | .nullptr => false
  | .entry _ hdr pprev _ => !E.IsForgeMined hdr || hasPowBlock E pprev

/-- A chain grown from a PoW genesis in which every forge-mined block passed
the interleaving step against its parent. -/
def InterleavedChain (E : Env) (P : Params) : PIndex → Prop
  | .nullptr => False
  | .entry _ hdr pprev _ =>
    match pprev with
    | .nullptr => E.IsForgeMined hdr = false
    | .entry _ _ _ _ =>
      InterleavedChain E P pprev ∧
        (E.IsForgeMined hdr = true → InterleavingStep E P pprev = .ok ())

/-- A well-formed block index: the genesis block has height 0 and no skip
pointer, every other block has the height of its parent plus one and the skip
pointer that `BuildSkip` computes. -/
def WellFormed : PIndex → Prop
  | .nullptr => False
  | .entry nHeight hdr pprev pskip =>
    match pprev with
    | .nullptr => nHeight = 0 ∧ pskip = .nullptr
    | .entry h _ _ _ =>
      WellFormed pprev ∧ nHeight = h + 1 ∧
        BuildSkip (.entry nHeight hdr pprev .nullptr) = .ok (.entry nHeight hdr pprev pskip)

/-- Whether the header of a block is forge-mined (false for the null pointer). -/
def forgeMined (E : Env) : PIndex → Bool
  | .nullptr => false
  | .entry _ hdr _ _ => E.IsForgeMined hdr

/-- Heights along `pprev`: the genesis block has height 0, every other block
the height of its parent plus one. -/
def Heights : PIndex → Prop
  | .nullptr => False
  | .entry nHeight _ pprev _ =>
    match pprev with
    | .nullptr => nHeight = 0
    | .entry h _ _ _ => nHeight = h + 1 ∧ Heights pprev

/-- Every skip pointer behind a block points to the ancestor at the skip height. -/
def SkipsOK : PIndex → Prop
  | .nullptr => True
  | .entry nHeight _ pprev pskip =>
    match pprev with
    | .nullptr => True
    | .entry _ _ _ _ =>
      pskip = nthPrev (nHeight - 1 - GetSkipHeight nHeight).toNat pprev ∧ SkipsOK pprev

/-- The output 1 of the BCT as the donation step obtains it: from the
transaction held, else from the UTXO set, else from the drilled transaction. -/
def communityOutput (E : Env) (pindexPrev : PIndex) (pr : ForgeProof)
    (bct : Option CTransaction) : Option CTxOut :=
  match bct with
  | some t => (t.vout.drop 1).head?
  | none =>
    match E.GetCoin pr.txidStr 1 with
    | some coin => some coin.out
    | none =>
      match E.GetTxByHashAndHeight pr.txidStr pr.bctClaimedHeight pindexPrev with
      | none => none
      | some (t, _) => (t.vout.drop 1).head?

/-- A coinbase that `CheckForgeProof` checks for: not 2 or 3 outputs, a first
output script below 144 bytes, or one that does not start `OP_RETURN OP_HAMMER`. -/
def malformedCoinbase (OP_HAMMER : Nat) (txCoinbase : CTransaction) : Prop :=
  ¬ (txCoinbase.vout.length = 2 ∨ txCoinbase.vout.length = 3) ∨
  (txCoinbase.vout.headD ⟨0, []⟩).scriptPubKey.length < 144 ∨
  (txCoinbase.vout.headD ⟨0, []⟩).scriptPubKey.getD 0 0 ≠ OP_RETURN ∨
  (txCoinbase.vout.headD ⟨0, []⟩).scriptPubKey.getD 1 0 ≠ OP_HAMMER

/-- The number of PoW blocks stepped over from `b` before the first forge-mined
block, looking at no more than `n` blocks. -/
def blocksSinceForge (E : Env) : Nat → PIndex → Nat
  | 0, _ => 0
  | _ + 1, .nullptr => 0
  | n + 1, .entry _ hdr pprev _ =>
    if E.IsForgeMined hdr then 0 else blocksSinceForge E n pprev + 1

/-- The first forge-mined block among the `n` blocks from `b` on, if any. -/
def lastForgeWithin (E : Env) : Nat → PIndex → Option PIndex
  | 0, _ => none
  | _ + 1, .nullptr => none
  | n + 1, .entry nHeight hdr pprev pskip =>
    if E.IsForgeMined hdr then some (.entry nHeight hdr pprev pskip)
    else lastForgeWithin E n pprev

/-- The difficulty of the forge-mined block found among the `n` blocks from
`b` on, 0 when there is none. -/
def lastForgeDifficulty (E : Env) (n : Nat) (b : PIndex) : ℚ :=
  match lastForgeWithin E n b with
  | some f => E.GetDifficulty f
  | none => 0

/-- The factor `k` in the words of the spec: `maxKPow - d`, halved below
`powSplit1`, halved again below `powSplit2`, raised to 1. -/
def bonusFactor (P : Params) (d : Nat) (lastForgeDiff : ℚ) : Nat :=
  let k := P.maxKPow.toNat - d
  let k := if lastForgeDiff < P.powSplit1 then k / 2 else k
  let k := if lastForgeDiff < P.powSplit2 then k / 2 else k
  max k 1

/-- The work of a target in the words of the spec, `floor(2^256 / (x + 1))`. -/
def work (x : Nat) : Nat := 2 ^ 256 / (x + 1)

/-- A compact value that decodes to a non-negative, non-overflowing, non-zero
target. -/
def validCompact (nCompact : Nat) : Bool :=
  !(SetCompact nCompact).2.1 && !(SetCompact nCompact).2.2 && decide ((SetCompact nCompact).1 ≠ 0)

/-- The base work of a block: the work of its target, 0 for a compact value
that is not valid. -/
def baseWork (nCompact : Nat) : Nat :=
  if validCompact nCompact then work (SetCompact nCompact).1 else 0

/-- The nearest block at or behind `b` that is not forge-mined (the null
pointer when there is none). -/
def nearestPow (E : Env) : PIndex → PIndex
  | .nullptr => .nullptr
  | .entry nHeight hdr pprev pskip =>
    if E.IsForgeMined hdr then nearestPow E pprev else .entry nHeight hdr pprev pskip

/-- The field `nBits` of a block (0 for the null pointer). -/
def PIndex.bits : PIndex → Nat
  | .nullptr => 0
  | .entry _ hdr _ _ => hdr.nBits

/-- The field `pprev` (null for the null pointer). -/
def PIndex.pprev : PIndex → PIndex
  | .nullptr => .nullptr
  | .entry _ _ pprev _ => pprev

/-- The invariant of the vector of the active chain: entry `i` is a block of
height `i`, and for `i > 0` its `pprev` is entry `i - 1`. -/
def ChainInvariant (vChain : List PIndex) : Prop :=
  ∀ i : Nat, i < vChain.length →
    vChain.getD i .nullptr ≠ .nullptr ∧ (vChain.getD i .nullptr).height = i ∧
    (0 < i → (vChain.getD i .nullptr).pprev = vChain.getD (i - 1) .nullptr)

/-- The block `DarkGravityWave` measures from: under Forge 1.1 the nearest
PoW block at or behind `prev`, otherwise `prev`. -/
def dgwTip (E : Env) (prev : PIndex) : PIndex :=
  if E.IsForge11Enabled prev then nearestPow E prev else prev

/-- The targets of the first `k` blocks at or behind `b` that are not
forge-mined, nearest first. -/
def powTargets (E : Env) : Nat → PIndex → List Nat
  | _, .nullptr => []
  | k, .entry _ hdr pprev _ =>
    match k with
    | 0 => []
    | j + 1 =>
      if E.IsForgeMined hdr then powTargets E (j + 1) pprev
      else (SetCompact hdr.nBits).1 :: powTargets E j pprev

/-- The `k`-th block at or behind `b` that is not forge-mined (the null
pointer when there are fewer, or for `k = 0`). -/
def kthPow (E : Env) : Nat → PIndex → PIndex
  | _, .nullptr => .nullptr
  | k, .entry nHeight hdr pprev pskip =>
    match k with
    | 0 => .nullptr
    | j + 1 =>
      if E.IsForgeMined hdr then kthPow E (j + 1) pprev
      else if j = 0 then .entry nHeight hdr pprev pskip
      else kthPow E j pprev

/-- The progressive average of the spec, `avg <- (avg * n + target_n) / (n + 1)`
from the first target on, in exact integers; `n` is the number of the next
target and `avg` the value so far. -/
def progressiveAvg : Nat → Nat → List Nat → Nat
  | _, avg, [] => avg
  | n, avg, t :: ts => progressiveAvg (n + 1) (if n = 1 then t else (avg * n + t) / (n + 1)) ts

/-- The time span `actual` clamped to `[24 * spacing div 3, 24 * spacing * 3]`. -/
def clampTimespan (P : Params) (actual : Int) : Int :=
  min (max actual (Int.tdiv (24 * P.nPowTargetSpacing) 3)) (24 * P.nPowTargetSpacing * 3)

/-- The escalator of the spec applied to `base`, in exact integers, with
`slack = block.time - tip.time`. -/
def escalator (P : Params) (slack : Int) (base : Nat) : Nat :=
  if slack > 30 * P.nPowTargetSpacing then P.powLimit
  else if slack > 25 * P.nPowTargetSpacing then base * 100000
  else if slack > 20 * P.nPowTargetSpacing then base * 10000
  else if slack > 15 * P.nPowTargetSpacing then base * 1000
  else if slack > 10 * P.nPowTargetSpacing then base * 100
  else base

/-- The pre-clamp target of the Forge 1.0 EMA in the words of the spec, in
exact integers: `floor(T * ((interval - 1) * s + 2 * nPow) / ((interval + 1) * s))`
with `s = forgeBlockSpacingTarget` and
`interval = forgeTargetAdjustAggression div s`. -/
def emaPreClamp (P : Params) (T : Nat) (nPow : Int) : Nat :=
  T * ((Int.tdiv P.forgeTargetAdjustAggression P.forgeBlockSpacingTarget - 1)
        * P.forgeBlockSpacingTarget + 2 * nPow).toNat /
    ((Int.tdiv P.forgeTargetAdjustAggression P.forgeBlockSpacingTarget + 1)
        * P.forgeBlockSpacingTarget).toNat

/-- The number of blocks at or behind `b` that are not forge-mined. -/
def powBlocksBehind (E : Env) : PIndex → Nat
  | .nullptr => 0
  | .entry _ hdr pprev _ =>
    if E.IsForgeMined hdr then powBlocksBehind E pprev else powBlocksBehind E pprev + 1

/-- The targets of the forge-mined blocks that the walk of the SMA functions
adds up: most recent first, at most `window` of them, not looking at the
genesis block nor at or behind a block below `minForgeCheckBlock`. -/
def forgeTargets (E : Env) (P : Params) : Nat → PIndex → List Nat
  | _, .nullptr => []
  | window, .entry nHeight hdr pprev _ =>
    match pprev with
    | .nullptr => []
    | .entry _ _ _ _ =>
      match window with
      | 0 => []
      | w + 1 =>
        if nHeight < P.minForgeCheckBlock then []
        else if E.IsForgeMined hdr then (SetCompact hdr.nBits).1 :: forgeTargets E P w pprev
        else forgeTargets E P (w + 1) pprev

/-- The targets of the forge-mined blocks among the `n` blocks from `b` on. -/
def windowForgeTargets (E : Env) : Nat → PIndex → List Nat
  | 0, _ => []
  | _ + 1, .nullptr => []
  | n + 1, .entry _ hdr pprev _ =>
    if E.IsForgeMined hdr then (SetCompact hdr.nBits).1 :: windowForgeTargets E n pprev
    else windowForgeTargets E n pprev

/-- The `n` blocks from `b` on are available to the walk of
`GetNextForge13WorkRequired`: each has a parent and a height of at least
`minForgeCheckBlock`. -/
def windowAvailable (P : Params) : Nat → PIndex → Bool
  | 0, _ => true
  | _ + 1, .nullptr => false
  | n + 1, .entry nHeight _ pprev _ =>
    match pprev with
    | .nullptr => false
    | .entry _ _ _ _ => decide (P.minForgeCheckBlock ≤ nHeight) && windowAvailable P n pprev

/-! ## Parameters and a small chain for the worked scenarios -/

/-- The main-net parameters of chainparams.cpp (the two scripts abbreviated).
The literal of `powLimitForge2` there has 65 hex digits, a `7` followed by 64
`f`; `uint256S` fills the 32 bytes from the end of the string, which leaves
`2^256 - 1`.  The three `double` fields are the values of the literals
`0.006`, `0.005` and `0.0025`, that is the nearest numbers with 53 bits. -/
def mainParams : Params where
  powLimit := 0x00000fffffffffffffffffffffffffffffffffffffffffffffffffffffffffff
  fPowAllowMinDifficultyBlocks := false
  nPowTargetSpacing := 10
  lastScryptBlock := 0
  minHammerCost := 10000
  hammerCostFactor := 2500
  hammerCreationScript := [1]
  forgeCommunityScript := [2]
  communityContribFactor := 10
  hammerGestationBlocks := 48 * 24
  hammerLifespanBlocks := 48 * 24 * 14
  powLimitForge := 0x0fffffffffffffffffffffffffffffffffffffffffffffffffffffffffffffff
  powLimitForge2 := 0xffffffffffffffffffffffffffffffffffffffffffffffffffffffffffffffff
  forgeNonceMarker := 192
  minForgeCheckBlock := 125
  forgeTargetAdjustAggression := 30
  forgeBlockSpacingTarget := 2
  minK := 2
  maxK := 16
  minK2 := 1
  maxK2 := 7
  maxForgeDiff := 3458764513820541 / 576460752303423488
  maxKPow := 5
  powSplit1 := 5764607523034235 / 1152921504606846976
  powSplit2 := 5764607523034235 / 2305843009213693952
  maxConsecutiveForgeBlocks := 2
  forgeDifficultyWindow := 36
  forgeDifficultyWindow2 := 24

/-- The parameters of the boundary scenarios: gestation 2, lifespan 3. -/
def scenarioParams : Params :=
  { mainParams with hammerGestationBlocks := 2, hammerLifespanBlocks := 3 }

/-- An environment for the scenarios: a header is forge-mined when its nonce
is the marker 192, Forge 1.1 is active, block subsidies have ended, the UTXO
set holds one BCT output of value 20000 created at height 0 for key 7, and the
forge difficulty of every block is the `double` 0.01. -/
def scenarioEnv : Env where
  IsForgeMined := fun hdr => hdr.nNonce == 192
  IsForgeEnabled := fun _ => true
  IsForge11Enabled := fun _ => true
  IsForge12Enabled := fun _ => false
  IsForge13Enabled := fun _ => false
  IsForge13EnabledAt := fun _ => false
  IsBCT := fun _ => false
  IsCoinBase := fun t => t.id == 0
  GetDeterministicRandString := fun _ => []
  hammerHash := fun _ _ _ => 0
  ExtractDestination := fun s => match s with
    | [] => none
    | a :: _ => some (.keyID a)
  RecoverCompactID := fun _ _ => some 7
  GetCoin := fun _ n => if n = 0 then some ⟨⟨20000, [0, 7]⟩, 0⟩ else none
  GetTxByHashAndHeight := fun _ _ _ => none
  IsBCTScript := fun s _ => some (s.drop 1)
  GetBlockSubsidy := fun _ => 0
  GetDifficulty := fun _ => 5764607523034235 / 576460752303423488

/-- The scenario environment before the activation of Forge 1.1. -/
def legacyEnv : Env :=
  { scenarioEnv with IsForge11Enabled := fun _ => false }

/-- The genesis block of chainparams.cpp (time 1585891944, nonce 50581, bits
`0x1e0ffff0`): a PoW block. -/
def genesisIndex : PIndex := .entry 0 ⟨1585891944, 0x1e0ffff0, 50581⟩ .nullptr .nullptr

/-- A PoW block on the genesis block. -/
def powIndex1 : PIndex := .entry 1 ⟨1585891954, 0x1e0ffff0, 1⟩ genesisIndex genesisIndex

/-- A forge-mined block at height 2. -/
def forgeIndex2 : PIndex := .entry 2 ⟨1585891964, 0x1e0ffff0, 192⟩ powIndex1 genesisIndex

/-- A proof script of 144 bytes that starts `OP_RETURN OP_HAMMER` (with
`OP_HAMMER` taken as `0xc1`) and carries none of the four size markers:
bytes 2, 7, 13 and 78 are 5, 9, 0 and 0. -/
def unmarkedScript : List Nat :=
  [0x6a, 0xc1, 5, 0, 0, 0, 0, 9, 0, 0, 0, 0, 0, 0] ++ List.replicate 64 48 ++ [0]
    ++ List.replicate 65 0

/-- A block on `powIndex1` whose coinbase carries `unmarkedScript`. -/
def unmarkedBlock : CBlock :=
  ⟨powIndex1, [⟨0, [⟨0, unmarkedScript⟩, ⟨50, [7]⟩]⟩]⟩

/-- A PoW block whose compact target decodes to 1. -/
def hardPowIndex : PIndex := .entry 1 ⟨1585891954, 0x01010000, 1⟩ genesisIndex genesisIndex

/-- A forge-mined block on `hardPowIndex` whose compact target decodes to 1. -/
def hardForgeIndex : PIndex :=
  .entry 2 ⟨1585891964, 0x01010000, 192⟩ hardPowIndex genesisIndex

/-- The main-net parameters with the testnet value 1 of `minForgeCheckBlock`,
so that short chains are looked at. -/
def shortParams : Params :=
  { mainParams with minForgeCheckBlock := 1 }

/-- The chain made of `b` and `n` further blocks with the header `hdr` on top
of it, heights continuing, times 10 apart from `hdr.nTime` on (skip pointers,
which the difficulty functions do not read, left null). -/
def extendChain (hdr : CBlockHeader) : Nat → PIndex → PIndex
  | 0, b => b
  | n + 1, b =>
    .entry ((extendChain hdr n b).height + 1) ⟨hdr.nTime + 10 * n, hdr.nBits, hdr.nNonce⟩
      (extendChain hdr n b) .nullptr

/-- A PoW block at height 3 on the forge-mined `forgeIndex2`. -/
def powIndex3 : PIndex := .entry 3 ⟨1585891974, 0x1e0ffff0, 7⟩ forgeIndex2 powIndex1

/-- A PoW block at height 3 on the forge-mined `forgeIndex2` with the valid
compact target 1. -/
def hardPowIndex3 : PIndex := .entry 3 ⟨1585891974, 0x01010000, 7⟩ forgeIndex2 powIndex1

/-- A genesis block of time 760 for the difficulty scenarios. -/
def dgwGenesis : PIndex := .entry 0 ⟨760, 0x1b0ffff0, 1⟩ .nullptr .nullptr

/-- The genesis block and 24 PoW blocks of target `0x1b0ffff0` at the times
770, 780, .., 1000. -/
def powChain24 : PIndex := extendChain ⟨770, 0x1b0ffff0, 1⟩ 24 dgwGenesis

/-- A forge-mined block at height 25 on `powChain24` whose time 955 lies
before the time 1000 of its parent (and behind the median 950 of the last 11
blocks). -/
def lateForgeTip : PIndex := .entry 25 ⟨955, 0x1e0ffff0, 192⟩ powChain24 .nullptr

/-- The genesis block, forge-mined blocks at the heights 1 and 2, and 22 PoW
blocks at the heights 3 to 24. -/
def earlyForgeChain : PIndex :=
  extendChain ⟨790, 0x1b0ffff0, 1⟩ 22
    (.entry 2 ⟨780, 0x1e0ffff0, 192⟩ (.entry 1 ⟨770, 0x1e0ffff0, 192⟩ dgwGenesis .nullptr) .nullptr)

/-- An environment in which Forge 1.2 is active and Forge 1.1 and 1.3 are not. -/
def forge12OnlyEnv : Env :=
  { scenarioEnv with IsForge11Enabled := fun _ => false, IsForge12Enabled := fun _ => true }

/-- The chain made of `b` and `n` further pairs of a PoW block with the header
`pow` and a forge-mined block with the header `forge`, heights continuing. -/
def extendPairs (pow forge : CBlockHeader) : Nat → PIndex → PIndex
  | 0, b => b
  | n + 1, b =>
    .entry ((extendPairs pow forge n b).height + 2) forge
      (.entry ((extendPairs pow forge n b).height + 1) pow (extendPairs pow forge n b) .nullptr)
      .nullptr

/-- The genesis block and 124 PoW blocks. -/
def powChain124 : PIndex := extendChain ⟨770, 0x1b0ffff0, 1⟩ 124 dgwGenesis

/-- On `powChain124`, 17 pairs of a PoW block and a forge-mined block whose
compact target `0x200fffff` is the compact encoding of the main-net
`powLimitForge`; heights 125 to 158. -/
def limitForgeChain : PIndex :=
  extendPairs ⟨2010, 0x1b0ffff0, 1⟩ ⟨2015, 0x200fffff, 192⟩ 17 powChain124

/-- On `powChain124`, 23 PoW blocks and one forge-mined block of target
`2^253` (compact `0x20200000`) at height 148. -/
def sparseForgeChain : PIndex :=
  .entry 148 ⟨2245, 0x20200000, 192⟩ (extendChain ⟨2010, 0x1b0ffff0, 1⟩ 23 powChain124) .nullptr

/-- The main-net parameters with `minForgeCheckBlock` 1 and the forge
pow-limit lowered to `2^236 - 1`, the value of `powLimit`. -/
def lowForgeLimitParams : Params :=
  { shortParams with
    powLimitForge := 0x00000fffffffffffffffffffffffffffffffffffffffffffffffffffffffffff }

/-- The test-net values of the parameters that the Forge 1.0 EMA reads
(chainparams.cpp 276-279): those of the main-net except `minForgeCheckBlock`,
which is 1, and `powLimitForge2`, which the test-net does not set and which
stays the zero of a fresh `uint256`.  The fields that the EMA does not read
are left as on the main-net. -/
def testnetEmaParams : Params :=
  { shortParams with powLimitForge2 := 0 }

/-- The genesis block, a forge-mined block of compact target `0x1e0ffff0` at
height 1 and three PoW blocks at the heights 2 to 4. -/
def emaChain : PIndex :=
  extendChain ⟨790, 0x1b0ffff0, 1⟩ 3 (.entry 1 ⟨780, 0x1e0ffff0, 192⟩ dgwGenesis .nullptr)

/-- The environment of the scenarios with Forge 1.2 active as well. -/
def forge12Env : Env :=
  { scenarioEnv with IsForge12Enabled := fun _ => true }

/-- The genesis block and six PoW blocks. -/
def plainPowChain6 : PIndex := extendChain ⟨770, 0x1b0ffff0, 1⟩ 6 dgwGenesis

/-- The chain made of `b` and `n` further blocks with the header `hdr` on top
of it, heights continuing, times `step` apart from `hdr.nTime` on. -/
def extendChainBy (step : Int) (hdr : CBlockHeader) : Nat → PIndex → PIndex
  | 0, b => b
  | n + 1, b =>
    .entry ((extendChainBy step hdr n b).height + 1) ⟨hdr.nTime + step * n, hdr.nBits, hdr.nNonce⟩
      (extendChainBy step hdr n b) .nullptr

/-- The genesis block and 24 PoW blocks of target `0x0ffff1 * 2^192` at the
times 761, 762, .., 784. -/
def fastPowChain24 : PIndex := extendChainBy 1 ⟨761, 0x1b0ffff1, 1⟩ 24 dgwGenesis

/-- On `powChain124`, a forge-mined block at height 125 whose compact target
`0x200fffff` is the compact encoding of the main-net `powLimitForge`, and a
PoW block at height 126. -/
def limitEmaChain : PIndex :=
  .entry 126 ⟨2020, 0x1b0ffff0, 1⟩ (.entry 125 ⟨2015, 0x200fffff, 192⟩ powChain124 .nullptr) .nullptr
/-! # Theorems -/

/-! ## Maturity step -/

/-- For two block heights the `unsigned int` difference converted to `int` is
the mathematical difference. -/
theorem maturity_depth (h H : Int) (h0 : 0 ≤ h) (h1 : h < 2 ^ 31) (H0 : 0 ≤ H) (H1 : H < 2 ^ 31) :
    wrapI32 (wrapU32 (h - H)) = h - H := by
  unfold wrapI32 wrapU32
  norm_num at *
  omega

/-- C1: for a candidate height `h` and a found BCT height `H` (both block
heights, so below `2^31`; the claimed height equal to the found one) and
gestation `G ≥ 0`, lifespan `L ≥ 0` with `G + L` an `int`, the maturity step
passes iff `G ≤ h - H ≤ G + L` and rejects otherwise; with `G = 2`, `L = 3`,
`H = 10` it passes at 12 and 15 and rejects at 11 and 16. -/
theorem maturity_window (P : Params) (h H : Int)
    (h0 : 0 ≤ h) (h1 : h < 2 ^ 31) (H0 : 0 ≤ H) (H1 : H < 2 ^ 31)
    (hG : 0 ≤ P.hammerGestationBlocks) (hL : 0 ≤ P.hammerLifespanBlocks)
    (hGL : P.hammerGestationBlocks + P.hammerLifespanBlocks < 2 ^ 31) :
    (MaturityStep P h H H = .ok () ↔
        P.hammerGestationBlocks ≤ h - H ∧
          h - H ≤ P.hammerGestationBlocks + P.hammerLifespanBlocks) ∧
    (MaturityStep P h H H = .rejected ↔
        ¬ (P.hammerGestationBlocks ≤ h - H ∧
          h - H ≤ P.hammerGestationBlocks + P.hammerLifespanBlocks)) ∧
    MaturityStep scenarioParams 12 10 10 = .ok () ∧
    MaturityStep scenarioParams 15 10 10 = .ok () ∧
    MaturityStep scenarioParams 11 10 10 = .rejected ∧
    MaturityStep scenarioParams 16 10 10 = .rejected := by
  have hd := maturity_depth h H h0 h1 H0 H1
  have hov : ¬ (P.hammerGestationBlocks + P.hammerLifespanBlocks < -2 ^ 31
        ∨ 2 ^ 31 ≤ P.hammerGestationBlocks + P.hammerLifespanBlocks) := by
    norm_num at *; omega
  refine ⟨?_, ?_, by decide, by decide, by decide, by decide⟩
  · simp only [MaturityStep, hd, ne_eq, not_true_eq_false, if_false, hov]
    split_ifs <;> simp <;> omega
  · simp only [MaturityStep, hd, ne_eq, not_true_eq_false, if_false, hov]
    split_ifs <;> simp <;> omega

/-- Witness of C1: main-net parameters, a BCT found at height 100 and a
candidate block at height 2000. -/
theorem maturity_window_witness :
    (0 : Int) ≤ 2000 ∧ (0 : Int) ≤ 100 ∧ 0 ≤ mainParams.hammerGestationBlocks ∧
    (MaturityStep mainParams 2000 100 100 = .ok () ↔
        mainParams.hammerGestationBlocks ≤ 2000 - 100 ∧
          2000 - 100 ≤ mainParams.hammerGestationBlocks + mainParams.hammerLifespanBlocks) :=
  ⟨by decide, by decide, by decide,
    (maturity_window mainParams 2000 100 (by decide) (by decide) (by decide) (by decide)
      (by decide) (by decide) (by decide)).1⟩

/-! ## Interleaving step -/

/-- When the walk meets a PoW block, the loop adds the number of consecutive
forge-mined blocks to its counter. -/
theorem forgeBlocksAtTip_eq (E : Env) (b : PIndex) :
    ∀ n : Int, hasPowBlock E b = true →
      forgeBlocksAtTip E b n = .ok (n + consecutiveForge E b) := by
  induction b with
  | nullptr => intro n h; simp [hasPowBlock] at h
  | entry nHeight hdr pprev pskip ihp _ =>
    intro n h
    by_cases hm : E.IsForgeMined hdr = true
    · have hp : hasPowBlock E pprev = true := by simpa [hasPowBlock, hm] using h
      cases pprev with
      | nullptr => simp [hasPowBlock] at hp
      | entry h2 hdr2 pp2 ps2 =>
        rw [forgeBlocksAtTip]
        simp only [hm, if_true]
        rw [ihp (n + 1) hp]
        simp only [consecutiveForge, hm, if_true]
        congr 1
        push_cast
        ring
    · simp [forgeBlocksAtTip, consecutiveForge, hm]

/-- When every block behind `b` is forge-mined, the walk runs into the failed
`assert(pindexTemp->pprev)`. -/
theorem forgeBlocksAtTip_aborts (E : Env) (b : PIndex) :
    ∀ n : Int, hasPowBlock E b = false → forgeBlocksAtTip E b n = .aborted := by
  induction b with
  | nullptr => intro n _; rfl
  | entry nHeight hdr pprev pskip ihp _ =>
    intro n h
    have hm : E.IsForgeMined hdr = true := by
      by_contra hc
      simp [hasPowBlock, hc] at h
    have hp : hasPowBlock E pprev = false := by simpa [hasPowBlock, hm] using h
    cases pprev with
    | nullptr => simp [forgeBlocksAtTip, hm]
    | entry h2 hdr2 pp2 ps2 =>
      rw [forgeBlocksAtTip]
      simp only [hm, if_true]
      exact ihp (n + 1) hp

/-- The interleaving step as a single test. -/
theorem interleavingStep_eq (E : Env) (P : Params) (prev : PIndex) (hprev : prev ≠ .nullptr)
    (hpow : E.IsForge11Enabled prev = true → hasPowBlock E prev = true) :
    InterleavingStep E P prev =
      if (if E.IsForge11Enabled prev = true
          then P.maxConsecutiveForgeBlocks ≤ (consecutiveForge E prev : Int)
          else forgeMined E prev = true)
      then .rejected else .ok () := by
  unfold InterleavingStep
  by_cases h11 : E.IsForge11Enabled prev = true
  · simp only [h11, if_true]
    rw [forgeBlocksAtTip_eq E prev 0 (hpow h11)]
    simp [Outcome.andThen]
  · cases prev with
    | nullptr => exact absurd rfl hprev
    | entry nHeight hdr pprev pskip =>
      simp only [h11, if_false, isForgeMinedAt, Outcome.andThen, forgeMined]
      simp

/-- C2: for every parent block `prev` (behind which, when Forge 1.1 is active,
some block is not forge-mined, as the `assert` of the walk demands), the
interleaving step rejects iff, with Forge 1.1 active at `prev`, the number of
consecutive forge-mined blocks ending at `prev` is at least
`maxConsecutiveForgeBlocks`, or, with Forge 1.1 not active, `prev` itself is
forge-mined; otherwise it passes. -/
theorem interleaving_rejects_iff (E : Env) (P : Params) (prev : PIndex)
    (hprev : prev ≠ .nullptr)
    (hpow : E.IsForge11Enabled prev = true → hasPowBlock E prev = true) :
    (InterleavingStep E P prev = .rejected ↔
      if E.IsForge11Enabled prev = true
      then P.maxConsecutiveForgeBlocks ≤ (consecutiveForge E prev : Int)
      else forgeMined E prev = true) ∧
    (InterleavingStep E P prev = .ok () ↔
      ¬ (if E.IsForge11Enabled prev = true
         then P.maxConsecutiveForgeBlocks ≤ (consecutiveForge E prev : Int)
         else forgeMined E prev = true)) := by
  rw [interleavingStep_eq E P prev hprev hpow]
  constructor <;> split_ifs <;> simp_all

/-- Witness of C2: the forge-mined block at height 2 of the scenario chain,
Forge 1.1 active, at most 2 consecutive forge blocks. -/
theorem interleaving_rejects_iff_witness :
    forgeIndex2 ≠ .nullptr ∧ hasPowBlock scenarioEnv forgeIndex2 = true ∧
    (InterleavingStep scenarioEnv mainParams forgeIndex2 = .ok () ↔
      ¬ (if scenarioEnv.IsForge11Enabled forgeIndex2 = true
         then mainParams.maxConsecutiveForgeBlocks ≤ (consecutiveForge scenarioEnv forgeIndex2 : Int)
         else forgeMined scenarioEnv forgeIndex2 = true)) :=
  ⟨by decide, by decide,
    (interleaving_rejects_iff scenarioEnv mainParams forgeIndex2 (by decide)
      (fun _ => by decide)).2⟩

/-- A chain grown from a PoW genesis contains a PoW block. -/
theorem interleavedChain_hasPow (E : Env) (P : Params) (b : PIndex) :
    InterleavedChain E P b → hasPowBlock E b = true := by
  induction b with
  | nullptr => intro h; exact absurd h (by simp [InterleavedChain])
  | entry nHeight hdr pprev pskip ihp _ =>
    intro h
    cases pprev with
    | nullptr =>
      have : E.IsForgeMined hdr = false := by simpa [InterleavedChain] using h
      simp [hasPowBlock, this]
    | entry h2 hdr2 pp2 ps2 =>
      have h' : InterleavedChain E P (.entry h2 hdr2 pp2 ps2) := by
        simp only [InterleavedChain] at h; exact h.1
      have hp := ihp h'
      rw [hasPowBlock, hp]
      simp

/-- Every block of an interleaved chain heads an interleaved chain. -/
theorem interleavedChain_mem (E : Env) (P : Params) (b : PIndex) :
    InterleavedChain E P b → ∀ c ∈ chainOf b, InterleavedChain E P c := by
  induction b with
  | nullptr => intro h; exact absurd h (by simp [InterleavedChain])
  | entry nHeight hdr pprev pskip ihp _ =>
    intro h c hc
    simp only [chainOf, List.mem_cons] at hc
    rcases hc with rfl | hc
    · exact h
    · cases pprev with
      | nullptr => simp [chainOf] at hc
      | entry h2 hdr2 pp2 ps2 =>
        have h' : InterleavedChain E P (.entry h2 hdr2 pp2 ps2) := by
          simp only [InterleavedChain] at h; exact h.1
        exact ihp h' c hc

/-- A forge-mined block of an interleaved chain has a parent against which the
interleaving step passed. -/
theorem interleavedChain_step (E : Env) (P : Params) (nHeight : Int) (hdr : CBlockHeader)
    (pprev pskip : PIndex) (h : InterleavedChain E P (.entry nHeight hdr pprev pskip))
    (hm : E.IsForgeMined hdr = true) :
    pprev ≠ .nullptr ∧ InterleavedChain E P pprev ∧ InterleavingStep E P pprev = .ok () := by
  cases pprev with
  | nullptr =>
    have : E.IsForgeMined hdr = false := by simpa [InterleavedChain] using h
    simp [this] at hm
  | entry h2 hdr2 pp2 ps2 =>
    simp only [InterleavedChain] at h
    exact ⟨by simp, h.1, h.2 hm⟩

/-- C3: in a chain grown from a PoW genesis in which every forge-mined block
passed the interleaving step against its parent, every forge-mined block `c`
has a PoW parent when Forge 1.1 is inactive at the parent, and ends a run of at
most `maxConsecutiveForgeBlocks` forge-mined blocks when Forge 1.1 is active
at the parent; and with `maxConsecutiveForgeBlocks = 2` a further forge block
on a chain ending PoW, Forge, Forge is rejected. -/
theorem interleaved_chain_runs (E : Env) (P : Params) (tip : PIndex)
    (hchain : InterleavedChain E P tip) :
    (∀ c ∈ chainOf tip, ∀ nHeight hdr pprev pskip, c = .entry nHeight hdr pprev pskip →
        E.IsForgeMined hdr = true →
        (E.IsForge11Enabled pprev = false → forgeMined E pprev = false) ∧
        (E.IsForge11Enabled pprev = true →
          (consecutiveForge E c : Int) ≤ P.maxConsecutiveForgeBlocks)) ∧
    (∀ h1 h2 h3 hdr1 hdr2 hdr3 pp s1 s2 s3,
        E.IsForgeMined hdr1 = false → E.IsForgeMined hdr2 = true → E.IsForgeMined hdr3 = true →
        P.maxConsecutiveForgeBlocks = 2 →
        E.IsForge11Enabled (.entry h3 hdr3 (.entry h2 hdr2 (.entry h1 hdr1 pp s1) s2) s3) = true →
        InterleavingStep E P (.entry h3 hdr3 (.entry h2 hdr2 (.entry h1 hdr1 pp s1) s2) s3)
          = .rejected) := by
  constructor
  · intro c hc nHeight hdr pprev pskip hceq hm
    have hcc := interleavedChain_mem E P tip hchain c hc
    subst hceq
    obtain ⟨hne, hpc, hstep⟩ := interleavedChain_step E P nHeight hdr pprev pskip hcc hm
    have hpow := interleavedChain_hasPow E P pprev hpc
    rw [interleavingStep_eq E P pprev hne (fun _ => hpow)] at hstep
    constructor
    · intro h11
      simp only [h11, Bool.false_eq_true, if_false] at hstep
      split_ifs at hstep with hf
      simpa using hf
    · intro h11
      simp only [h11, if_true] at hstep
      split_ifs at hstep with hf
      simp only [consecutiveForge, hm, if_true]
      push_cast
      omega
  · intro h1 h2 h3 hdr1 hdr2 hdr3 pp s1 s2 s3 hm1 hm2 hm3 hmax h11
    rw [interleavingStep_eq E P _ (by simp) (fun _ => by simp [hasPowBlock, hm1])]
    simp [h11, hmax, consecutiveForge, hm1, hm2, hm3]

/-- Witness of C3: the scenario chain genesis, PoW, Forge; its forge-mined
tip ends a run of one block. -/
theorem interleaved_chain_runs_witness :
    InterleavedChain scenarioEnv mainParams forgeIndex2 ∧
    (consecutiveForge scenarioEnv forgeIndex2 : Int) ≤ mainParams.maxConsecutiveForgeBlocks :=
  ⟨by unfold forgeIndex2 powIndex1 genesisIndex; simp only [InterleavedChain]; decide,
    (((interleaved_chain_runs scenarioEnv mainParams forgeIndex2 (by
      unfold forgeIndex2 powIndex1 genesisIndex
      simp only [InterleavedChain]
      decide)).1 forgeIndex2 (by decide) 2 ⟨1585891964, 0x1e0ffff0, 192⟩ powIndex1 genesisIndex rfl
      (by decide)).2 (by decide))⟩

/-! ## Proof script -/

/-- Reading a list behind a prefix. -/
theorem getD_append_add (pre l : List Nat) (i d : Nat) :
    (pre ++ l).getD (pre.length + i) d = l.getD i d := by
  induction pre with
  | nil => simp
  | cons a t ih =>
    have : (a :: t).length + i = (t.length + i) + 1 := by simp; omega
    rw [this]
    simpa using ih

/-- Reading back the four bytes of a 32-bit value at their offset. -/
theorem readLE32_writeLE32 (x : Int) (h0 : 0 ≤ x) (h1 : x < 2 ^ 32) (pre rest : List Nat) :
    ReadLE32 (pre ++ (WriteLE32 x ++ rest)) pre.length = x := by
  have hw : wrapU32 x = x := by
    unfold wrapU32; norm_num at *; omega
  obtain ⟨u, rfl⟩ := Int.eq_ofNat_of_zero_le h0
  have hu : u < 4294967296 := by norm_num at h1; exact_mod_cast h1
  have e0 := getD_append_add pre (WriteLE32 (u : Int) ++ rest) 0 0
  have e1 := getD_append_add pre (WriteLE32 (u : Int) ++ rest) 1 0
  have e2 := getD_append_add pre (WriteLE32 (u : Int) ++ rest) 2 0
  have e3 := getD_append_add pre (WriteLE32 (u : Int) ++ rest) 3 0
  simp only [Nat.add_zero] at e0
  simp only [ReadLE32, e0, e1, e2, e3]
  simp only [WriteLE32, hw, Int.toNat_ofNat, List.cons_append, List.nil_append,
    List.getD_cons_zero, List.getD_cons_succ]
  congr 1
  omega

/-- The byte layout of the assembled proof script. -/
theorem forgeProofScript_layout (OP_HAMMER : Nat) (nonce height : Int) (contrib : Bool)
    (txid sig : List Nat) (ht : txid.length = 64) (hs : sig.length = 65) :
    forgeProofScript OP_HAMMER nonce height contrib txid sig =
      [OP_RETURN, OP_HAMMER, 4] ++ (WriteLE32 nonce ++ ([4] ++ (WriteLE32 height
        ++ ([if contrib then OP_TRUE else OP_FALSE, 64] ++ (txid ++ ([65] ++ sig)))))) := by
  have h4 : ∀ x, (WriteLE32 x).length = 4 := fun x => rfl
  simp [forgeProofScript, pushData, pushOpcode, ht, hs, h4]

/-- C4: for every 32-bit nonce and BCT height, flag, 64-character txid and
65-byte signature, the proof script assembled by `BusyHammers` is 144 bytes
long and the fixed-offset reads of `CheckForgeProof` recover the five values. -/
theorem proof_script_roundtrip (OP_HAMMER : Nat) (nonce height : Int) (contrib : Bool)
    (txid sig : List Nat) (hn0 : 0 ≤ nonce) (hn1 : nonce < 2 ^ 32)
    (hh0 : 0 ≤ height) (hh1 : height < 2 ^ 32)
    (ht : txid.length = 64) (hs : sig.length = 65) :
    (forgeProofScript OP_HAMMER nonce height contrib txid sig).length = 144 ∧
    ParseProof (forgeProofScript OP_HAMMER nonce height contrib txid sig)
      = ⟨nonce, height, contrib, txid, sig⟩ := by
  have h4 : ∀ x, (WriteLE32 x).length = 4 := fun x => rfl
  have hlay := forgeProofScript_layout OP_HAMMER nonce height contrib txid sig ht hs
  refine ⟨?_, ?_⟩
  · rw [hlay]; simp [h4, ht, hs]
  · have r1 : ReadLE32 (forgeProofScript OP_HAMMER nonce height contrib txid sig) 3 = nonce := by
      rw [hlay]
      exact readLE32_writeLE32 nonce hn0 hn1 [OP_RETURN, OP_HAMMER, 4] _
    have r2 : ReadLE32 (forgeProofScript OP_HAMMER nonce height contrib txid sig) 8 = height := by
      rw [hlay]
      have := readLE32_writeLE32 height hh0 hh1 ([OP_RETURN, OP_HAMMER, 4] ++ (WriteLE32 nonce ++ [4]))
        ([if contrib then OP_TRUE else OP_FALSE, 64] ++ (txid ++ ([65] ++ sig)))
      simpa [h4] using this
    have r3 : (forgeProofScript OP_HAMMER nonce height contrib txid sig).getD 12 0
        = if contrib then OP_TRUE else OP_FALSE := by
      rw [hlay]
      have := getD_append_add ([OP_RETURN, OP_HAMMER, 4] ++ (WriteLE32 nonce ++ ([4] ++ WriteLE32 height)))
        ([if contrib then OP_TRUE else OP_FALSE, 64] ++ (txid ++ ([65] ++ sig))) 0 0
      simpa [h4] using this
    have r4 : (forgeProofScript OP_HAMMER nonce height contrib txid sig).drop 14
        = txid ++ ([65] ++ sig) := by
      rw [hlay]
      have := @List.drop_left' Nat ([OP_RETURN, OP_HAMMER, 4] ++ (WriteLE32 nonce ++ ([4] ++
        (WriteLE32 height ++ [if contrib then OP_TRUE else OP_FALSE, 64]))))
        (txid ++ ([65] ++ sig)) 14 (by simp [h4])
      simpa using this
    have r5 : (forgeProofScript OP_HAMMER nonce height contrib txid sig).drop 79 = sig := by
      have e : (79 : Nat) = 14 + 65 := rfl
      rw [e, ← List.drop_drop, r4]
      have := @List.drop_left' Nat (txid ++ [65]) sig 65 (by simp [ht])
      simpa using this
    simp only [ParseProof, r1, r2, r3, r4, r5]
    have t1 : List.take 64 (txid ++ ([65] ++ sig)) = txid := List.take_left' ht
    have t2 : List.take 65 sig = sig := by rw [← hs]; exact List.take_length sig
    rw [t1, t2]
    cases contrib <;> simp [OP_TRUE, OP_FALSE]

/-- Witness of C4: nonce 1, BCT height 10, flag set, a txid of 64 characters
`0` and a signature of 65 zero bytes, with `OP_HAMMER` taken as `0xc1`. -/
theorem proof_script_roundtrip_witness :
    (List.replicate 64 48).length = 64 ∧ (List.replicate 65 0).length = 65 ∧
    (forgeProofScript 0xc1 1 10 true (List.replicate 64 48) (List.replicate 65 0)).length = 144 ∧
    ParseProof (forgeProofScript 0xc1 1 10 true (List.replicate 64 48) (List.replicate 65 0))
      = ⟨1, 10, true, List.replicate 64 48, List.replicate 65 0⟩ :=
  ⟨by decide, by decide,
    proof_script_roundtrip 0xc1 1 10 true (List.replicate 64 48) (List.replicate 65 0)
      (by decide) (by decide) (by decide) (by decide) (by decide) (by decide)⟩

/-! ## Hammer count -/

/-- C5, at the failing input: with a hammer cost of 10000 a BCT value of
`2^32 * 10000` pays for `2^32` hammers, so hammer 0 is paid for, yet the final
step rejects nonce 0, because the quotient is stored in an `unsigned int`. -/
theorem hammerCount_truncated :
    GetHammerCost scenarioEnv mainParams 10 = 10000 ∧
    (1 : Int) ≤ 42949672960000 / 10000 ∧ (0 : Int) < 42949672960000 / 10000 ∧
    HammerCountStep scenarioEnv mainParams 10 42949672960000 0 = .rejected := by
  decide

/-- Below `2^32` hammers the final step accepts exactly the paid-for indices. -/
theorem hammerCountStep_small (E : Env) (P : Params) (H bctValue hammerNonce : Int)
    (hcost : 0 < GetHammerCost E P H)
    (hsmall : bctValue / GetHammerCost E P H < 2 ^ 32) :
    HammerCountStep E P H bctValue hammerNonce = .ok () ↔
      1 ≤ bctValue / GetHammerCost E P H ∧ hammerNonce < bctValue / GetHammerCost E P H := by
  have hmin : P.minHammerCost ≤ GetHammerCost E P H := le_max_left _ _
  unfold HammerCountStep
  simp only []
  by_cases h1 : bctValue < GetHammerCost E P H
  · have : bctValue / GetHammerCost E P H ≤ 0 := by
      rcases lt_or_le bctValue 0 with hn | hn
      · exact le_of_lt (Int.ediv_neg' hn hcost)
      · rw [Int.ediv_eq_zero_of_lt hn h1]
    have hng : ¬ (1 ≤ bctValue / GetHammerCost E P H) := by omega
    split_ifs <;> simp [hng]
  · have h1' : GetHammerCost E P H ≤ bctValue := not_lt.mp h1
    have h2 : ¬ bctValue < P.minHammerCost := by omega
    have h3 : GetHammerCost E P H ≠ 0 := by omega
    have hv : 0 ≤ bctValue := by omega
    have hq : 1 ≤ bctValue / GetHammerCost E P H :=
      (Int.le_ediv_iff_mul_le hcost).mpr (by omega)
    have ht : Int.tdiv bctValue (GetHammerCost E P H) = bctValue / GetHammerCost E P H :=
      Int.tdiv_eq_ediv hv (le_of_lt hcost)
    have hw : wrapU32 (bctValue / GetHammerCost E P H) = bctValue / GetHammerCost E P H := by
      unfold wrapU32
      exact Int.emod_eq_of_lt (by omega) hsmall
    simp only [h1, h2, h3, if_false, ht, hw]
    split_ifs with hc <;> simp [hq] <;> omega

/-! ## Donation step -/

/-- The two lookup stages of the donation step yield the amount of the located
output 1 when it pays the community script. -/
theorem donationAmount_lookup (E : Env) (P : Params) (pindexPrev : PIndex) (pr : ForgeProof)
    (bct : Option CTransaction) :
    (DonationLookup E P pindexPrev pr bct).andThen (DonationAmount P) =
      match communityOutput E pindexPrev pr bct with
      | none => .rejected
      | some o => if o.scriptPubKey ≠ P.forgeCommunityScript then .rejected else .ok o.nValue := by
  have hdrop : ∀ t : CTransaction, DonationAmount P (some t, none) =
      match (t.vout.drop 1).head? with
      | none => .rejected
      | some o => if o.scriptPubKey ≠ P.forgeCommunityScript then .rejected else .ok o.nValue := by
    intro t
    simp only [DonationAmount]
    generalize t.vout.drop 1 = l
    cases l <;> simp
  unfold DonationLookup communityOutput
  cases bct with
  | some t => simp only [Outcome.andThen]; exact hdrop t
  | none =>
    cases hc : E.GetCoin pr.txidStr 1 with
    | some coin =>
      simp only []
      by_cases hs : coin.out.scriptPubKey = P.forgeCommunityScript
      · simp [hs, Outcome.andThen, DonationAmount]
      · simp [hs, Outcome.andThen]
    | none =>
      cases hg : E.GetTxByHashAndHeight pr.txidStr pr.bctClaimedHeight pindexPrev with
      | none => simp [Outcome.andThen]
      | some r =>
        obtain ⟨t, x⟩ := r
        simp only [Outcome.andThen]
        exact hdrop t

/-- C6: with the flag set (a non-zero factor, sums within `int64_t`), the
donation step accepts iff output 1 of the BCT pays the community script and
its amount equals `(bctValue + donation) / communityContribFactor`; the value
passed on is then `bctValue + donation`; with the flag not set `bctValue` is
passed on unchanged; with factor 10 and `bctValue` 90, donation 10 is accepted
and donation 11 is rejected. -/
theorem donation_step_iff (E : Env) (P : Params) (pindexPrev : PIndex) (pr : ForgeProof)
    (bct : Option CTransaction) (bctValue : Int)
    (hfactor : P.communityContribFactor ≠ 0)
    (hrange : ∀ o, communityOutput E pindexPrev pr bct = some o →
      -2 ^ 63 ≤ bctValue + o.nValue ∧ bctValue + o.nValue < 2 ^ 63) :
    (pr.communityContrib = true →
      ∀ v, DonationStep E P pindexPrev pr bct bctValue = .ok v ↔
        ∃ o, communityOutput E pindexPrev pr bct = some o ∧
          o.scriptPubKey = P.forgeCommunityScript ∧
          o.nValue = Int.tdiv (bctValue + o.nValue) P.communityContribFactor ∧
          v = bctValue + o.nValue) ∧
    (pr.communityContrib = true →
      DonationStep E P pindexPrev pr bct bctValue ≠ .aborted) ∧
    (pr.communityContrib = false →
      DonationStep E P pindexPrev pr bct bctValue = .ok bctValue) ∧
    DonationCheck mainParams 90 10 = .ok 100 ∧
    DonationCheck mainParams 90 11 = .rejected := by
  have hstep : pr.communityContrib = true → DonationStep E P pindexPrev pr bct bctValue =
      ((DonationLookup E P pindexPrev pr bct).andThen (DonationAmount P)).andThen
        (DonationCheck P bctValue) := by
    intro hc
    unfold DonationStep
    simp only [hc, if_true]
    cases DonationLookup E P pindexPrev pr bct <;> rfl
  refine ⟨?_, ?_, ?_, by decide, by decide⟩
  · intro hc v
    rw [hstep hc, donationAmount_lookup]
    cases ho : communityOutput E pindexPrev pr bct with
    | none => simp [Outcome.andThen]
    | some o =>
      have hr := hrange o ho
      have hnr : ¬ (bctValue + o.nValue < -2 ^ 63 ∨ 2 ^ 63 ≤ bctValue + o.nValue) := by omega
      by_cases hs : o.scriptPubKey = P.forgeCommunityScript
      · simp only [hs, ne_eq, not_true_eq_false, if_false, Outcome.andThen, DonationCheck, hnr,
          hfactor, Option.some.injEq, exists_eq_left', true_and]
        split_ifs with hd
        · constructor
          · intro e; exact ⟨hd, (Outcome.ok.inj e).symm⟩
          · intro e; rw [e.2]
        · constructor
          · intro e; cases e
          · intro e; exact absurd e.1 hd
      · simp [hs, Outcome.andThen]
  · intro hc
    rw [hstep hc, donationAmount_lookup]
    cases ho : communityOutput E pindexPrev pr bct with
    | none => simp [Outcome.andThen]
    | some o =>
      have hr := hrange o ho
      have hnr : ¬ (bctValue + o.nValue < -2 ^ 63 ∨ 2 ^ 63 ≤ bctValue + o.nValue) := by omega
      by_cases hs : o.scriptPubKey = P.forgeCommunityScript
      · simp only [hs, ne_eq, not_true_eq_false, if_false, Outcome.andThen, DonationCheck, hnr,
          hfactor]
        split_ifs <;> (intro h; cases h)
      · simp [hs, Outcome.andThen]
  · intro hc
    simp [DonationStep, hc]

/-- Witness of C6: a held BCT paying 90 to the creation script and 10 to the
community script, factor 10. -/
theorem donation_step_iff_witness :
    mainParams.communityContribFactor ≠ 0 ∧
    DonationStep scenarioEnv mainParams powIndex1 ⟨0, 0, true, [], []⟩
      (some ⟨5, [⟨90, [1]⟩, ⟨10, [2]⟩]⟩) 90 ≠ .aborted ∧
    DonationStep scenarioEnv mainParams powIndex1 ⟨0, 0, true, [], []⟩
      (some ⟨5, [⟨90, [1]⟩, ⟨10, [2]⟩]⟩) 90 = .ok 100 :=
  ⟨by decide,
    (donation_step_iff scenarioEnv mainParams powIndex1 ⟨0, 0, true, [], []⟩
      (some ⟨5, [⟨90, [1]⟩, ⟨10, [2]⟩]⟩) 90 (by decide)
      (fun o ho => by
        have e : (⟨10, [2]⟩ : CTxOut) = o := Option.some.inj ho
        subst e
        decide)).2.1 rfl, by decide⟩

/-! ## Structure of the coinbase -/

set_option maxRecDepth 100000 in
/-- C7 refuted: a block whose proof script has none of the four size markers
(bytes 2, 7, 13, 78) is accepted by `CheckForgeProof`. -/
theorem unmarked_block_accepted :
    unmarkedScript.getD 2 0 ≠ 0x04 ∧ unmarkedScript.getD 7 0 ≠ 0x04 ∧
    unmarkedScript.getD 13 0 ≠ 0x40 ∧ unmarkedScript.getD 78 0 ≠ 0x41 ∧
    CheckForgeProof scenarioEnv scenarioParams 0xc1 (fun _ => 0x1d00ffff) unmarkedBlock
      = .ok () := by
  decide

/-- The coinbase checks reject a malformed coinbase. -/
theorem coinbaseStep_malformed (E : Env) (OP_HAMMER : Nat) (txCoinbase : CTransaction)
    (rest : List CTransaction) (hbad : malformedCoinbase OP_HAMMER txCoinbase) :
    CoinbaseStep E OP_HAMMER (txCoinbase :: rest) = .rejected := by
  unfold CoinbaseStep
  split_ifs with h1
  · rfl
  · simp only []
    split_ifs with h2 h3
    · rfl
    · rfl
    · have hlen : txCoinbase.vout.length = 2 ∨ txCoinbase.vout.length = 3 := by omega
      cases hv : txCoinbase.vout with
      | nil => rw [hv] at hlen; simp at hlen
      | cons vout0 tl =>
        unfold malformedCoinbase at hbad
        rw [hv] at hbad hlen
        simp only [List.headD_cons] at hbad
        simp only []
        rcases hbad with hb | hb | hb | hb
        · exact absurd hlen hb
        · rw [if_pos hb]
        · by_cases hl : vout0.scriptPubKey.length < 144
          · rw [if_pos hl]
          · rw [if_neg hl, if_pos (Or.inl hb)]
        · by_cases hl : vout0.scriptPubKey.length < 144
          · rw [if_pos hl]
          · rw [if_neg hl, if_pos (Or.inr hb)]

/-- C7 as amended: a block whose coinbase does not have exactly 2 or 3
outputs, or whose first output script is shorter than 144 bytes or does not
start `OP_RETURN OP_HAMMER`, is rejected by the coinbase checks and is never
accepted by `CheckForgeProof`. -/
theorem malformed_coinbase_rejected (E : Env) (P : Params) (OP_HAMMER : Nat)
    (GetNextForgeWorkRequired : PIndex → Nat) (pblock : CBlock)
    (txCoinbase : CTransaction) (rest : List CTransaction)
    (hvtx : pblock.vtx = txCoinbase :: rest)
    (hbad : malformedCoinbase OP_HAMMER txCoinbase) :
    CoinbaseStep E OP_HAMMER pblock.vtx = .rejected ∧
    CheckForgeProof E P OP_HAMMER GetNextForgeWorkRequired pblock ≠ .ok () ∧
    (pblock.pindexPrev ≠ .nullptr → InterleavingStep E P pblock.pindexPrev ≠ .aborted →
      CheckForgeProof E P OP_HAMMER GetNextForgeWorkRequired pblock = .rejected) := by
  have hcb : CoinbaseStep E OP_HAMMER pblock.vtx = .rejected := by
    rw [hvtx]; exact coinbaseStep_malformed E OP_HAMMER txCoinbase rest hbad
  refine ⟨hcb, ?_, ?_⟩
  · unfold CheckForgeProof
    cases pblock.pindexPrev with
    | nullptr => simp
    | entry h hdr pp ps =>
      simp only [hcb]
      split_ifs
      · simp
      · cases InterleavingStep E P (.entry h hdr pp ps) <;> simp [Outcome.andThen]
  · intro hprev hstep
    unfold CheckForgeProof
    cases hp : pblock.pindexPrev with
    | nullptr => exact absurd hp hprev
    | entry h hdr pp ps =>
      rw [hp] at hstep
      simp only [hcb]
      split_ifs
      · rfl
      · cases hi : InterleavingStep E P (.entry h hdr pp ps) with
        | ok a => simp [Outcome.andThen]
        | rejected => simp [Outcome.andThen]
        | aborted => exact absurd hi hstep

/-- Witness of C7 as amended: a block whose coinbase has a single output. -/
theorem malformed_coinbase_rejected_witness :
    malformedCoinbase 0xc1 ⟨0, [⟨0, unmarkedScript⟩]⟩ ∧
    CheckForgeProof scenarioEnv scenarioParams 0xc1 (fun _ => 0x1d00ffff)
      ⟨powIndex1, [⟨0, [⟨0, unmarkedScript⟩]⟩]⟩ = .rejected :=
  ⟨Or.inl (by decide),
    (malformed_coinbase_rejected scenarioEnv scenarioParams 0xc1 (fun _ => 0x1d00ffff)
      ⟨powIndex1, [⟨0, [⟨0, unmarkedScript⟩]⟩]⟩ ⟨0, [⟨0, unmarkedScript⟩]⟩ [] rfl
      (Or.inl (by decide))).2.2 (by decide) (by decide)⟩

/-! ## Skip list -/

/-- Clearing the lowest set bit of a non-negative number does not raise it, and
lowers a positive one. -/
theorem invertLowestOne_bounds (n : Int) (h : 0 ≤ n) :
    0 ≤ InvertLowestOne n ∧ InvertLowestOne n ≤ n ∧ (1 ≤ n → InvertLowestOne n ≤ n - 1) := by
  obtain ⟨a, rfl⟩ := Int.eq_ofNat_of_zero_le h
  cases a with
  | zero =>
    have e : InvertLowestOne ((0 : Nat) : Int) = 0 := by
      show ((Nat.ldiff 0 0 : Nat) : Int) = 0
      simp [Nat.ldiff, Nat.bitwise_zero]
    rw [e]
    simp
  | succ b =>
    have e : ((b + 1 : Nat) : Int) - 1 = (b : Int) := by push_cast; ring
    have hl : InvertLowestOne ((b + 1 : Nat) : Int) = (((b + 1) &&& b : Nat) : Int) := by
      unfold InvertLowestOne
      rw [e]
      rfl
    have h1 : (b + 1) &&& b ≤ b := Nat.and_le_right
    rw [hl]
    refine ⟨by positivity, ?_, fun _ => ?_⟩ <;> push_cast <;> omega

/-- The skip height of a positive height is a smaller non-negative height. -/
theorem getSkipHeight_bounds (h : Int) (h1 : 1 ≤ h) :
    0 ≤ GetSkipHeight h ∧ GetSkipHeight h < h := by
  unfold GetSkipHeight
  split_ifs with c1 c2
  · omega
  · have a := invertLowestOne_bounds (h - 1) (by omega)
    have b := invertLowestOne_bounds (InvertLowestOne (h - 1)) a.1
    have := a.2.2 (by omega)
    omega
  · have a := invertLowestOne_bounds h (by omega)
    have := a.2.2 h1
    omega

/-- The iteration bound of `GetAncestorWalk` is never the reason for its
result: from `nHeight - height` on, more iterations change nothing, whatever
the pointers are. -/
theorem getAncestorWalk_fuel (height : Int) (h0 : 0 ≤ height) :
    ∀ (fuel : Nat) (w : PIndex) (hw : Int), (hw - height).toNat ≤ fuel →
      GetAncestorWalk height (fuel + 1) w hw = GetAncestorWalk height fuel w hw := by
  intro fuel
  induction fuel with
  | zero =>
    intro w hw hf
    have hle : ¬ hw > height := by omega
    rw [GetAncestorWalk.eq_def height (0 + 1), GetAncestorWalk.eq_def height 0]
    simp only [hle, if_false]
  | succ f ih =>
    intro w hw hf
    rw [GetAncestorWalk.eq_def height (f + 1 + 1), GetAncestorWalk.eq_def height (f + 1)]
    by_cases hgt : hw > height
    · simp only [hgt, if_true]
      have hsk := getSkipHeight_bounds hw (by omega)
      cases w with
      | nullptr => rfl
      | entry h hdr p s =>
        dsimp only
        split_ifs with hc
        · have hcs : height ≤ GetSkipHeight hw := by
            rcases hc.2 with e | e
            · omega
            · omega
          exact ih s (GetSkipHeight hw) (by omega)
        · cases p with
          | nullptr => rfl
          | entry h2 hdr2 p2 s2 => exact ih _ (hw - 1) (by omega)
    · simp only [hgt, if_false]

/-- Following `pprev` from the null pointer stays there. -/
theorem nthPrev_nullptr (n : Nat) : nthPrev n .nullptr = .nullptr := by
  cases n <;> rfl

/-- Steps along `pprev` add up. -/
theorem nthPrev_add (m n : Nat) (b : PIndex) : nthPrev m (nthPrev n b) = nthPrev (n + m) b := by
  induction n generalizing b with
  | zero => simp [nthPrev]
  | succ k ih =>
    cases b with
    | nullptr => simp [nthPrev_nullptr]
    | entry h hdr p s =>
      have : k + 1 + m = (k + m) + 1 := by omega
      rw [this]
      simp only [nthPrev]
      exact ih p

/-- Heights are non-negative. -/
theorem heights_nonneg (b : PIndex) : Heights b → 0 ≤ b.height := by
  induction b with
  | nullptr => intro h; exact absurd h (by simp [Heights])
  | entry h hdr p s ihp _ =>
    intro hb
    cases p with
    | nullptr => simp only [Heights] at hb; simp [PIndex.height, hb]
    | entry h2 hdr2 p2 s2 =>
      simp only [Heights] at hb
      have := ihp hb.2
      simp only [PIndex.height] at this ⊢
      omega

/-- Within the chain, `n` steps along `pprev` lower the height by `n`. -/
theorem nthPrev_heights (n : Nat) : ∀ b : PIndex, Heights b → (n : Int) ≤ b.height →
    Heights (nthPrev n b) ∧ (nthPrev n b).height = b.height - n := by
  induction n with
  | zero => intro b hb _; simp [nthPrev, hb]
  | succ k ih =>
    intro b hb hn
    cases b with
    | nullptr => exact absurd hb (by simp [Heights])
    | entry h hdr p s =>
      cases p with
      | nullptr =>
        simp only [Heights] at hb
        simp only [PIndex.height] at hn
        push_cast at hn
        omega
      | entry h2 hdr2 p2 s2 =>
        simp only [Heights] at hb
        simp only [PIndex.height] at hn
        have := ih (.entry h2 hdr2 p2 s2) hb.2 (by simp only [PIndex.height]; push_cast at hn; omega)
        simp only [nthPrev]
        refine ⟨this.1, ?_⟩
        rw [this.2]
        simp only [PIndex.height]
        push_cast
        omega

/-- Skip pointers stay correct along `pprev`. -/
theorem nthPrev_skipsOK (n : Nat) : ∀ b : PIndex, SkipsOK b → SkipsOK (nthPrev n b) := by
  induction n with
  | zero => intro b hb; simpa [nthPrev] using hb
  | succ k ih =>
    intro b hb
    cases b with
    | nullptr => simp [nthPrev, SkipsOK]
    | entry h hdr p s =>
      simp only [nthPrev]
      cases p with
      | nullptr => simp [nthPrev_nullptr, SkipsOK]
      | entry h2 hdr2 p2 s2 =>
        simp only [SkipsOK] at hb
        exact ih _ hb.2

/-- Unfolding of `Heights` at a block with a parent. -/
theorem heights_entry (h h2 : Int) (hdr hdr2 : CBlockHeader) (p2 s2 s : PIndex) :
    Heights (.entry h hdr (.entry h2 hdr2 p2 s2) s) ↔
      h = h2 + 1 ∧ Heights (.entry h2 hdr2 p2 s2) := Iff.rfl

/-- Unfolding of `SkipsOK` at a block with a parent. -/
theorem skipsOK_entry (h h2 : Int) (hdr hdr2 : CBlockHeader) (p2 s2 s : PIndex) :
    SkipsOK (.entry h hdr (.entry h2 hdr2 p2 s2) s) ↔
      s = nthPrev (h - 1 - GetSkipHeight h).toNat (.entry h2 hdr2 p2 s2) ∧
        SkipsOK (.entry h2 hdr2 p2 s2) := Iff.rfl

/-- The walk of `GetAncestor` from a block of the chain reaches the ancestor at
the requested height. -/
theorem getAncestorWalk_eq (height : Int) (h0 : 0 ≤ height) :
    ∀ (fuel : Nat) (w : PIndex) (hw : Int), Heights w → SkipsOK w → w.height = hw →
      height ≤ hw → (hw - height).toNat ≤ fuel →
      GetAncestorWalk height fuel w hw = .ok (nthPrev (hw - height).toNat w) := by
  intro fuel
  induction fuel with
  | zero =>
    intro w hw _ _ _ hle hf
    have : hw = height := by omega
    subst this
    rw [GetAncestorWalk.eq_def]
    simp [nthPrev]
  | succ f ih =>
    intro w hw hH hS hwh hle hf
    rw [GetAncestorWalk.eq_def]
    by_cases hgt : hw > height
    · simp only [hgt, if_true]
      cases w with
      | nullptr => exact absurd hH (by simp [Heights])
      | entry h hdr p s =>
        simp only [PIndex.height] at hwh
        subst hwh
        have hsk := getSkipHeight_bounds h (by omega)
        cases p with
        | nullptr => simp only [Heights] at hH; omega
        | entry h2 hdr2 p2 s2 =>
          rw [heights_entry] at hH
          rw [skipsOK_entry] at hS
          have hp := nthPrev_heights (h - 1 - GetSkipHeight h).toNat (.entry h2 hdr2 p2 s2) hH.2
            (by simp only [PIndex.height]; omega)
          have hps := nthPrev_skipsOK (h - 1 - GetSkipHeight h).toNat (.entry h2 hdr2 p2 s2) hS.2
          rw [← hS.1] at hp hps
          dsimp only
          split_ifs with hc
          · have hcs : height ≤ GetSkipHeight h := by
              rcases hc.2 with e | e
              · omega
              · omega
            rw [ih s (GetSkipHeight h) hp.1 hps (by rw [hp.2]; simp only [PIndex.height]; omega)
              hcs (by omega)]
            congr 1
            rw [hS.1, nthPrev_add]
            have e1 : (h - height).toNat = ((h - 1 - GetSkipHeight h).toNat
                + (GetSkipHeight h - height).toNat) + 1 := by omega
            rw [e1]
            simp only [nthPrev]
          · rw [ih (.entry h2 hdr2 p2 s2) (h - 1) hH.2 hS.2 (by simp only [PIndex.height]; omega)
              (by omega) (by omega)]
            congr 1
            have e1 : (h - height).toNat = (h - 1 - height).toNat + 1 := by omega
            rw [e1]
            simp only [nthPrev]
    · have : hw = height := by omega
      subst this
      simp [nthPrev]

/-- The result of `GetAncestor` for a height inside the chain. -/
theorem getAncestor_eq (b : PIndex) (hH : Heights b) (hS : SkipsOK b) (height : Int)
    (h0 : 0 ≤ height) (h1 : height ≤ b.height) :
    GetAncestor b height = .ok (nthPrev (b.height - height).toNat b) := by
  cases b with
  | nullptr => exact absurd hH (by simp [Heights])
  | entry h hdr p s =>
    simp only [PIndex.height] at h1 ⊢
    rw [GetAncestor]
    have : ¬ (height > h ∨ height < 0) := by omega
    simp only [this, if_false]
    exact getAncestorWalk_eq height h0 _ _ h hH hS rfl h1 le_rfl

/-- In a block index built by `BuildSkip` heights and skip pointers are as
intended. -/
theorem wellFormed_heights_skips (b : PIndex) : WellFormed b → Heights b ∧ SkipsOK b := by
  induction b with
  | nullptr => intro h; exact absurd h (by simp [WellFormed])
  | entry h hdr p s ihp _ =>
    intro hb
    cases p with
    | nullptr =>
      simp only [WellFormed] at hb
      simp [Heights, SkipsOK, hb.1]
    | entry h2 hdr2 p2 s2 =>
      have hb' : WellFormed (.entry h2 hdr2 p2 s2) ∧ h = h2 + 1 ∧
        BuildSkip (.entry h hdr (.entry h2 hdr2 p2 s2) .nullptr)
          = .ok (.entry h hdr (.entry h2 hdr2 p2 s2) s) := hb
      obtain ⟨hwf, hh, hbs⟩ := hb'
      obtain ⟨hHp, hSp⟩ := ihp hwf
      have hsk := getSkipHeight_bounds h (by have := heights_nonneg _ hHp; simp only [PIndex.height] at this; omega)
      have hga := getAncestor_eq (.entry h2 hdr2 p2 s2) hHp hSp (GetSkipHeight h) hsk.1
        (by simp only [PIndex.height]; omega)
      simp only [BuildSkip, hga, Outcome.andThen, Outcome.ok.injEq, PIndex.entry.injEq, true_and] at hbs
      rw [heights_entry, skipsOK_entry]
      refine ⟨⟨hh, hHp⟩, ?_, hSp⟩
      rw [← hbs]
      simp only [PIndex.height]
      congr 2
      omega

/-- C8: in a well-formed block index `GetAncestor(h)` returns null iff `h < 0`
or `h > nHeight`; otherwise it returns (without failing an `assert` or running
out of iterations) the block reached by following `pprev` exactly
`nHeight - h` times, which is not null and has height `h`. -/
theorem getAncestor_correct (b : PIndex) (hwf : WellFormed b) (height : Int) :
    (GetAncestor b height = .ok .nullptr ↔ height < 0 ∨ height > b.height) ∧
    (0 ≤ height → height ≤ b.height →
      GetAncestor b height = .ok (nthPrev (b.height - height).toNat b) ∧
      nthPrev (b.height - height).toNat b ≠ .nullptr ∧
      (nthPrev (b.height - height).toNat b).height = height) := by
  obtain ⟨hH, hS⟩ := wellFormed_heights_skips b hwf
  have key : 0 ≤ height → height ≤ b.height →
      GetAncestor b height = .ok (nthPrev (b.height - height).toNat b) ∧
      nthPrev (b.height - height).toNat b ≠ .nullptr ∧
      (nthPrev (b.height - height).toNat b).height = height := by
    intro h0 h1
    have hn := nthPrev_heights (b.height - height).toNat b hH (by omega)
    refine ⟨getAncestor_eq b hH hS height h0 h1, ?_, by rw [hn.2]; omega⟩
    intro e
    rw [e] at hn
    exact absurd hn.1 (by simp [Heights])
  refine ⟨?_, key⟩
  constructor
  · intro hnull
    by_contra hcon
    push_neg at hcon
    obtain ⟨hga, hne, _⟩ := key hcon.1 hcon.2
    rw [hga] at hnull
    exact hne (Outcome.ok.inj hnull)
  · intro hout
    cases b with
    | nullptr => exact absurd hH (by simp [Heights])
    | entry h hdr p s =>
      simp only [PIndex.height] at hout
      rw [GetAncestor]
      have : height > h ∨ height < 0 := by omega
      simp [this]

/-- Witness of C8: the ancestor at height 0 of the scenario block at height 2. -/
theorem getAncestor_correct_witness :
    WellFormed forgeIndex2 ∧ GetAncestor forgeIndex2 0 = .ok genesisIndex :=
  ⟨by unfold forgeIndex2 powIndex1 genesisIndex; simp only [WellFormed]; decide,
    ((getAncestor_correct forgeIndex2
      (by unfold forgeIndex2 powIndex1 genesisIndex; simp only [WellFormed]; decide) 0).2
      (by decide) (by decide)).1⟩

/-! ## Floating-point rounding and the factor of a forge-mined block -/

/-- The nearest integer is no less than an integer below the value. -/
theorem roundTiesEven_ge (t : ℚ) (j : Int) (h : (j : ℚ) ≤ t) : j ≤ roundTiesEven t := by
  have hf : j ≤ Int.floor t := Int.le_floor.mpr h
  unfold roundTiesEven
  simp only []
  split_ifs <;> omega

/-- The nearest integer is no more than an integer above the value. -/
theorem roundTiesEven_le (t : ℚ) (j : Int) (h : t ≤ (j : ℚ)) : roundTiesEven t ≤ j := by
  unfold roundTiesEven
  simp only []
  rcases eq_or_lt_of_le h with e | hlt
  · subst e
    simp
  · have hf : Int.floor t < j := Int.floor_lt.mpr hlt
    split_ifs <;> omega

/-- An integer is its own nearest integer. -/
theorem roundTiesEven_intCast (j : Int) : roundTiesEven (j : ℚ) = j :=
  le_antisymm (roundTiesEven_le _ _ le_rfl) (roundTiesEven_ge _ _ le_rfl)

/-- Below `2^prec` in size the spacing of the format is at most 1. -/
theorem quantumExp_nonpos (prec : Nat) (emin : Int) (x : ℚ) (he : emin ≤ 0) (hp1 : 1 ≤ prec)
    (hx : |x| < 2 ^ prec) : quantumExp prec emin x ≤ 0 := by
  unfold quantumExp
  apply max_le _ he
  by_cases h0 : x = 0
  · subst h0
    simp [Int.log_of_right_le_zero]
    omega
  · have hpos : 0 < |x| := abs_pos.mpr h0
    have : Int.log 2 |x| < (prec : Int) := by
      rw [← Int.lt_zpow_iff_log_lt (by norm_num) hpos]
      exact_mod_cast hx
    omega

/-- An integer below `x` stays below the rounded value. -/
theorem roundBinary_ge (prec : Nat) (emin : Int) (emax : Nat) (x y : ℚ) (j : Int)
    (he : emin ≤ 0) (hp1 : 1 ≤ prec) (hx : |x| < 2 ^ prec) (hj : (j : ℚ) ≤ x)
    (h : roundBinary prec emin emax x = some y) : (j : ℚ) ≤ y := by
  have hq := quantumExp_nonpos prec emin x he hp1 hx
  unfold roundBinary at h
  simp only [] at h
  split_ifs at h
  have hy : y = _ := (Option.some.inj h).symm
  rw [hy]
  obtain ⟨n, hn⟩ : ∃ n : Nat, quantumExp prec emin x = -(n : Int) :=
    ⟨(-quantumExp prec emin x).toNat, by omega⟩
  rw [hn]
  have h2 : (0 : ℚ) < 2 ^ n := by positivity
  have e : (2 : ℚ) ^ (-(n : Int)) = 1 / 2 ^ n := by
    rw [zpow_neg, zpow_natCast, one_div]
  rw [e]
  have key : j * 2 ^ n ≤ roundTiesEven (x / (1 / 2 ^ n)) := by
    apply roundTiesEven_ge
    push_cast
    rw [div_div_eq_mul_div, div_one]
    exact mul_le_mul_of_nonneg_right hj h2.le
  have key2 : ((j * 2 ^ n : Int) : ℚ) ≤ (roundTiesEven (x / (1 / 2 ^ n)) : ℚ) := by
    exact_mod_cast key
  push_cast at key2
  rw [mul_one_div, le_div_iff₀ h2]
  exact key2

/-- An integer above `x` stays above the rounded value. -/
theorem roundBinary_le (prec : Nat) (emin : Int) (emax : Nat) (x y : ℚ) (j : Int)
    (he : emin ≤ 0) (hp1 : 1 ≤ prec) (hx : |x| < 2 ^ prec) (hj : x ≤ (j : ℚ))
    (h : roundBinary prec emin emax x = some y) : y ≤ (j : ℚ) := by
  have hq := quantumExp_nonpos prec emin x he hp1 hx
  unfold roundBinary at h
  simp only [] at h
  split_ifs at h
  have hy : y = _ := (Option.some.inj h).symm
  rw [hy]
  obtain ⟨n, hn⟩ : ∃ n : Nat, quantumExp prec emin x = -(n : Int) :=
    ⟨(-quantumExp prec emin x).toNat, by omega⟩
  rw [hn]
  have h2 : (0 : ℚ) < 2 ^ n := by positivity
  have e : (2 : ℚ) ^ (-(n : Int)) = 1 / 2 ^ n := by
    rw [zpow_neg, zpow_natCast, one_div]
  rw [e]
  have key : roundTiesEven (x / (1 / 2 ^ n)) ≤ j * 2 ^ n := by
    apply roundTiesEven_le
    push_cast
    rw [div_div_eq_mul_div, div_one]
    exact mul_le_mul_of_nonneg_right hj h2.le
  have key2 : (roundTiesEven (x / (1 / 2 ^ n)) : ℚ) ≤ ((j * 2 ^ n : Int) : ℚ) := by
    exact_mod_cast key
  push_cast at key2
  rw [mul_one_div, div_le_iff₀ h2]
  exact key2

/-- A value below `2^prec` in size is rounded to a value (no overflow), for a
format whose largest exponent is above the precision. -/
theorem roundBinary_isSome (prec : Nat) (emin : Int) (emax : Nat) (x : ℚ)
    (he : emin ≤ 0) (hp1 : 1 ≤ prec) (hp : prec < emax) (hx : |x| < 2 ^ prec) :
    ∃ y, roundBinary prec emin emax x = some y := by
  have hq := quantumExp_nonpos prec emin x he hp1 hx
  obtain ⟨n, hn⟩ : ∃ n : Nat, quantumExp prec emin x = -(n : Int) :=
    ⟨(-quantumExp prec emin x).toNat, by omega⟩
  have h2 : (0 : ℚ) < 2 ^ n := by positivity
  have e : (2 : ℚ) ^ (-(n : Int)) = 1 / 2 ^ n := by
    rw [zpow_neg, zpow_natCast, one_div]
  have hx' := abs_lt.mp hx
  have hup : (roundTiesEven (x / (1 / 2 ^ n)) : ℚ) ≤ ((2 ^ prec * 2 ^ n : Int) : ℚ) := by
    have : roundTiesEven (x / (1 / 2 ^ n)) ≤ 2 ^ prec * 2 ^ n := by
      apply roundTiesEven_le
      push_cast
      rw [div_div_eq_mul_div, div_one]
      exact mul_le_mul_of_nonneg_right hx'.2.le h2.le
    exact_mod_cast this
  have hlo : ((-(2 ^ prec * 2 ^ n) : Int) : ℚ) ≤ (roundTiesEven (x / (1 / 2 ^ n)) : ℚ) := by
    have : -(2 ^ prec * 2 ^ n) ≤ roundTiesEven (x / (1 / 2 ^ n)) := by
      apply roundTiesEven_ge
      push_cast
      rw [div_div_eq_mul_div, div_one]
      have := mul_le_mul_of_nonneg_right hx'.1.le h2.le
      linarith
    exact_mod_cast this
  push_cast at hup hlo
  have hlt : (2 : ℚ) ^ prec < 2 ^ emax := pow_lt_pow_right₀ (by norm_num) hp
  have habs : |(roundTiesEven (x / 2 ^ quantumExp prec emin x) : ℚ) * 2 ^ quantumExp prec emin x|
      < 2 ^ emax := by
    rw [hn, e, mul_one_div, abs_lt]
    constructor
    · rw [lt_div_iff₀ h2]
      have : -(2 : ℚ) ^ emax * 2 ^ n < -(2 ^ prec * 2 ^ n) := by
        have := mul_lt_mul_of_pos_right hlt h2
        linarith
      linarith
    · rw [div_lt_iff₀ h2]
      have := mul_lt_mul_of_pos_right hlt h2
      linarith
  exact ⟨_, by unfold roundBinary; simp only []; rw [if_pos habs]⟩

/-- An integer below `2^prec` in size is a number of the format. -/
theorem roundBinary_intCast (prec : Nat) (emin : Int) (emax : Nat) (j : Int)
    (he : emin ≤ 0) (hp1 : 1 ≤ prec) (hp : prec < emax) (hx : |(j : ℚ)| < 2 ^ prec) :
    roundBinary prec emin emax j = some (j : ℚ) := by
  obtain ⟨y, hy⟩ := roundBinary_isSome prec emin emax j he hp1 hp hx
  have h1 := roundBinary_ge prec emin emax j y j he hp1 hx le_rfl hy
  have h2 := roundBinary_le prec emin emax j y j he hp1 hx le_rfl hy
  rw [hy, le_antisymm h2 h1]

/-- A non-negative value is rounded to a non-negative one. -/
theorem roundBinary_nonneg (prec : Nat) (emin : Int) (emax : Nat) (x y : ℚ) (hx : 0 ≤ x)
    (h : roundBinary prec emin emax x = some y) : 0 ≤ y := by
  unfold roundBinary at h
  simp only [] at h
  split_ifs at h
  rw [← Option.some.inj h]
  have : (0 : Int) ≤ roundTiesEven (x / 2 ^ quantumExp prec emin x) :=
    roundTiesEven_ge _ 0 (by simpa using div_nonneg hx (by positivity))
  have h3 : (0 : ℚ) ≤ (roundTiesEven (x / 2 ^ quantumExp prec emin x) : ℚ) := by exact_mod_cast this
  exact mul_nonneg h3 (by positivity)

/-- The rounded value from the exponent of the spacing and the nearest
multiple. -/
theorem roundBinary_eval (prec : Nat) (emin : Int) (emax : Nat) (x : ℚ) (e n : Int)
    (he : quantumExp prec emin x = e) (hn : roundTiesEven (x / 2 ^ e) = n)
    (hlt : |(n : ℚ) * 2 ^ e| < 2 ^ emax) :
    roundBinary prec emin emax x = some ((n : ℚ) * 2 ^ e) := by
  unfold roundBinary
  simp only [he, hn]
  rw [if_pos hlt]

/-- The binary logarithm of a value between two powers of 2. -/
theorem log2_of_bounds (x : ℚ) (n : Nat) (h1 : (2 : ℚ) ^ n ≤ x) (h2 : x < 2 ^ (n + 1)) :
    Int.log 2 |x| = n := by
  have hpos : 0 < x := lt_of_lt_of_le (by positivity) h1
  rw [abs_of_pos hpos]
  apply le_antisymm
  · have : Int.log 2 x < (n : Int) + 1 := by
      rw [← Int.lt_zpow_iff_log_lt (by norm_num) hpos]
      exact_mod_cast h2
    omega
  · rw [← Int.zpow_le_iff_le_log (by norm_num) hpos]
    exact_mod_cast h1

/-- A value of at least 1 is rounded to a value of at least 1. -/
theorem roundBinary_one_le (prec : Nat) (emin : Int) (emax : Nat) (x y : ℚ)
    (he : emin ≤ 0) (hp1 : 1 ≤ prec) (hx : 1 ≤ x) (h : roundBinary prec emin emax x = some y) :
    1 ≤ y := by
  have hxpos : (0 : ℚ) < x := by linarith
  unfold roundBinary at h
  simp only [] at h
  split_ifs at h
  rw [← Option.some.inj h]
  have hqpos : (0 : ℚ) < 2 ^ quantumExp prec emin x := by positivity
  by_cases hq : quantumExp prec emin x ≤ 0
  · -- 1 is a multiple of the spacing
    obtain ⟨n, hn⟩ : ∃ n : Nat, quantumExp prec emin x = -(n : Int) :=
      ⟨(-quantumExp prec emin x).toNat, by omega⟩
    rw [hn]
    have h2 : (0 : ℚ) < 2 ^ n := by positivity
    have e : (2 : ℚ) ^ (-(n : Int)) = 1 / 2 ^ n := by
      rw [zpow_neg, zpow_natCast, one_div]
    rw [e]
    have key : (2 : Int) ^ n ≤ roundTiesEven (x / (1 / 2 ^ n)) := by
      apply roundTiesEven_ge
      push_cast
      rw [div_div_eq_mul_div, div_one]
      nlinarith
    have key2 : (((2 : Int) ^ n : Int) : ℚ) ≤ (roundTiesEven (x / (1 / 2 ^ n)) : ℚ) := by
      exact_mod_cast key
    push_cast at key2
    rw [mul_one_div, le_div_iff₀ h2]
    linarith
  · -- the spacing is above 1, and the value is at least one spacing
    have hq' : 0 < quantumExp prec emin x := by omega
    have hle : quantumExp prec emin x ≤ Int.log 2 x := by
      unfold quantumExp at hq' ⊢
      rw [abs_of_pos hxpos] at hq' ⊢
      rcases le_total (Int.log 2 x - ((prec : Int) - 1)) emin with hc | hc
      · rw [max_eq_right hc] at hq'; omega
      · rw [max_eq_left hc] at hq' ⊢
        omega
    have hx2 : (2 : ℚ) ^ quantumExp prec emin x ≤ x :=
      le_trans (zpow_le_zpow_right₀ (by norm_num) hle) (Int.zpow_log_le_self (by norm_num) hxpos)
    have hn1 : (1 : Int) ≤ roundTiesEven (x / 2 ^ quantumExp prec emin x) := by
      apply roundTiesEven_ge
      rw [Int.cast_one, le_div_iff₀ hqpos, one_mul]
      exact hx2
    have hn1q : (1 : ℚ) ≤ (roundTiesEven (x / 2 ^ quantumExp prec emin x) : ℚ) := by
      exact_mod_cast hn1
    have hq1 : (1 : ℚ) ≤ 2 ^ quantumExp prec emin x := one_le_zpow₀ (by norm_num) hq'.le
    calc (1 : ℚ) = 1 * 1 := by norm_num
      _ ≤ _ := mul_le_mul hn1q hq1 (by norm_num) (by linarith)

/-- The factor of a forge-mined block lies between `minK` and `maxK`, for
`0 <= minK <= maxK` (an `int`), a positive `maxForgeDiff` and a difficulty
that is not negative. -/
theorem forgeBonusK_bounds (maxForgeDiff : ℚ) (minK maxK : Int) (forgeDiff : ℚ)
    (h0 : 0 ≤ minK) (h1 : minK ≤ maxK) (h2 : maxK < 2 ^ 31) (hm : 0 < maxForgeDiff)
    (hd : 0 ≤ forgeDiff) :
    ∃ k : Nat, forgeBonusK maxForgeDiff minK maxK forgeDiff = .ok k ∧
      minK ≤ (k : Int) ∧ (k : Int) ≤ maxK := by
  have hD : ¬ (maxK - minK < -2 ^ 31 ∨ 2 ^ 31 ≤ maxK - minK) := by
    norm_num at h2 ⊢
    omega
  have hm0 : ¬ maxForgeDiff = 0 := ne_of_gt hm
  have hx : 0 ≤ forgeDiff / maxForgeDiff := div_nonneg hd hm.le
  -- the capped quotient
  obtain ⟨c, hc, hc0, hc1⟩ : ∃ c : ℚ, cappedQuotient maxForgeDiff forgeDiff = some c ∧
      0 ≤ c ∧ c ≤ 1 := by
    unfold cappedQuotient
    rw [if_neg hm0]
    cases hq : toDouble (forgeDiff / maxForgeDiff) with
    | some q =>
      have := roundBinary_nonneg 53 (-1074) 1024 _ q hx hq
      exact ⟨min q 1, rfl, le_min this zero_le_one, min_le_right _ _⟩
    | none =>
      have hpos : 0 < forgeDiff / maxForgeDiff := by
        rcases eq_or_lt_of_le hx with e | h
        · rw [← e] at hq
          have := roundBinary_intCast 53 (-1074) 1024 0 (by norm_num) (by norm_num) (by norm_num)
            (by norm_num)
          simp only [Int.cast_zero] at this
          unfold toDouble at hq
          rw [this] at hq
          cases hq
        · exact h
      exact ⟨1, by simp only [hpos, if_true], zero_le_one, le_rfl⟩
  -- the product
  have hDq0 : (0 : ℚ) ≤ ((maxK - minK : Int) : ℚ) := by exact_mod_cast (by omega : 0 ≤ maxK - minK)
  have hDq1 : ((maxK - minK : Int) : ℚ) < 2 ^ 31 := by exact_mod_cast (by omega : maxK - minK < 2 ^ 31)
  have hp0 : 0 ≤ c * ((maxK - minK : Int) : ℚ) := mul_nonneg hc0 hDq0
  have hp1 : c * ((maxK - minK : Int) : ℚ) ≤ ((maxK - minK : Int) : ℚ) :=
    mul_le_of_le_one_left hDq0 hc1
  have hpabs : |c * ((maxK - minK : Int) : ℚ)| < 2 ^ 53 := by
    rw [abs_of_nonneg hp0]
    calc c * ((maxK - minK : Int) : ℚ) ≤ ((maxK - minK : Int) : ℚ) := hp1
      _ < 2 ^ 31 := hDq1
      _ < 2 ^ 53 := by norm_num
  obtain ⟨p, hp⟩ := roundBinary_isSome 53 (-1074) 1024 _ (by norm_num) (by norm_num) (by norm_num)
    hpabs
  have hpge := roundBinary_ge 53 (-1074) 1024 _ p 0 (by norm_num) (by norm_num) hpabs
    (by simpa using hp0) hp
  have hple := roundBinary_le 53 (-1074) 1024 _ p (maxK - minK) (by norm_num) (by norm_num) hpabs
    hp1 hp
  simp only [Int.cast_zero] at hpge
  -- the sum
  have hminq : (0 : ℚ) ≤ (minK : ℚ) := by exact_mod_cast h0
  have hs0 : (minK : ℚ) ≤ p + (minK : ℚ) := by linarith
  have hs1 : p + (minK : ℚ) ≤ (maxK : ℚ) := by
    have : ((maxK - minK : Int) : ℚ) = (maxK : ℚ) - (minK : ℚ) := by push_cast; ring
    linarith
  have hmaxq : (maxK : ℚ) < 2 ^ 31 := by exact_mod_cast h2
  have hsabs : |p + (minK : ℚ)| < 2 ^ 53 := by
    rw [abs_of_nonneg (by linarith)]
    calc p + (minK : ℚ) ≤ (maxK : ℚ) := hs1
      _ < 2 ^ 31 := hmaxq
      _ < 2 ^ 53 := by norm_num
  obtain ⟨s, hs⟩ := roundBinary_isSome 53 (-1074) 1024 _ (by norm_num) (by norm_num) (by norm_num)
    hsabs
  have hsge := roundBinary_ge 53 (-1074) 1024 _ s minK (by norm_num) (by norm_num) hsabs hs0 hs
  have hsle := roundBinary_le 53 (-1074) 1024 _ s maxK (by norm_num) (by norm_num) hsabs hs1 hs
  have hf0 : minK ≤ Int.floor s := Int.le_floor.mpr hsge
  have hf1 : Int.floor s ≤ maxK := by
    have : (Int.floor s : ℚ) ≤ (maxK : ℚ) := le_trans (Int.floor_le s) hsle
    exact_mod_cast this
  have hr : ¬ (Int.floor s < 0 ∨ 2 ^ 32 ≤ Int.floor s) := by
    norm_num at h2 ⊢
    omega
  refine ⟨(Int.floor s).toNat, ?_, by omega, by omega⟩
  unfold forgeBonusK
  rw [if_neg hD]
  simp only [hc]
  have hp' : toDouble (c * ((maxK - minK : Int) : ℚ)) = some p := hp
  have hs' : toDouble (p + (minK : ℚ)) = some s := hs
  simp only [hp', hs', if_neg hr]

/-- At a difficulty of `maxForgeDiff` or more the factor is `maxK`. -/
theorem forgeBonusK_saturated (maxForgeDiff : ℚ) (minK maxK : Int) (forgeDiff : ℚ)
    (h0 : 0 ≤ minK) (h1 : minK ≤ maxK) (h2 : maxK < 2 ^ 31) (hm : 0 < maxForgeDiff)
    (hd : maxForgeDiff ≤ forgeDiff) :
    forgeBonusK maxForgeDiff minK maxK forgeDiff = .ok maxK.toNat := by
  have hD : ¬ (maxK - minK < -2 ^ 31 ∨ 2 ^ 31 ≤ maxK - minK) := by
    norm_num at h2 ⊢
    omega
  have hm0 : ¬ maxForgeDiff = 0 := ne_of_gt hm
  have hx : 1 ≤ forgeDiff / maxForgeDiff := (one_le_div hm).mpr hd
  have hc : cappedQuotient maxForgeDiff forgeDiff = some (1 : ℚ) := by
    unfold cappedQuotient
    rw [if_neg hm0]
    cases hq : toDouble (forgeDiff / maxForgeDiff) with
    | some q =>
      have hq1 : (1 : ℚ) ≤ q := roundBinary_one_le 53 (-1074) 1024 _ q (by norm_num) (by norm_num) hx hq
      simp only [min_eq_right hq1]
    | none =>
      have hpos : 0 < forgeDiff / maxForgeDiff := by linarith
      simp only [hpos, if_true]
  have hDabs : |((maxK - minK : Int) : ℚ)| < 2 ^ 53 := by
    have a : ((maxK - minK : Int) : ℚ) < 2 ^ 31 := by exact_mod_cast (by omega : maxK - minK < 2 ^ 31)
    have b : (0 : ℚ) ≤ ((maxK - minK : Int) : ℚ) := by exact_mod_cast (by omega : 0 ≤ maxK - minK)
    rw [abs_of_nonneg b]
    linarith [show (2 : ℚ) ^ 31 < 2 ^ 53 by norm_num]
  have hp := roundBinary_intCast 53 (-1074) 1024 (maxK - minK) (by norm_num) (by norm_num)
    (by norm_num) hDabs
  have hsabs : |((maxK : Int) : ℚ)| < 2 ^ 53 := by
    have a : (maxK : ℚ) < 2 ^ 31 := by exact_mod_cast h2
    have b : (0 : ℚ) ≤ (maxK : ℚ) := by exact_mod_cast (by omega : 0 ≤ maxK)
    rw [abs_of_nonneg b]
    linarith [show (2 : ℚ) ^ 31 < 2 ^ 53 by norm_num]
  have hs := roundBinary_intCast 53 (-1074) 1024 maxK (by norm_num) (by norm_num)
    (by norm_num) hsabs
  have hr : ¬ (maxK < 0 ∨ 2 ^ 32 ≤ maxK) := by
    norm_num at h2 ⊢
    omega
  have e1 : (1 : ℚ) * ((maxK - minK : Int) : ℚ) = ((maxK - minK : Int) : ℚ) := one_mul _
  have e2 : ((maxK - minK : Int) : ℚ) + (minK : ℚ) = ((maxK : Int) : ℚ) := by push_cast; ring
  unfold forgeBonusK
  rw [if_neg hD]
  simp only [hc, e1]
  have hp' : toDouble ((maxK - minK : Int) : ℚ) = some ((maxK - minK : Int) : ℚ) := hp
  simp only [hp', e2]
  have hs' : toDouble ((maxK : Int) : ℚ) = some ((maxK : Int) : ℚ) := hs
  simp only [hs', Int.floor_intCast, if_neg hr]

/-- At half of `maxForgeDiff` (the `double` 0.003 on main-net) the quotient is
exactly 0.5 and the factor is `floor(0.5 * 14 + 2) = 9`. -/
theorem forge_bonus_half :
    forgeBonusK mainParams.maxForgeDiff mainParams.minK mainParams.maxK
      (mainParams.maxForgeDiff / 2) = .ok 9 := by
  have hq : quantumExp 53 (-1074) (1 / 2 : ℚ) = -53 := by
    have e : |(1 / 2 : ℚ)| = (2 : ℚ) ^ (-1 : Int) := by norm_num
    have e2 : ((2 : Nat) : ℚ) = 2 := by norm_num
    unfold quantumExp
    rw [e, ← e2, Int.log_zpow (by norm_num)]
    norm_num
  have hr : roundTiesEven ((1 / 2 : ℚ) / 2 ^ (-53 : Int)) = 2 ^ 52 := by
    have e : (1 / 2 : ℚ) / 2 ^ (-53 : Int) = (((2 : Int) ^ 52 : Int) : ℚ) := by
      rw [zpow_neg]
      norm_num
    rw [e, roundTiesEven_intCast]
  have hv : (((2 : Int) ^ 52 : Int) : ℚ) * 2 ^ (-53 : Int) = 1 / 2 := by
    rw [zpow_neg]
    norm_num
  have hhalf : toDouble (1 / 2 : ℚ) = some (1 / 2) := by
    have := roundBinary_eval 53 (-1074) 1024 _ (-53) (2 ^ 52) hq hr (by
      rw [hv, abs_of_pos (by norm_num)]
      exact lt_of_lt_of_le (by norm_num : (1 / 2 : ℚ) < 1) (one_le_pow₀ (by norm_num)))
    rw [toDouble, this, hv]
  have hc : cappedQuotient mainParams.maxForgeDiff (mainParams.maxForgeDiff / 2) = some (1 / 2) := by
    have hm : ¬ mainParams.maxForgeDiff = 0 := by norm_num [mainParams]
    have hd : mainParams.maxForgeDiff / 2 / mainParams.maxForgeDiff = 1 / 2 := by
      norm_num [mainParams]
    unfold cappedQuotient
    rw [if_neg hm, hd]
    simp only [hhalf]
    norm_num
  have hp : toDouble ((1 / 2 : ℚ) * ((mainParams.maxK - mainParams.minK : Int) : ℚ))
      = some ((7 : Int) : ℚ) := by
    have e : (1 / 2 : ℚ) * ((mainParams.maxK - mainParams.minK : Int) : ℚ) = ((7 : Int) : ℚ) := by
      norm_num [mainParams]
    rw [e]
    exact roundBinary_intCast 53 (-1074) 1024 7 (by norm_num) (by norm_num) (by norm_num)
      (by norm_num)
  have hs : toDouble (((7 : Int) : ℚ) + (mainParams.minK : ℚ)) = some ((9 : Int) : ℚ) := by
    have e : ((7 : Int) : ℚ) + (mainParams.minK : ℚ) = ((9 : Int) : ℚ) := by
      norm_num [mainParams]
    rw [e]
    exact roundBinary_intCast 53 (-1074) 1024 9 (by norm_num) (by norm_num) (by norm_num)
      (by norm_num)
  have hD : ¬ (mainParams.maxK - mainParams.minK < -2 ^ 31 ∨
      2 ^ 31 ≤ mainParams.maxK - mainParams.minK) := by decide
  have hr9 : ¬ ((9 : Int) < 0 ∨ (2 : Int) ^ 32 ≤ 9) := by decide
  unfold forgeBonusK
  rw [if_neg hD]
  simp only [hc, hp, hs, Int.floor_intCast]
  rw [if_neg hr9]
  rfl

/-! ## Work of a block -/

/-- The flags of `SetCompact` being clear and the value non-zero bound the value. -/
theorem setCompact_valid_bounds (nCompact : Nat)
    (hov : (SetCompact nCompact).2.2 = false) (hnz : (SetCompact nCompact).1 ≠ 0) :
    1 ≤ (SetCompact nCompact).1 ∧ (SetCompact nCompact).1 ≤ 0xffff * 2 ^ 240 := by
  refine ⟨Nat.one_le_iff_ne_zero.mpr hnz, ?_⟩
  have hm : nCompact &&& 0x007fffff ≤ 0x007fffff := Nat.and_le_right
  unfold SetCompact at hov hnz ⊢
  simp only [] at hov hnz ⊢
  by_cases h3 : nCompact >>> 24 ≤ 3
  · simp only [h3, if_true] at hnz ⊢
    have : (nCompact &&& 0x007fffff) >>> (8 * (3 - nCompact >>> 24)) ≤ nCompact &&& 0x007fffff := by
      rw [Nat.shiftRight_eq_div_pow]
      exact Nat.div_le_self _ _
    have e : (0x007fffff : Nat) ≤ 0xffff * 2 ^ 240 := by norm_num
    omega
  · simp only [h3, if_false] at hov hnz ⊢
    set m := nCompact &&& 0x007fffff with hmdef
    set s := nCompact >>> 24 with hsdef
    have hm0 : m ≠ 0 := by
      intro e
      rw [e] at hnz
      simp [wrap256] at hnz
    simp only [hm0, ne_eq, not_false_eq_true, decide_True, Bool.true_and, Bool.or_eq_false_iff,
      Bool.and_eq_false_imp, decide_eq_false_iff_not, decide_eq_true_eq, not_lt, gt_iff_lt] at hov
    obtain ⟨⟨hs34, hsff⟩, hsffff⟩ := hov
    have hle : wrap256 (m <<< (8 * (s - 3))) ≤ m * 2 ^ (8 * (s - 3)) := by
      unfold wrap256
      rw [Nat.shiftLeft_eq]
      exact Nat.mod_le _ _
    refine le_trans hle ?_
    by_cases c32 : s ≤ 32
    · calc m * 2 ^ (8 * (s - 3)) ≤ 0x007fffff * 2 ^ 232 :=
            Nat.mul_le_mul hm (Nat.pow_le_pow_right (by norm_num) (by omega))
        _ ≤ 0xffff * 2 ^ 240 := by norm_num
    · by_cases c33 : s ≤ 33
      · have hs : s = 33 := by omega
        have hm2 : m ≤ 0xffff := by
          by_contra hc
          have := hsffff (by omega)
          omega
        exact Nat.mul_le_mul hm2 (Nat.pow_le_pow_right (by norm_num) (by omega))
      · have hs : s = 34 := by omega
        have hm2 : m ≤ 0xff := by
          by_contra hc
          have := hsff (by omega)
          omega
        calc m * 2 ^ (8 * (s - 3)) ≤ 0xff * 2 ^ 248 :=
            Nat.mul_le_mul hm2 (Nat.pow_le_pow_right (by norm_num) (by omega))
          _ ≤ 0xffff * 2 ^ 240 := by norm_num

/-- The work expression for a target `1 ≤ t < 2^256 - 1`. -/
theorem workFromTarget_eq (t : Nat) (h1 : 1 ≤ t) (h2 : t < 2 ^ 256 - 1) :
    wrap256 (t + 1) ≠ 0 ∧ (2 ^ 256 - 1 - t) / (t + 1) + 1 < 2 ^ 256 ∧
    workFromTarget t = .ok (2 ^ 256 / (t + 1)) ∧ 1 ≤ 2 ^ 256 / (t + 1) := by
  have hd : t + 1 < 2 ^ 256 := by omega
  have hw : wrap256 (t + 1) = t + 1 := Nat.mod_eq_of_lt hd
  have hsub : 2 ^ 256 - 1 - t = 2 ^ 256 - (t + 1) := by omega
  have hdiv : 2 ^ 256 / (t + 1) = (2 ^ 256 - (t + 1)) / (t + 1) + 1 :=
    Nat.div_eq_sub_div (by omega) (le_of_lt hd)
  have hlt : 2 ^ 256 / (t + 1) < 2 ^ 256 := Nat.div_lt_self (by positivity) (by omega)
  refine ⟨by rw [hw]; omega, by rw [hsub, ← hdiv]; exact hlt, ?_,
    Nat.div_pos (le_of_lt hd) (by omega)⟩
  unfold workFromTarget
  rw [hw, if_neg (by omega), hsub, ← hdiv]
  congr 1
  exact Nat.mod_eq_of_lt hlt

/-- C9: for a compact value that decodes non-negative, non-overflowing and
non-zero the target `t` satisfies `1 ≤ t < 2^256 - 1`, the expression
`(~t / (t + 1)) + 1` neither divides by zero nor wraps and equals
`floor(2^256 / (t + 1))`; this is what `GetNumHashes` and (without bonus)
`GetBlockProof` return for a PoW block. -/
theorem work_from_valid_compact (nCompact : Nat)
    (hneg : (SetCompact nCompact).2.1 = false) (hov : (SetCompact nCompact).2.2 = false)
    (hnz : (SetCompact nCompact).1 ≠ 0) :
    1 ≤ (SetCompact nCompact).1 ∧ (SetCompact nCompact).1 < 2 ^ 256 - 1 ∧
    wrap256 ((SetCompact nCompact).1 + 1) ≠ 0 ∧
    (2 ^ 256 - 1 - (SetCompact nCompact).1) / ((SetCompact nCompact).1 + 1) + 1 < 2 ^ 256 ∧
    workFromTarget (SetCompact nCompact).1 = .ok (2 ^ 256 / ((SetCompact nCompact).1 + 1)) ∧
    (∀ (E : Env) (P : Params) (nHeight : Int) (hdr : CBlockHeader) (pprev pskip : PIndex),
      hdr.nBits = nCompact → E.IsForgeMined hdr = false →
      GetNumHashes E (.entry nHeight hdr pprev pskip)
        = .ok (2 ^ 256 / ((SetCompact nCompact).1 + 1)) ∧
      (E.IsForge11Enabled (.entry nHeight hdr pprev pskip) = false →
       E.IsForge12Enabled (.entry nHeight hdr pprev pskip) = false →
       GetBlockProof E P (.entry nHeight hdr pprev pskip)
        = .ok (2 ^ 256 / ((SetCompact nCompact).1 + 1)))) := by
  obtain ⟨hb1, hb2⟩ := setCompact_valid_bounds nCompact hov hnz
  have hlt : (SetCompact nCompact).1 < 2 ^ 256 - 1 :=
    lt_of_le_of_lt hb2 (by norm_num)
  obtain ⟨w1, w2, w3, _⟩ := workFromTarget_eq _ hb1 hlt
  refine ⟨hb1, hlt, w1, w2, w3, ?_⟩
  intro E P nHeight hdr pprev pskip hbits hpow
  subst hbits
  constructor
  · simp only [GetNumHashes, hneg, hov, hnz, hpow, w3]
    simp
  · intro h11 h12
    simp only [GetBlockProof, hneg, hov, hnz, hpow, w3, h11, h12, Outcome.andThen]
    simp

/-- Witness of C9: the compact value `0x1d00ffff`. -/
theorem work_from_valid_compact_witness :
    (SetCompact 0x1d00ffff).2.1 = false ∧ (SetCompact 0x1d00ffff).2.2 = false ∧
    (SetCompact 0x1d00ffff).1 ≠ 0 ∧
    workFromTarget (SetCompact 0x1d00ffff).1
      = .ok (2 ^ 256 / ((SetCompact 0x1d00ffff).1 + 1)) :=
  ⟨by decide, by decide, by decide,
    (work_from_valid_compact 0x1d00ffff (by decide) (by decide) (by decide)).2.2.2.2.1⟩

/-- C10 refuted: a forge-mined block and its PoW parent both carry the valid
compact target 1, which is below every pow-limit; before Forge 1.1 the two
works `2^255 + 2^255` wrap to 0, `GetBlockProof` returns 0 and the chain work
does not grow. -/
theorem hard_forge_block_zero_work :
    SetCompact 0x01010000 = (1, false, false) ∧
    1 ≤ mainParams.powLimit ∧ 1 ≤ mainParams.powLimitForge ∧
    forgeMined legacyEnv hardForgeIndex = true ∧
    skipForgeMined legacyEnv hardPowIndex = .ok hardPowIndex ∧
    GetBlockProof legacyEnv mainParams hardForgeIndex = .ok 0 ∧
    nChainWork 5 0 = 5 := by
  decide

/-- A valid target of at least `2^33` has a work between 1 and `2^223`. -/
theorem work_of_large_target (nCompact : Nat)
    (hov : (SetCompact nCompact).2.2 = false) (hbig : 2 ^ 33 ≤ (SetCompact nCompact).1) :
    ∃ w, workFromTarget (SetCompact nCompact).1 = .ok w ∧ 1 ≤ w ∧ w ≤ 2 ^ 223 := by
  have hnz : (SetCompact nCompact).1 ≠ 0 := by
    have : 0 < 2 ^ 33 := by norm_num
    omega
  obtain ⟨hb1, hb2⟩ := setCompact_valid_bounds nCompact hov hnz
  have hlt : (SetCompact nCompact).1 < 2 ^ 256 - 1 := lt_of_le_of_lt hb2 (by norm_num)
  obtain ⟨_, _, w3, w4⟩ := workFromTarget_eq _ hb1 hlt
  refine ⟨_, w3, w4, ?_⟩
  calc 2 ^ 256 / ((SetCompact nCompact).1 + 1) ≤ 2 ^ 256 / 2 ^ 33 :=
        Nat.div_le_div_left (by omega) (by norm_num)
    _ = 2 ^ 223 := by norm_num

/-- The walk to the nearest PoW block succeeds when there is one. -/
theorem skipForgeMined_ok (E : Env) (b : PIndex) : hasPowBlock E b = true →
    ∃ h hdr p s, skipForgeMined E b = .ok (.entry h hdr p s) := by
  induction b with
  | nullptr => intro h; simp [hasPowBlock] at h
  | entry h hdr p s ihp _ =>
    intro hp
    by_cases hm : E.IsForgeMined hdr = true
    · have hp' : hasPowBlock E p = true := by simpa [hasPowBlock, hm] using hp
      cases p with
      | nullptr => simp [hasPowBlock] at hp'
      | entry h2 hdr2 p2 s2 =>
        rw [skipForgeMined]
        simp only [hm, if_true]
        exact ihp hp'
    · exact ⟨h, hdr, p, s, by simp [skipForgeMined, hm]⟩

/-- The scan for the last forge-mined block succeeds when the chain is long
enough. -/
theorem findLastForge_ok (E : Env) (n : Nat) : ∀ (b : PIndex) (d : Int),
    nthPrev n b ≠ .nullptr → ∃ r, findLastForge E n b d = .ok r := by
  induction n with
  | zero => intro b d _; exact ⟨_, rfl⟩
  | succ k ih =>
    intro b d hb
    cases b with
    | nullptr => simp [nthPrev] at hb
    | entry h hdr p s =>
      simp only [nthPrev] at hb
      by_cases hm : E.IsForgeMined hdr = true
      · exact ⟨(d, E.GetDifficulty (.entry h hdr p s)), by simp [findLastForge, hm]⟩
      · cases p with
        | nullptr => exact absurd (nthPrev_nullptr k) hb
        | entry h2 hdr2 p2 s2 =>
          obtain ⟨r, hr⟩ := ih (.entry h2 hdr2 p2 s2) (d + 1) hb
          exact ⟨r, by simp [findLastForge, hm, hr]⟩

/-- The scan of the Forge 1.2 branch for PoW blocks is the scan of the
Forge 1.1 branch. -/
theorem findLastForge12_eq (E : Env) (n : Nat) : ∀ (b : PIndex) (d : Int),
    findLastForge12 E n b d = findLastForge E n b d := by
  induction n with
  | zero => intro b d; rfl
  | succ k ih =>
    intro b d
    cases b with
    | nullptr => rfl
    | entry h hdr p s =>
      cases p with
      | nullptr => simp only [findLastForge12, findLastForge]
      | entry h2 hdr2 p2 s2 =>
        rw [findLastForge12, findLastForge, ih]

/-- The factor of the Forge 1.2 branch for PoW blocks is the factor of the
Forge 1.1 branch. -/
theorem powBonusK12_eq (P : Params) (d : Int) (q : ℚ) : powBonusK12 P d q = powBonusK P d q := by
  unfold powBonusK12 powBonusK
  rfl

/-- The bonus of a PoW block under Forge 1.2 is its bonus under Forge 1.1. -/
theorem powBonus12_eq (E : Env) (P : Params) (pprev : PIndex) (w : Nat) :
    powBonus12 E P pprev w = powBonus E P pprev w := by
  unfold powBonus12 powBonus
  rw [findLastForge12_eq]
  simp only [powBonusK12_eq]

/-- The factor of a PoW block is a 32-bit value of at least 1. -/
theorem powBonusK_bounds (P : Params) (d : Int) (q : ℚ) :
    1 ≤ powBonusK P d q ∧ powBonusK P d q < 2 ^ 32 := by
  have hk : (wrapU32 (P.maxKPow - d)).toNat < 2 ^ 32 := by
    unfold wrapU32
    have := Int.emod_lt_of_pos (P.maxKPow - d) (by norm_num : (0 : Int) < 2 ^ 32)
    have := Int.emod_nonneg (P.maxKPow - d) (by norm_num : (2 : Int) ^ 32 ≠ 0)
    omega
  have hs : ∀ x : Nat, x >>> 1 ≤ x := fun x => by
    rw [Nat.shiftRight_eq_div_pow]; exact Nat.div_le_self _ _
  unfold powBonusK
  simp only []
  generalize (wrapU32 (P.maxKPow - d)).toNat = k at hk
  have h1 := hs k
  have h2 := hs (k >>> 1)
  norm_num at hk ⊢
  split_ifs <;> omega

/-- C10 as amended: when the target of the block (and, for a forge-mined
block, of its nearest PoW ancestor) is valid and at least `2^33`, the
parameters of the bonus of a forge-mined block are sane (`1 <= minK <= maxK`,
`maxForgeDiff > 0`; `minK2`, `maxK2` under Forge 1.2) and its difficulty is not
negative, and a PoW block under Forge 1.1 or 1.2 has more than `maxKPow`
blocks behind it, `GetBlockProof` returns a value of at least 1, and a chain
work that does not overflow grows strictly. -/
theorem blockProof_positive (E : Env) (P : Params) (nHeight : Int) (hdr : CBlockHeader)
    (pprev pskip : PIndex)
    (hneg : (SetCompact hdr.nBits).2.1 = false) (hov : (SetCompact hdr.nBits).2.2 = false)
    (hbig : 2 ^ 33 ≤ (SetCompact hdr.nBits).1)
    (hforge : E.IsForgeMined hdr = true →
      hasPowBlock E pprev = true ∧
      (∀ h' hdr' p' s', skipForgeMined E pprev = .ok (.entry h' hdr' p' s') →
        (SetCompact hdr'.nBits).2.1 = false ∧ (SetCompact hdr'.nBits).2.2 = false ∧
        2 ^ 33 ≤ (SetCompact hdr'.nBits).1) ∧
      (E.IsForge11Enabled (.entry nHeight hdr pprev pskip) = true →
        E.IsForge12Enabled (.entry nHeight hdr pprev pskip) = false →
        1 ≤ P.minK ∧ P.minK ≤ P.maxK ∧ P.maxK < 2 ^ 31) ∧
      (E.IsForge12Enabled (.entry nHeight hdr pprev pskip) = true →
        1 ≤ P.minK2 ∧ P.minK2 ≤ P.maxK2 ∧ P.maxK2 < 2 ^ 31) ∧
      ((E.IsForge11Enabled (.entry nHeight hdr pprev pskip) = true ∨
        E.IsForge12Enabled (.entry nHeight hdr pprev pskip) = true) →
        0 < P.maxForgeDiff ∧ 0 ≤ E.GetDifficulty (.entry nHeight hdr pprev pskip)))
    (hscan : E.IsForgeMined hdr = false →
      (E.IsForge11Enabled (.entry nHeight hdr pprev pskip) = true ∨
        E.IsForge12Enabled (.entry nHeight hdr pprev pskip) = true) →
      nthPrev P.maxKPow.toNat pprev ≠ .nullptr) :
    ∃ v, GetBlockProof E P (.entry nHeight hdr pprev pskip) = .ok v ∧ 1 ≤ v ∧
      ∀ c, c + v < 2 ^ 256 → c < nChainWork c v := by
  have hchain : ∀ v : Nat, 1 ≤ v → ∀ c, c + v < 2 ^ 256 → c < nChainWork c v := by
    intro v hv c hc
    unfold nChainWork wrap256
    rw [Nat.mod_eq_of_lt hc]
    omega
  have hprod : ∀ w k : Nat, 1 ≤ w → w ≤ 2 ^ 224 → 1 ≤ k → k < 2 ^ 32 →
      1 ≤ wrap256 (w * k) := by
    intro w k hw1 hw2 hk1 hk2
    have h1 : w * k ≤ 2 ^ 224 * 2 ^ 32 := Nat.mul_le_mul hw2 (le_of_lt hk2)
    have h2 : (2 : Nat) ^ 224 * 2 ^ 32 = 2 ^ 256 := by norm_num
    have h3 : w * k < 2 ^ 256 := by
      rcases Nat.lt_or_ge (w * k) (2 ^ 256) with h | h
      · exact h
      · have hwk : w * k = 2 ^ 224 * 2 ^ 32 := le_antisymm h1 (by rw [h2]; exact h)
        have : w * k < 2 ^ 224 * 2 ^ 32 :=
          Nat.mul_lt_mul_of_le_of_lt hw2 hk2 (by norm_num)
        omega
    unfold wrap256
    rw [Nat.mod_eq_of_lt h3]
    exact Nat.one_le_iff_ne_zero.mpr (Nat.mul_ne_zero (by omega) (by omega))
  have hnz : ¬ (SetCompact hdr.nBits).1 = 0 := by
    have : 0 < 2 ^ 33 := by norm_num
    omega
  obtain ⟨w, hw, hw1, hw2⟩ := work_of_large_target hdr.nBits hov hbig
  have hw224 : w ≤ 2 ^ 224 := le_trans hw2 (by norm_num)
  suffices hex : ∃ v, GetBlockProof E P (.entry nHeight hdr pprev pskip) = .ok v ∧ 1 ≤ v by
    obtain ⟨v, hv, hv1⟩ := hex
    exact ⟨v, hv, hv1, hchain v hv1⟩
  by_cases hm : E.IsForgeMined hdr = true
  · obtain ⟨hpow, hanc, hk11, hk12, hdiff⟩ := hforge hm
    obtain ⟨h', hdr', p', s', hskip⟩ := skipForgeMined_ok E pprev hpow
    obtain ⟨hneg', hov', hbig'⟩ := hanc h' hdr' p' s' hskip
    obtain ⟨w', hw', hw1', hw2'⟩ := work_of_large_target hdr'.nBits hov' hbig'
    have hnz' : ¬ (SetCompact hdr'.nBits).1 = 0 := by
      have : 0 < 2 ^ 33 := by norm_num
      omega
    have hpne : pprev ≠ .nullptr := by
      intro e; rw [e] at hpow; simp [hasPowBlock] at hpow
    have hsum : w + w' ≤ 2 ^ 224 := by
      have : (2 : Nat) ^ 224 = 2 ^ 223 + 2 ^ 223 := by norm_num
      omega
    have hsumw : wrap256 (w + w') = w + w' := by
      unfold wrap256
      exact Nat.mod_eq_of_lt (lt_of_le_of_lt hsum (by norm_num))
    cases pprev with
    | nullptr => exact absurd rfl hpne
    | entry h2 hdr2 p2 s2 =>
      simp only [GetBlockProof, hneg, hov, hnz, hw, hm, hskip, hneg', hov', hnz', hw',
        Outcome.andThen, hsumw, Bool.false_eq_true, false_or, if_false, if_true]
      have hk32 : ∀ (k : Nat) (maxK : Int), (k : Int) ≤ maxK → maxK < 2 ^ 31 → k < 2 ^ 32 := by
        intro k maxK a b
        norm_num at b ⊢
        omega
      by_cases h12 : E.IsForge12Enabled (.entry nHeight hdr (.entry h2 hdr2 p2 s2) pskip) = true
      · obtain ⟨c1, c2, c3⟩ := hk12 h12
        obtain ⟨d1, d2⟩ := hdiff (Or.inr h12)
        obtain ⟨k, hk, hkl, hku⟩ := forgeBonusK_bounds P.maxForgeDiff P.minK2 P.maxK2
          (E.GetDifficulty (.entry nHeight hdr (.entry h2 hdr2 p2 s2) pskip)) (by omega) c2 c3 d1 d2
        simp only [h12, not_true_eq_false, and_false, if_false, if_true, Outcome.andThen, hk]
        exact ⟨_, rfl, hprod _ _ (by omega) hsum (by omega) (hk32 k _ hku c3)⟩
      · by_cases h11 : E.IsForge11Enabled (.entry nHeight hdr (.entry h2 hdr2 p2 s2) pskip) = true
        · obtain ⟨c1, c2, c3⟩ := hk11 h11 (by simpa using h12)
          obtain ⟨d1, d2⟩ := hdiff (Or.inl h11)
          obtain ⟨k, hk, hkl, hku⟩ := forgeBonusK_bounds P.maxForgeDiff P.minK P.maxK
            (E.GetDifficulty (.entry nHeight hdr (.entry h2 hdr2 p2 s2) pskip)) (by omega) c2 c3 d1 d2
          simp only [h11, h12, not_false_eq_true, and_self, if_true, if_false, Outcome.andThen, hk]
          exact ⟨_, rfl, hprod _ _ (by omega) hsum (by omega) (hk32 k _ hku c3)⟩
        · simp only [h11, h12, false_and, if_false, Outcome.andThen]
          refine ⟨_, rfl, ?_⟩
          omega
  · have hm' : E.IsForgeMined hdr = false := by simpa using hm
    have hbonus : (E.IsForge11Enabled (.entry nHeight hdr pprev pskip) = true ∨
        E.IsForge12Enabled (.entry nHeight hdr pprev pskip) = true) →
        ∃ v, powBonus E P pprev w = .ok v ∧ 1 ≤ v := by
      intro hact
      obtain ⟨r, hr⟩ := findLastForge_ok E P.maxKPow.toNat pprev 0 (hscan hm' hact)
      have hkb := powBonusK_bounds P r.1 r.2
      exact ⟨_, by simp only [powBonus, hr, Outcome.andThen],
        hprod _ _ hw1 hw224 hkb.1 hkb.2⟩
    simp only [GetBlockProof, hneg, hov, hnz, hw, hm', Outcome.andThen,
      Bool.false_eq_true, false_or, if_false]
    split_ifs with c1 c2
    · exact hbonus (Or.inl c1.1)
    · rw [powBonus12_eq]
      exact hbonus (Or.inr c2)
    · exact ⟨_, rfl, hw1⟩

/-- Witness of C10 as amended: the forge-mined block at height 2 of the
scenario chain under Forge 1.1 with the main-net parameters. -/
theorem blockProof_positive_witness :
    (2 : Nat) ^ 33 ≤ (SetCompact 0x1e0ffff0).1 ∧ hasPowBlock scenarioEnv powIndex1 = true ∧
    (1 ≤ mainParams.minK ∧ mainParams.minK ≤ mainParams.maxK ∧ mainParams.maxK < 2 ^ 31) ∧
    (0 < mainParams.maxForgeDiff ∧ 0 ≤ scenarioEnv.GetDifficulty forgeIndex2) ∧
    ∃ v, GetBlockProof scenarioEnv mainParams forgeIndex2 = .ok v ∧ 1 ≤ v ∧
      ∀ c, c + v < 2 ^ 256 → c < nChainWork c v :=
  ⟨by decide, by decide, by decide, by norm_num [mainParams, scenarioEnv],
    blockProof_positive scenarioEnv mainParams 2 ⟨1585891964, 0x1e0ffff0, 192⟩ powIndex1 genesisIndex
      (by decide) (by decide) (by decide)
      (fun _ => ⟨by decide,
        fun h' hdr' p' s' e => by
          have e2 : powIndex1 = PIndex.entry h' hdr' p' s' := Outcome.ok.inj e
          unfold powIndex1 at e2
          cases e2
          decide,
        fun _ _ => by decide, fun h => absurd h (by decide),
        fun _ => by norm_num [mainParams, scenarioEnv]⟩)
      (fun hm _ => absurd hm (by decide))⟩


/-! ## Work of a PoW block under Forge 1.1 -/

theorem findLastForge_eq (E : Env) (n : Nat) : ∀ (b : PIndex) (d : Int),
    (lastForgeWithin E n b ≠ none ∨ nthPrev n b ≠ .nullptr) →
    findLastForge E n b d = .ok (d + blocksSinceForge E n b, lastForgeDifficulty E n b) := by
  induction n with
  | zero => intro b d _; simp [findLastForge, blocksSinceForge, lastForgeDifficulty, lastForgeWithin]
  | succ k ih =>
    intro b d hb
    cases b with
    | nullptr => simp [nthPrev, lastForgeWithin] at hb
    | entry h hdr p s =>
      by_cases hm : E.IsForgeMined hdr = true
      · simp [findLastForge, blocksSinceForge, lastForgeDifficulty, lastForgeWithin, hm]
      · cases p with
        | nullptr =>
          simp [lastForgeWithin, hm, nthPrev, nthPrev_nullptr] at hb
          cases k <;> simp [lastForgeWithin] at hb
        | entry h2 hdr2 p2 s2 =>
          have hb' : lastForgeWithin E k (.entry h2 hdr2 p2 s2) ≠ none ∨
              nthPrev k (.entry h2 hdr2 p2 s2) ≠ .nullptr := by
            simpa [lastForgeWithin, hm, nthPrev] using hb
          have := ih (.entry h2 hdr2 p2 s2) (d + 1) hb'
          simp only [findLastForge, hm, Bool.false_eq_true, if_false, this, blocksSinceForge,
            lastForgeDifficulty, lastForgeWithin]
          congr 2
          push_cast
          ring

theorem blocksSinceForge_le (E : Env) (n : Nat) : ∀ b : PIndex, blocksSinceForge E n b ≤ n := by
  induction n with
  | zero => intro b; simp [blocksSinceForge]
  | succ k ih =>
    intro b
    cases b with
    | nullptr => simp [blocksSinceForge]
    | entry h hdr p s =>
      simp only [blocksSinceForge]
      split_ifs
      · omega
      · have := ih p; omega

theorem powBonusK_eq (P : Params) (d : Nat) (q : ℚ) (h0 : 0 ≤ P.maxKPow) (h1 : P.maxKPow < 2 ^ 31)
    (hd : d ≤ P.maxKPow.toNat) : powBonusK P d q = bonusFactor P d q := by
  have e : (wrapU32 (P.maxKPow - d)).toNat = P.maxKPow.toNat - d := by
    unfold wrapU32
    rw [Int.emod_eq_of_lt (by omega) (by norm_num at h1 ⊢; omega)]
    omega
  unfold powBonusK bonusFactor
  simp only [e, Nat.shiftRight_eq_div_pow, pow_one]
  split_ifs <;> omega


theorem baseWork_valid (nCompact : Nat) (hneg : (SetCompact nCompact).2.1 = false)
    (hov : (SetCompact nCompact).2.2 = false) (hnz : (SetCompact nCompact).1 ≠ 0) :
    baseWork nCompact = work (SetCompact nCompact).1 ∧
    workFromTarget (SetCompact nCompact).1 = .ok (baseWork nCompact) := by
  obtain ⟨hb1, hb2⟩ := setCompact_valid_bounds nCompact hov hnz
  have hlt : (SetCompact nCompact).1 < 2 ^ 256 - 1 := lt_of_le_of_lt hb2 (by norm_num)
  have e : baseWork nCompact = work (SetCompact nCompact).1 := by
    simp [baseWork, validCompact, hneg, hov, hnz]
  exact ⟨e, by rw [e]; exact (workFromTarget_eq _ hb1 hlt).2.2.1⟩

theorem baseWork_invalid (nCompact : Nat)
    (h : (SetCompact nCompact).2.1 = true ∨ (SetCompact nCompact).2.2 = true ∨
      (SetCompact nCompact).1 = 0) : baseWork nCompact = 0 := by
  unfold baseWork validCompact
  rcases h with h | h | h <;> simp [h]

theorem work_le (t : Nat) (h : 1 ≤ t) : work t ≤ 2 ^ 255 ∧ (2 ≤ t → work t < 2 ^ 255) := by
  unfold work
  constructor
  · calc 2 ^ 256 / (t + 1) ≤ 2 ^ 256 / 2 := Nat.div_le_div_left (by omega) (by norm_num)
      _ = 2 ^ 255 := by norm_num
  · intro h2
    calc 2 ^ 256 / (t + 1) ≤ 2 ^ 256 / 3 := Nat.div_le_div_left (by omega) (by norm_num)
      _ < 2 ^ 255 := by norm_num

theorem bonusFactor_le (P : Params) (d : Nat) (q : ℚ) :
    1 ≤ bonusFactor P d q ∧ bonusFactor P d q ≤ max P.maxKPow.toNat 1 := by
  unfold bonusFactor
  simp only []
  split_ifs <;> omega


/-- The work of a PoW block under Forge 1.1 or 1.2 whose scan for the last
forge-mined block stays on the chain. -/
theorem getBlockProof_pow (E : Env) (P : Params) (nHeight : Int) (hdr : CBlockHeader)
    (pprev pskip : PIndex)
    (hpow : E.IsForgeMined hdr = false)
    (hact : E.IsForge11Enabled (.entry nHeight hdr pprev pskip) = true ∨
      E.IsForge12Enabled (.entry nHeight hdr pprev pskip) = true)
    (hK0 : 0 ≤ P.maxKPow) (hK1 : P.maxKPow < 2 ^ 31)
    (hscan : lastForgeWithin E P.maxKPow.toNat pprev ≠ none ∨
      nthPrev P.maxKPow.toNat pprev ≠ .nullptr) :
    GetBlockProof E P (.entry nHeight hdr pprev pskip) =
      .ok (wrap256 (baseWork hdr.nBits *
        bonusFactor P (blocksSinceForge E P.maxKPow.toNat pprev)
          (lastForgeDifficulty E P.maxKPow.toNat pprev))) := by
  by_cases hv : (SetCompact hdr.nBits).2.1 = true ∨ (SetCompact hdr.nBits).2.2 = true ∨
      (SetCompact hdr.nBits).1 = 0
  · rw [baseWork_invalid _ hv]
    have hv' : ((SetCompact hdr.nBits).2.1 = true ∨ (SetCompact hdr.nBits).2.2 = true ∨
      (SetCompact hdr.nBits).1 = 0) := hv
    simp only [GetBlockProof, hv', if_true, Nat.zero_mul]
    rfl
  · have hneg : (SetCompact hdr.nBits).2.1 = false := by
      cases h : (SetCompact hdr.nBits).2.1
      · rfl
      · exact absurd (Or.inl h) hv
    have hov : (SetCompact hdr.nBits).2.2 = false := by
      cases h : (SetCompact hdr.nBits).2.2
      · rfl
      · exact absurd (Or.inr (Or.inl h)) hv
    have hnz : (SetCompact hdr.nBits).1 ≠ 0 := fun h => hv (Or.inr (Or.inr h))
    obtain ⟨_, hw⟩ := baseWork_valid hdr.nBits hneg hov hnz
    have hfl := findLastForge_eq E P.maxKPow.toNat pprev 0 hscan
    have hk := powBonusK_eq P (blocksSinceForge E P.maxKPow.toNat pprev)
      (lastForgeDifficulty E P.maxKPow.toNat pprev) hK0 hK1 (blocksSinceForge_le E _ pprev)
    have hb : powBonus E P pprev (baseWork hdr.nBits) =
        .ok (wrap256 (baseWork hdr.nBits *
          bonusFactor P (blocksSinceForge E P.maxKPow.toNat pprev)
            (lastForgeDifficulty E P.maxKPow.toNat pprev))) := by
      simp only [powBonus, hfl, Outcome.andThen, zero_add, hk]
    simp only [GetBlockProof, hneg, hov, hnz, hw, hpow, Outcome.andThen,
      Bool.false_eq_true, false_or, if_false]
    split_ifs with c1 c2
    · exact hb
    · rw [powBonus12_eq]
      exact hb
    · rcases hact with h | h
      · have h12 : ¬ E.IsForge12Enabled (.entry nHeight hdr pprev pskip) = true := c2
        exact absurd ⟨h, h12⟩ c1
      · exact absurd h c2

/-- C11 refuted: the PoW block `hardPowIndex3` under Forge 1.1 has the valid
compact target 1, hence base work `2^255`, and a forge-mined parent of
difficulty 0.01, hence `k = 5`; `GetBlockProof` returns `2^255`, which is the
product `5 * 2^255` reduced modulo `2^256`, not the product. -/
theorem pow_bonus_wraps :
    scenarioEnv.IsForgeMined ⟨1585891974, 0x01010000, 7⟩ = false ∧
    scenarioEnv.IsForge11Enabled hardPowIndex3 = true ∧
    validCompact 0x01010000 = true ∧
    baseWork 0x01010000 = 2 ^ 255 ∧
    blocksSinceForge scenarioEnv mainParams.maxKPow.toNat forgeIndex2 = 0 ∧
    bonusFactor mainParams 0 (lastForgeDifficulty scenarioEnv mainParams.maxKPow.toNat forgeIndex2)
      = 5 ∧
    GetBlockProof scenarioEnv mainParams hardPowIndex3 = .ok (2 ^ 255) ∧
    (2 : Nat) ^ 255 ≠ 2 ^ 255 * 5 := by
  have hk : bonusFactor mainParams 0
      (lastForgeDifficulty scenarioEnv mainParams.maxKPow.toNat forgeIndex2) = 5 := by
    have e : (5 : Int).toNat = 5 := rfl
    norm_num [bonusFactor, lastForgeDifficulty, lastForgeWithin, mainParams, scenarioEnv,
      forgeIndex2, e]
  have hd : blocksSinceForge scenarioEnv mainParams.maxKPow.toNat forgeIndex2 = 0 := by decide
  have hb : baseWork 0x01010000 = 2 ^ 255 := by decide
  refine ⟨by decide, by decide, by decide, hb, hd, hk, ?_, by decide⟩
  have h := getBlockProof_pow scenarioEnv mainParams 3 ⟨1585891974, 0x01010000, 7⟩ forgeIndex2
    powIndex1 (by decide) (Or.inl (by decide)) (by decide) (by decide) (Or.inl (by decide))
  rw [hd, hk] at h
  rw [show hardPowIndex3 = PIndex.entry 3 ⟨1585891974, 0x01010000, 7⟩ forgeIndex2 powIndex1
    from rfl, h]
  decide

/-- C11 as amended: for a PoW block with Forge 1.1 active, `maxKPow` a
non-negative `int` and a scan that stays on the chain, `GetBlockProof` returns
the product of the base work and `k` reduced modulo `2^256`, where `d` is the
number of PoW blocks stepped over from the parent before the first forge-mined
block within `maxKPow` blocks and `k` is `maxKPow - d`, halved below
`powSplit1`, halved again below `powSplit2`, raised to 1; the product itself
is returned when it is below `2^256`, as it is for every target of at least
`2^32`.  With the main-net parameters `k` is 5, 2 and 1 in the three examples. -/
theorem pow_block_bonus (E : Env) (P : Params) (nHeight : Int) (hdr : CBlockHeader)
    (pprev pskip : PIndex)
    (hpow : E.IsForgeMined hdr = false)
    (h11 : E.IsForge11Enabled (.entry nHeight hdr pprev pskip) = true)
    (hK0 : 0 ≤ P.maxKPow) (hK1 : P.maxKPow < 2 ^ 31)
    (hscan : lastForgeWithin E P.maxKPow.toNat pprev ≠ none ∨
      nthPrev P.maxKPow.toNat pprev ≠ .nullptr) :
    GetBlockProof E P (.entry nHeight hdr pprev pskip) =
      .ok (wrap256 (baseWork hdr.nBits *
        bonusFactor P (blocksSinceForge E P.maxKPow.toNat pprev)
          (lastForgeDifficulty E P.maxKPow.toNat pprev))) ∧
    (baseWork hdr.nBits *
        bonusFactor P (blocksSinceForge E P.maxKPow.toNat pprev)
          (lastForgeDifficulty E P.maxKPow.toNat pprev) < 2 ^ 256 →
      GetBlockProof E P (.entry nHeight hdr pprev pskip) =
        .ok (baseWork hdr.nBits *
          bonusFactor P (blocksSinceForge E P.maxKPow.toNat pprev)
            (lastForgeDifficulty E P.maxKPow.toNat pprev))) ∧
    (2 ^ 32 ≤ (SetCompact hdr.nBits).1 →
      baseWork hdr.nBits *
        bonusFactor P (blocksSinceForge E P.maxKPow.toNat pprev)
          (lastForgeDifficulty E P.maxKPow.toNat pprev) < 2 ^ 256) ∧
    bonusFactor mainParams 0 (1 / 100) = 5 ∧ bonusFactor mainParams 3 (1 / 100) = 2 ∧
    bonusFactor mainParams 0 (1 / 1000) = 1 := by
  have h := getBlockProof_pow E P nHeight hdr pprev pskip hpow (Or.inl h11) hK0 hK1 hscan
  refine ⟨h, fun hlt => ?_, fun hbig => ?_, ?_, ?_, ?_⟩
  · rw [h]
    unfold wrap256
    rw [Nat.mod_eq_of_lt hlt]
  · have hk := (bonusFactor_le P (blocksSinceForge E P.maxKPow.toNat pprev)
      (lastForgeDifficulty E P.maxKPow.toNat pprev)).2
    have hk2 : max P.maxKPow.toNat 1 ≤ 2 ^ 31 := by
      have : P.maxKPow.toNat < 2 ^ 31 := by omega
      have : 1 ≤ 2 ^ 31 := by norm_num
      omega
    have hw : baseWork hdr.nBits ≤ 2 ^ 224 := by
      unfold baseWork
      split_ifs
      · unfold work
        calc 2 ^ 256 / ((SetCompact hdr.nBits).1 + 1) ≤ 2 ^ 256 / 2 ^ 32 :=
              Nat.div_le_div_left (by omega) (by norm_num)
          _ = 2 ^ 224 := by norm_num
      · positivity
    calc _ ≤ 2 ^ 224 * 2 ^ 31 := Nat.mul_le_mul hw (le_trans hk hk2)
      _ < 2 ^ 256 := by norm_num
  · have e : (5 : Int).toNat = 5 := rfl
    norm_num [bonusFactor, mainParams, e]
  · have e : (5 : Int).toNat = 5 := rfl
    norm_num [bonusFactor, mainParams, e]
  · have e : (5 : Int).toNat = 5 := rfl
    norm_num [bonusFactor, mainParams, e]

/-- The PoW block at height 3 of the scenario chain, whose parent is
forge-mined: `d = 0` and the work is the base work times the factor. -/
theorem pow_block_bonus_witness :
    scenarioEnv.IsForgeMined ⟨1585891974, 0x1e0ffff0, 7⟩ = false ∧
    GetBlockProof scenarioEnv mainParams (.entry 3 ⟨1585891974, 0x1e0ffff0, 7⟩ forgeIndex2 powIndex1)
      = .ok (wrap256 (baseWork 0x1e0ffff0 *
        bonusFactor mainParams (blocksSinceForge scenarioEnv mainParams.maxKPow.toNat forgeIndex2)
          (lastForgeDifficulty scenarioEnv mainParams.maxKPow.toNat forgeIndex2))) :=
  ⟨by decide,
    (pow_block_bonus scenarioEnv mainParams 3 ⟨1585891974, 0x1e0ffff0, 7⟩ forgeIndex2 powIndex1
      (by decide) (by decide) (by decide) (by decide) (Or.inl (by decide))).1⟩

/-! ## Work of a forge-mined block before Forge 1.1 -/

/-- The walk to the nearest PoW block ends at `nearestPow`, which is a block. -/
theorem skipForgeMined_nearest (E : Env) (b : PIndex) : hasPowBlock E b = true →
    skipForgeMined E b = .ok (nearestPow E b) ∧
    ∃ h hdr p s, nearestPow E b = .entry h hdr p s ∧ E.IsForgeMined hdr = false := by
  induction b with
  | nullptr => intro h; simp [hasPowBlock] at h
  | entry h hdr p s ihp _ =>
    intro hp
    by_cases hm : E.IsForgeMined hdr = true
    · have hp' : hasPowBlock E p = true := by simpa [hasPowBlock, hm] using hp
      cases p with
      | nullptr => simp [hasPowBlock] at hp'
      | entry h2 hdr2 p2 s2 =>
        rw [skipForgeMined, nearestPow]
        simp only [hm, if_true]
        exact ihp hp'
    · have hm' : E.IsForgeMined hdr = false := by simpa using hm
      exact ⟨by simp [skipForgeMined, nearestPow, hm], h, hdr, p, s,
        by simp [nearestPow, hm], hm'⟩

/-- The work of a forge-mined block before Forge 1.1. -/
theorem getBlockProof_forge_pre11 (E : Env) (P : Params) (nHeight : Int) (hdr : CBlockHeader)
    (pprev pskip : PIndex)
    (hforge : E.IsForgeMined hdr = true)
    (h11 : E.IsForge11Enabled (.entry nHeight hdr pprev pskip) = false)
    (h12 : E.IsForge12Enabled (.entry nHeight hdr pprev pskip) = false)
    (hpow : hasPowBlock E pprev = true) :
    GetBlockProof E P (.entry nHeight hdr pprev pskip) =
      .ok (if validCompact hdr.nBits = true ∧ validCompact (nearestPow E pprev).bits = true
        then wrap256 (work (SetCompact hdr.nBits).1 +
          work (SetCompact (nearestPow E pprev).bits).1)
        else 0) := by
  obtain ⟨hskip, h', hdr', p', s', hnear, _⟩ := skipForgeMined_nearest E pprev hpow
  have hbits : (nearestPow E pprev).bits = hdr'.nBits := by rw [hnear]; rfl
  rw [hbits]
  rw [hnear] at hskip
  have hpne : pprev ≠ .nullptr := by
    intro e; rw [e] at hpow; simp [hasPowBlock] at hpow
  by_cases hv : (SetCompact hdr.nBits).2.1 = true ∨ (SetCompact hdr.nBits).2.2 = true ∨
      (SetCompact hdr.nBits).1 = 0
  · have hvc : validCompact hdr.nBits = false := by
      unfold validCompact
      rcases hv with h | h | h <;> simp [h]
    simp only [GetBlockProof, hv, if_true, hvc, Bool.false_eq_true, false_and, if_false]
  · have hneg : (SetCompact hdr.nBits).2.1 = false := by
      cases h : (SetCompact hdr.nBits).2.1
      · rfl
      · exact absurd (Or.inl h) hv
    have hov : (SetCompact hdr.nBits).2.2 = false := by
      cases h : (SetCompact hdr.nBits).2.2
      · rfl
      · exact absurd (Or.inr (Or.inl h)) hv
    have hnz : (SetCompact hdr.nBits).1 ≠ 0 := fun h => hv (Or.inr (Or.inr h))
    obtain ⟨hbw, hw⟩ := baseWork_valid hdr.nBits hneg hov hnz
    have hvc : validCompact hdr.nBits = true := by
      simp [validCompact, hneg, hov, hnz]
    cases pprev with
    | nullptr => exact absurd rfl hpne
    | entry h2 hdr2 p2 s2 =>
      by_cases hv' : (SetCompact hdr'.nBits).2.1 = true ∨ (SetCompact hdr'.nBits).2.2 = true ∨
          (SetCompact hdr'.nBits).1 = 0
      · have hvc' : validCompact hdr'.nBits = false := by
          unfold validCompact
          rcases hv' with h | h | h <;> simp [h]
        simp only [GetBlockProof, hneg, hov, hnz, hw, hforge, hskip, Outcome.andThen, hv',
          Bool.false_eq_true, false_or, if_false, if_true, hvc', and_false]
      · have hneg' : (SetCompact hdr'.nBits).2.1 = false := by
          cases h : (SetCompact hdr'.nBits).2.1
          · rfl
          · exact absurd (Or.inl h) hv'
        have hov' : (SetCompact hdr'.nBits).2.2 = false := by
          cases h : (SetCompact hdr'.nBits).2.2
          · rfl
          · exact absurd (Or.inr (Or.inl h)) hv'
        have hnz' : (SetCompact hdr'.nBits).1 ≠ 0 := fun h => hv' (Or.inr (Or.inr h))
        obtain ⟨hbw', hw'⟩ := baseWork_valid hdr'.nBits hneg' hov' hnz'
        have hvc' : validCompact hdr'.nBits = true := by
          simp [validCompact, hneg', hov', hnz']
        simp only [GetBlockProof, hneg, hov, hnz, hw, hforge, hskip, Outcome.andThen, hneg',
          hov', hnz', hw', h11, h12, Bool.false_eq_true, false_or, if_false, if_true, hvc, hvc',
          and_self, false_and, hbw, hbw']


/-- The work of a forge-mined block with valid compact targets under Forge 1.1
or 1.2: the sum of the two works times the factor of `forgeBonusK`, taken with
`minK2`, `maxK2` under Forge 1.2 and with `minK`, `maxK` otherwise. -/
theorem getBlockProof_forge_bonus (E : Env) (P : Params) (nHeight : Int) (hdr : CBlockHeader)
    (pprev pskip : PIndex)
    (hforge : E.IsForgeMined hdr = true)
    (hact : E.IsForge11Enabled (.entry nHeight hdr pprev pskip) = true ∨
      E.IsForge12Enabled (.entry nHeight hdr pprev pskip) = true)
    (hpow : hasPowBlock E pprev = true)
    (hv : validCompact hdr.nBits = true)
    (hv' : validCompact (nearestPow E pprev).bits = true) :
    GetBlockProof E P (.entry nHeight hdr pprev pskip) =
      (forgeBonusK P.maxForgeDiff
        (if E.IsForge12Enabled (.entry nHeight hdr pprev pskip) then P.minK2 else P.minK)
        (if E.IsForge12Enabled (.entry nHeight hdr pprev pskip) then P.maxK2 else P.maxK)
        (E.GetDifficulty (.entry nHeight hdr pprev pskip))).andThen fun k =>
        .ok (wrap256 (wrap256 (baseWork hdr.nBits + baseWork (nearestPow E pprev).bits) * k)) := by
  obtain ⟨hskip, h', hdr', p', s', hnear, _⟩ := skipForgeMined_nearest E pprev hpow
  have hbits : (nearestPow E pprev).bits = hdr'.nBits := by rw [hnear]; rfl
  rw [hbits] at hv' ⊢
  rw [hnear] at hskip
  have hpne : pprev ≠ .nullptr := by
    intro e; rw [e] at hpow; simp [hasPowBlock] at hpow
  have hparts : ∀ c : Nat, validCompact c = true →
      (SetCompact c).2.1 = false ∧ (SetCompact c).2.2 = false ∧ (SetCompact c).1 ≠ 0 := by
    intro c h
    unfold validCompact at h
    simp only [Bool.and_eq_true, Bool.not_eq_true', decide_eq_true_eq] at h
    exact ⟨h.1.1, h.1.2, h.2⟩
  obtain ⟨hneg, hov, hnz⟩ := hparts _ hv
  obtain ⟨hneg', hov', hnz'⟩ := hparts _ hv'
  obtain ⟨_, hw⟩ := baseWork_valid hdr.nBits hneg hov hnz
  obtain ⟨_, hw'⟩ := baseWork_valid hdr'.nBits hneg' hov' hnz'
  cases pprev with
  | nullptr => exact absurd rfl hpne
  | entry h2 hdr2 p2 s2 =>
    simp only [GetBlockProof, hneg, hov, hnz, hw, hforge, hskip, Outcome.andThen, hneg',
      hov', hnz', hw', Bool.false_eq_true, false_or, if_false, if_true]
    by_cases h12 : E.IsForge12Enabled (.entry nHeight hdr (.entry h2 hdr2 p2 s2) pskip) = true
    · simp only [h12, not_true_eq_false, and_false, if_false, if_true]
    · have h11 : E.IsForge11Enabled (.entry nHeight hdr (.entry h2 hdr2 p2 s2) pskip) = true := by
        rcases hact with h | h
        · exact h
        · exact absurd h h12
      simp only [h11, h12, not_false_eq_true, and_self, if_true, if_false, Bool.false_eq_true]
      cases forgeBonusK P.maxForgeDiff P.minK P.maxK
        (E.GetDifficulty (.entry nHeight hdr (.entry h2 hdr2 p2 s2) pskip)) <;> rfl

/-- The forge-mined block at height 2 of the scenario chain under Forge 1.1:
its difficulty 0.01 is above `maxForgeDiff`, the factor is `maxK = 16`, and
the work is 16 times the sum `0x100010 + 0x100010`. -/
theorem forge_block_bonus_value :
    forgeBonusK mainParams.maxForgeDiff mainParams.minK mainParams.maxK
      (scenarioEnv.GetDifficulty forgeIndex2) = .ok 16 ∧
    baseWork 0x1e0ffff0 = 0x100010 ∧
    GetBlockProof scenarioEnv mainParams forgeIndex2 = .ok 0x2000200 := by
  have hk : forgeBonusK mainParams.maxForgeDiff mainParams.minK mainParams.maxK
      (scenarioEnv.GetDifficulty forgeIndex2) = .ok 16 :=
    forgeBonusK_saturated _ _ _ _ (by decide) (by decide) (by decide)
      (by norm_num [mainParams]) (by norm_num [mainParams, scenarioEnv])
  have hb : baseWork 0x1e0ffff0 = 0x100010 := by decide
  have hg := getBlockProof_forge_bonus scenarioEnv mainParams 2 ⟨1585891964, 0x1e0ffff0, 192⟩
    powIndex1 genesisIndex (by decide) (Or.inl (by decide)) (by decide) (by decide) (by decide)
  have hn : (nearestPow scenarioEnv powIndex1).bits = 0x1e0ffff0 := by decide
  have h12 : scenarioEnv.IsForge12Enabled
      (.entry 2 ⟨1585891964, 0x1e0ffff0, 192⟩ powIndex1 genesisIndex) = false := by decide
  have hk' : forgeBonusK mainParams.maxForgeDiff mainParams.minK mainParams.maxK
      (scenarioEnv.GetDifficulty
        (.entry 2 ⟨1585891964, 0x1e0ffff0, 192⟩ powIndex1 genesisIndex)) = .ok 16 := hk
  refine ⟨hk, hb, ?_⟩
  unfold forgeIndex2
  rw [hg, hn]
  simp only [h12, Bool.false_eq_true, if_false, hk', Outcome.andThen, hb]
  decide

/-- C12 refuted: before Forge 1.1 the forge-mined block `hardForgeIndex` and
its nearest PoW ancestor `hardPowIndex` both carry the valid compact target 1
of work `2^255`; `GetBlockProof` returns 0, not the sum `2^256` of the works. -/
theorem forge_work_sum_wraps :
    legacyEnv.IsForge11Enabled hardForgeIndex = false ∧
    forgeMined legacyEnv hardForgeIndex = true ∧
    nearestPow legacyEnv hardPowIndex = hardPowIndex ∧
    validCompact hardForgeIndex.bits = true ∧ validCompact hardPowIndex.bits = true ∧
    work (SetCompact hardForgeIndex.bits).1 + work (SetCompact hardPowIndex.bits).1 = 2 ^ 256 ∧
    GetBlockProof legacyEnv mainParams hardForgeIndex ≠
      .ok (work (SetCompact hardForgeIndex.bits).1 + work (SetCompact hardPowIndex.bits).1) := by
  decide

/-- C12 as amended: for a forge-mined block with neither Forge 1.1 nor 1.2
active and a PoW block behind it, `GetBlockProof` returns 0 if its own compact
target or the one of the nearest PoW block `T` behind it is negative,
overflowing or zero, and otherwise `work(own target) + work(T)` reduced modulo
`2^256`, with `work(x) = floor(2^256 / (x + 1))`; this is the sum itself
unless both targets are 1. -/
theorem forge_block_work_pre11 (E : Env) (P : Params) (nHeight : Int) (hdr : CBlockHeader)
    (pprev pskip : PIndex)
    (hforge : E.IsForgeMined hdr = true)
    (h11 : E.IsForge11Enabled (.entry nHeight hdr pprev pskip) = false)
    (h12 : E.IsForge12Enabled (.entry nHeight hdr pprev pskip) = false)
    (hpow : hasPowBlock E pprev = true) :
    (validCompact hdr.nBits = false ∨ validCompact (nearestPow E pprev).bits = false →
      GetBlockProof E P (.entry nHeight hdr pprev pskip) = .ok 0) ∧
    (validCompact hdr.nBits = true → validCompact (nearestPow E pprev).bits = true →
      GetBlockProof E P (.entry nHeight hdr pprev pskip) =
        .ok ((work (SetCompact hdr.nBits).1 + work (SetCompact (nearestPow E pprev).bits).1)
          % 2 ^ 256) ∧
      (¬ ((SetCompact hdr.nBits).1 = 1 ∧ (SetCompact (nearestPow E pprev).bits).1 = 1) →
        GetBlockProof E P (.entry nHeight hdr pprev pskip) =
          .ok (work (SetCompact hdr.nBits).1 +
            work (SetCompact (nearestPow E pprev).bits).1))) := by
  have h := getBlockProof_forge_pre11 E P nHeight hdr pprev pskip hforge h11 h12 hpow
  refine ⟨fun hv => ?_, fun hv1 hv2 => ?_⟩
  · rw [h, if_neg]
    rintro ⟨a, b⟩
    rcases hv with hv | hv
    · rw [a] at hv; cases hv
    · rw [b] at hv; cases hv
  · rw [h, if_pos ⟨hv1, hv2⟩]
    refine ⟨rfl, fun hne => ?_⟩
    have p1 : 1 ≤ (SetCompact hdr.nBits).1 := by
      have : (SetCompact hdr.nBits).1 ≠ 0 := by
        intro e
        simp [validCompact, e] at hv1
      omega
    have p2 : 1 ≤ (SetCompact (nearestPow E pprev).bits).1 := by
      have : (SetCompact (nearestPow E pprev).bits).1 ≠ 0 := by
        intro e
        simp [validCompact, e] at hv2
      omega
    have w1 := work_le _ p1
    have w2 := work_le _ p2
    have e : (2 : Nat) ^ 256 = 2 ^ 255 + 2 ^ 255 := by norm_num
    have hlt : work (SetCompact hdr.nBits).1 + work (SetCompact (nearestPow E pprev).bits).1
        < 2 ^ 256 := by
      by_cases c : (SetCompact hdr.nBits).1 = 1
      · have c2 : 2 ≤ (SetCompact (nearestPow E pprev).bits).1 := by
          have : (SetCompact (nearestPow E pprev).bits).1 ≠ 1 := fun e => hne ⟨c, e⟩
          omega
        have := w2.2 c2
        omega
      · have := w1.2 (by omega)
        omega
    unfold wrap256
    rw [Nat.mod_eq_of_lt hlt]

/-- The forge-mined block at height 2 of the scenario chain before Forge 1.1:
its work is twice the work of the target `0x1e0ffff0`. -/
theorem forge_block_work_pre11_witness :
    legacyEnv.IsForgeMined ⟨1585891964, 0x1e0ffff0, 192⟩ = true ∧
    hasPowBlock legacyEnv powIndex1 = true ∧
    GetBlockProof legacyEnv mainParams (.entry 2 ⟨1585891964, 0x1e0ffff0, 192⟩ powIndex1 genesisIndex)
      = .ok (work (SetCompact 0x1e0ffff0).1 +
          work (SetCompact (nearestPow legacyEnv powIndex1).bits).1) :=
  ⟨by decide, by decide,
    ((forge_block_work_pre11 legacyEnv mainParams 2 ⟨1585891964, 0x1e0ffff0, 192⟩ powIndex1
      genesisIndex (by decide) (by decide) (by decide) (by decide)).2 (by decide) (by decide)).2
      (by decide)⟩

/-! ## DarkGravityWave -/

/-- A chain with a PoW block counted has a PoW block. -/
theorem hasPowBlock_of_count (E : Env) (b : PIndex) :
    1 ≤ powBlocksBehind E b → hasPowBlock E b = true := by
  induction b with
  | nullptr => intro h; simp [powBlocksBehind] at h
  | entry h hdr p s ihp _ =>
    intro hc
    by_cases hm : E.IsForgeMined hdr = true
    · simp only [powBlocksBehind, hm, if_true] at hc
      simp [hasPowBlock, hm, ihp hc]
    · simp [hasPowBlock, hm]

/-- Skipping forge-mined blocks does not change the number of PoW blocks. -/
theorem powBlocksBehind_nearest (E : Env) (b : PIndex) :
    powBlocksBehind E (nearestPow E b) = powBlocksBehind E b := by
  induction b with
  | nullptr => rfl
  | entry h hdr p s ihp _ =>
    by_cases hm : E.IsForgeMined hdr = true
    · simp only [nearestPow, hm, if_true, powBlocksBehind]
      exact ihp
    · simp only [nearestPow, hm, if_false, Bool.false_eq_true]

/-- The averaging loop of `DarkGravityWave` runs through when the chain holds
as many PoW blocks as it has iterations left. -/
theorem dgwAverage_ok (E : Env) (N : Nat) : ∀ (remaining n : Nat) (pindex : PIndex) (avg : Nat),
    n + remaining = N + 1 → remaining ≤ powBlocksBehind E pindex →
    ∃ r, dgwAverage E N remaining n pindex avg = .ok r := by
  intro remaining
  induction remaining with
  | zero => intro n pindex avg _ _; exact ⟨_, rfl⟩
  | succ k ih =>
    intro n pindex avg hn hc
    obtain ⟨hskip, h, hdr, p, s, hnear, hpow⟩ :=
      skipForgeMined_nearest E pindex (hasPowBlock_of_count E pindex (by omega))
    have hcount : powBlocksBehind E pindex = powBlocksBehind E p + 1 := by
      rw [← powBlocksBehind_nearest, hnear]
      simp [powBlocksBehind, hpow]
    rw [hnear] at hskip
    by_cases hlast : n = N
    · have hk : k = 0 := by omega
      subst hk
      simp only [dgwAverage, hskip, hlast, ne_eq, not_true_eq_false, if_false]
      exact ⟨_, rfl⟩
    · cases p with
      | nullptr =>
        simp only [powBlocksBehind] at hcount
        omega
      | entry h2 hdr2 p2 s2 =>
        simp only [dgwAverage, hskip, ne_eq, hlast, not_false_eq_true, if_true]
        exact ih (n + 1) _ _ (by omega) (by omega)

/-- Behind the skip of forge-mined blocks at the tip, a candidate more than
`30 * nPowTargetSpacing` later than the block held gets the pow-limit. -/
theorem dgwFromTip_stale (E : Env) (P : Params) (tip : PIndex) (blockTime : Int)
    (hs0 : 0 < P.nPowTargetSpacing) (hs1 : P.nPowTargetSpacing < 2 ^ 58)
    (hwalk : tip.height - P.lastScryptBlock < 24 ∨ 24 ≤ powBlocksBehind E tip)
    (hstale : blockTime > tip.time + P.nPowTargetSpacing * 30) :
    dgwFromTip E P tip blockTime = .ok (GetCompact P.powLimit) := by
  cases tip with
  | nullptr => rfl
  | entry h hdr p s =>
    unfold dgwFromTip
    simp only []
    by_cases hg : h - P.lastScryptBlock < 24
    · rw [if_pos hg]
    · rw [if_neg hg]
      have hc : 24 ≤ powBlocksBehind E (.entry h hdr p s) := by
        rcases hwalk with hw | hw
        · exact absurd hw hg
        · exact hw
      obtain ⟨r, hr⟩ := dgwAverage_ok E 24 24 1 (.entry h hdr p s) 0 (by norm_num) hc
      have hdiv : ¬ ((24 * P.nPowTargetSpacing % 2 ^ 64).toNat = 0) := by
        rw [Int.emod_eq_of_lt (by omega) (by norm_num at hs1 ⊢; omega)]
        omega
      have hst : blockTime > hdr.nTime + P.nPowTargetSpacing * 30 := hstale
      simp only [hr, Outcome.andThen, hdiv, if_false, staleTipTiers, hst, if_true, gt_iff_lt,
        lt_self_iff_false]


set_option maxRecDepth 100000 in
/-- C13 refuted: the forge-mined parent `lateForgeTip` has the time 955 and
the candidate the time 1260, more than `30 * 10` later, yet under Forge 1.1
`DarkGravityWave` measures from the PoW block of time 1000 behind the parent,
takes the tier of 25 spacings and returns `0x1d17657d`, not the compact
pow-limit `0x1e0fffff`. -/
theorem dgw_forge_parent_not_reset :
    forgeMined scenarioEnv lateForgeTip = true ∧ lateForgeTip.time = 955 ∧
    (1260 : Int) > lateForgeTip.time + 30 * mainParams.nPowTargetSpacing ∧
    (dgwTip scenarioEnv lateForgeTip).time = 1000 ∧
    GetCompact mainParams.powLimit = 0x1e0fffff ∧
    DarkGravityWave scenarioEnv mainParams lateForgeTip 1260 = .ok 0x1d17657d ∧
    DarkGravityWave scenarioEnv mainParams lateForgeTip 1260
      ≠ .ok (GetCompact mainParams.powLimit) := by
  decide

/-- C13 as amended: when the time of the candidate exceeds by more than
`30 * nPowTargetSpacing` the time of the block `DarkGravityWave` measures from
(under Forge 1.1 the nearest PoW block at or behind `prev`, otherwise `prev`;
so `prev` itself when it is a PoW block), and the walk back does not leave
the chain, `DarkGravityWave` returns the compact encoding of `powLimit`,
whatever the targets and times of the preceding blocks. -/
theorem dgw_stale_tip (E : Env) (P : Params) (prev : PIndex) (blockTime : Int)
    (hprev : prev ≠ .nullptr)
    (hs0 : 0 < P.nPowTargetSpacing) (hs1 : P.nPowTargetSpacing < 2 ^ 58)
    (hpow : E.IsForge11Enabled prev = true → hasPowBlock E prev = true)
    (hwalk : (dgwTip E prev).height - P.lastScryptBlock < 24 ∨
      24 ≤ powBlocksBehind E (dgwTip E prev))
    (hstale : blockTime > (dgwTip E prev).time + P.nPowTargetSpacing * 30) :
    DarkGravityWave E P prev blockTime = .ok (GetCompact P.powLimit) ∧
    (forgeMined E prev = false ∨ E.IsForge11Enabled prev = false → dgwTip E prev = prev) := by
  constructor
  · cases prev with
    | nullptr => exact absurd rfl hprev
    | entry h hdr p s =>
      unfold DarkGravityWave
      simp only []
      split_ifs with c1 c2
      · rfl
      · have e : dgwTip E (.entry h hdr p s) = nearestPow E (.entry h hdr p s) := by
          unfold dgwTip
          rw [if_pos c2]
        rw [e] at hwalk hstale
        rw [(skipForgeMined_nearest E _ (hpow c2)).1]
        exact dgwFromTip_stale E P _ blockTime hs0 hs1 hwalk hstale
      · have e : dgwTip E (.entry h hdr p s) = .entry h hdr p s := by
          unfold dgwTip
          rw [if_neg c2]
        rw [e] at hwalk hstale
        exact dgwFromTip_stale E P _ blockTime hs0 hs1 hwalk hstale
  · intro h
    unfold dgwTip
    split_ifs with c
    · rcases h with h | h
      · cases prev with
        | nullptr => rfl
        | entry h' hdr p s =>
          have hm : E.IsForgeMined hdr = false := h
          simp [nearestPow, hm]
      · rw [h] at c; cases c
    · rfl

/-- The scenario of the spec: spacing 10, a PoW parent of time 1000 with 24
PoW blocks behind it, a candidate of time 1310. -/
theorem dgw_stale_tip_witness :
    mainParams.nPowTargetSpacing = 10 ∧ powChain24.time = 1000 ∧
    dgwTip scenarioEnv powChain24 = powChain24 ∧
    DarkGravityWave scenarioEnv mainParams powChain24 1310 = .ok (GetCompact mainParams.powLimit) :=
  ⟨by decide, by decide, by decide,
    (dgw_stale_tip scenarioEnv mainParams powChain24 1310 (by decide) (by decide) (by decide)
      (fun _ => by decide) (Or.inr (by decide)) (by decide)).1⟩

set_option maxRecDepth 100000 in
/-- C14, failing input: on `earlyForgeChain` the parent is the PoW block at
height 24 and only 22 PoW blocks lie behind the genesis block (23 with it),
yet the guard on the height lets `DarkGravityWave` go on to average, and the
walk over 24 PoW blocks fails `assert(pindex->pprev)` at the genesis block. -/
theorem dgw_walk_leaves_chain :
    mainParams.lastScryptBlock = 0 ∧ earlyForgeChain.height = 24 ∧
    forgeMined scenarioEnv earlyForgeChain = false ∧
    powBlocksBehind scenarioEnv earlyForgeChain = 23 ∧
    dgwAverage scenarioEnv 24 24 1 earlyForgeChain 0 = .aborted ∧
    DarkGravityWave scenarioEnv mainParams earlyForgeChain 1010 = .aborted ∧
    DarkGravityWave legacyEnv mainParams earlyForgeChain 1010 = .aborted := by
  decide

/-! ## Dispatcher of the forge difficulty -/

set_option maxRecDepth 100000 in
/-- C15 refuted: with Forge 1.2 active and Forge 1.1 and 1.3 not,
`GetNextForgeWorkRequired` runs the 1.0 EMA, which returns 0 behind the
forge-mined `forgeIndex2`, where the 1.2 SMA returns `0x1e0ffff0`. -/
theorem dispatcher_skips_forge12 :
    forge12OnlyEnv.IsForge11Enabled forgeIndex2 = false ∧
    forge12OnlyEnv.IsForge12Enabled forgeIndex2 = true ∧
    forge12OnlyEnv.IsForge13Enabled 2 = false ∧
    forge12OnlyEnv.IsForge13EnabledAt forgeIndex2 = false ∧
    GetNextForge12WorkRequired forge12OnlyEnv shortParams forgeIndex2 = .ok 0x1e0ffff0 ∧
    forgeEMA forge12OnlyEnv shortParams forgeIndex2 = .ok 0 ∧
    GetNextForgeWorkRequired forge12OnlyEnv shortParams forgeIndex2 = .ok 0 ∧
    GetNextForgeWorkRequired forge12OnlyEnv shortParams forgeIndex2
      ≠ GetNextForge12WorkRequired forge12OnlyEnv shortParams forgeIndex2 := by
  decide

/-- C15 as amended: where the two forms of the test of Forge 1.3 agree,
`GetNextForgeWorkRequired` returns the result of the 1.3 engine if Forge 1.3
is active; otherwise, if Forge 1.1 is active, of the 1.2 SMA if Forge 1.2 is
active and of the 1.1 SMA if not; otherwise, Forge 1.1 not being active, of
the 1.0 EMA, whether or not Forge 1.2 is active. -/
theorem dispatcher_selects (E : Env) (P : Params) (nHeight : Int) (hdr : CBlockHeader)
    (pprev pskip : PIndex)
    (hagree : E.IsForge13EnabledAt (.entry nHeight hdr pprev pskip) = E.IsForge13Enabled nHeight) :
    (E.IsForge13Enabled nHeight = true →
      GetNextForgeWorkRequired E P (.entry nHeight hdr pprev pskip)
        = GetNextForge13WorkRequired E P (.entry nHeight hdr pprev pskip)) ∧
    (E.IsForge13Enabled nHeight = false →
      E.IsForge11Enabled (.entry nHeight hdr pprev pskip) = true →
      E.IsForge12Enabled (.entry nHeight hdr pprev pskip) = true →
      GetNextForgeWorkRequired E P (.entry nHeight hdr pprev pskip)
        = GetNextForge12WorkRequired E P (.entry nHeight hdr pprev pskip)) ∧
    (E.IsForge13Enabled nHeight = false →
      E.IsForge11Enabled (.entry nHeight hdr pprev pskip) = true →
      E.IsForge12Enabled (.entry nHeight hdr pprev pskip) = false →
      GetNextForgeWorkRequired E P (.entry nHeight hdr pprev pskip)
        = GetNextForge11WorkRequired E P (.entry nHeight hdr pprev pskip)) ∧
    (E.IsForge13Enabled nHeight = false →
      E.IsForge11Enabled (.entry nHeight hdr pprev pskip) = false →
      GetNextForgeWorkRequired E P (.entry nHeight hdr pprev pskip)
        = forgeEMA E P (.entry nHeight hdr pprev pskip)) := by
  refine ⟨fun h13 => ?_, fun h13 h11 h12 => ?_, fun h13 h11 h12 => ?_, fun h13 h11 => ?_⟩ <;>
    · rw [h13] at hagree
      simp [GetNextForgeWorkRequired, *]

/-- Under Forge 1.1 alone the dispatcher runs the 1.1 SMA behind `forgeIndex2`. -/
theorem dispatcher_selects_witness :
    scenarioEnv.IsForge13EnabledAt forgeIndex2 = scenarioEnv.IsForge13Enabled 2 ∧
    GetNextForgeWorkRequired scenarioEnv shortParams forgeIndex2
      = GetNextForge11WorkRequired scenarioEnv shortParams forgeIndex2 :=
  ⟨by decide,
    (dispatcher_selects scenarioEnv shortParams 2 ⟨1585891964, 0x1e0ffff0, 192⟩ powIndex1
      genesisIndex (by decide)).2.2.1 (by decide) (by decide) (by decide)⟩

/-! ## The SMA engines -/

/-- The walk of the SMA functions adds up the targets of `forgeTargets` as
long as the sum stays below `2^256`. -/
theorem smaWalk_eq (E : Env) (P : Params) : ∀ (b : PIndex) (w acc cnt : Nat),
    b ≠ .nullptr → acc + (forgeTargets E P w b).sum < 2 ^ 256 →
    smaWalk E P ((cnt + w : Nat) : Int) b acc cnt =
      .ok (acc + (forgeTargets E P w b).sum, ((cnt + (forgeTargets E P w b).length : Nat) : Int)) := by
  intro b
  induction b with
  | nullptr => intro w acc cnt h; exact absurd rfl h
  | entry h hdr p s ihp _ =>
    intro w acc cnt _ hsum
    cases p with
    | nullptr => simp [smaWalk, forgeTargets]
    | entry h2 hdr2 p2 s2 =>
      cases w with
      | zero => simp [smaWalk, forgeTargets]
      | succ v =>
        by_cases hmin : h < P.minForgeCheckBlock
        · have : ¬ (h ≥ P.minForgeCheckBlock) := by omega
          simp [smaWalk, forgeTargets, hmin, this]
        · have hge : h ≥ P.minForgeCheckBlock := by omega
          have hlt : ((cnt : Int)) < ((cnt + (v + 1) : Nat) : Int) := by push_cast; omega
          by_cases hm : E.IsForgeMined hdr = true
          · have hft : forgeTargets E P (v + 1) (.entry h hdr (.entry h2 hdr2 p2 s2) s) =
                (SetCompact hdr.nBits).1 :: forgeTargets E P v (.entry h2 hdr2 p2 s2) := by
              simp [forgeTargets, hmin, hm]
            rw [hft] at hsum ⊢
            simp only [List.sum_cons, List.length_cons] at hsum ⊢
            have hw : wrap256 (acc + (SetCompact hdr.nBits).1) = acc + (SetCompact hdr.nBits).1 :=
              Nat.mod_eq_of_lt (by omega)
            have e : ((cnt + (v + 1) : Nat) : Int) = (((cnt + 1) + v : Nat) : Int) := by
              push_cast; ring
            have ih := ihp v (acc + (SetCompact hdr.nBits).1) (cnt + 1) (by simp) (by omega)
            rw [smaWalk]
            simp only [hlt, hge, and_self, if_true, hm, hw]
            rw [e]
            have e2 : ((cnt : Int) + 1) = ((cnt + 1 : Nat) : Int) := by push_cast; ring
            rw [e2, ih]
            congr 2
            · ring
            · push_cast; ring
          · have hft : forgeTargets E P (v + 1) (.entry h hdr (.entry h2 hdr2 p2 s2) s) =
                forgeTargets E P (v + 1) (.entry h2 hdr2 p2 s2) := by
              simp [forgeTargets, hmin, hm]
            rw [hft] at hsum ⊢
            have ih := ihp (v + 1) acc cnt (by simp) hsum
            rw [smaWalk]
            simp only [hlt, hge, and_self, if_true, hm, Bool.false_eq_true, if_false]
            exact ih

/-- The number of targets found is at most the window. -/
theorem forgeTargets_length (E : Env) (P : Params) : ∀ (b : PIndex) (w : Nat),
    (forgeTargets E P w b).length ≤ w := by
  intro b
  induction b with
  | nullptr => intro w; simp [forgeTargets]
  | entry h hdr p s ihp _ =>
    intro w
    cases p with
    | nullptr => simp [forgeTargets]
    | entry h2 hdr2 p2 s2 =>
      cases w with
      | zero => simp [forgeTargets]
      | succ v =>
        by_cases hmin : h < P.minForgeCheckBlock
        · simp [forgeTargets, hmin]
        · by_cases hm : E.IsForgeMined hdr = true
          · have hft : forgeTargets E P (v + 1) (.entry h hdr (.entry h2 hdr2 p2 s2) s) =
                (SetCompact hdr.nBits).1 :: forgeTargets E P v (.entry h2 hdr2 p2 s2) := by
              simp [forgeTargets, hmin, hm]
            rw [hft, List.length_cons]
            have := ihp v
            omega
          · have hft : forgeTargets E P (v + 1) (.entry h hdr (.entry h2 hdr2 p2 s2) s) =
                forgeTargets E P (v + 1) (.entry h2 hdr2 p2 s2) := by
              simp [forgeTargets, hmin, hm]
            rw [hft]
            exact ihp (v + 1)

/-- Where the sum `S` of the `n` targets found stays below `2^256`, the SMA
functions return the compact encoding of `min(limit, floor(S / n))`, and of
the limit for `n = 0`. -/
theorem forgeSMA_exact (E : Env) (P : Params) (window : Int) (bnPowLimit : Nat) (b : PIndex)
    (hb : b ≠ .nullptr) (hw0 : 0 ≤ window) (hw1 : window < 2 ^ 31)
    (hsum : (forgeTargets E P window.toNat b).sum < 2 ^ 256) :
    forgeSMA E P window bnPowLimit b =
      .ok (if (forgeTargets E P window.toNat b).length = 0 then GetCompact bnPowLimit
        else GetCompact (min bnPowLimit
          ((forgeTargets E P window.toNat b).sum / (forgeTargets E P window.toNat b).length))) := by
  have hwalk := smaWalk_eq E P b window.toNat 0 0 hb (by simpa using hsum)
  have ew : ((0 + window.toNat : Nat) : Int) = window := by
    rw [Nat.zero_add]; exact Int.toNat_of_nonneg hw0
  rw [ew] at hwalk
  simp only [Nat.cast_zero, Nat.zero_add] at hwalk
  have hlen := forgeTargets_length E P b window.toNat
  set S := (forgeTargets E P window.toNat b).sum with hS
  set n := (forgeTargets E P window.toNat b).length with hn
  have hn31 : n < 2 ^ 31 := by omega
  unfold forgeSMA
  rw [hwalk]
  simp only [Outcome.andThen]
  by_cases h0 : n = 0
  · simp [h0]
  · have hnz : ¬ ((n : Int) = 0) := by exact_mod_cast h0
    have e64 : ((n : Int) % 2 ^ 64).toNat = n := by
      rw [Int.emod_eq_of_lt (by positivity) (by norm_num at hn31 ⊢; omega)]
      simp
    have e32 : (wrapU32 (n : Int)).toNat = n := by
      unfold wrapU32
      rw [Int.emod_eq_of_lt (by positivity) (by norm_num at hn31 ⊢; omega)]
      simp
    have hmul : wrap256 (S / n * n) = S / n * n :=
      Nat.mod_eq_of_lt (lt_of_le_of_lt (Nat.div_mul_le_self S n) hsum)
    have hdiv : S / n * n / n = S / n := Nat.mul_div_cancel _ (by omega)
    simp only [hnz, if_false, e64, e32, h0, hmul, hdiv]
    congr 1
    by_cases hc : S / n > bnPowLimit
    · rw [if_pos hc, min_eq_left (le_of_lt hc)]
    · rw [if_neg hc, min_eq_right (by omega)]

set_option maxRecDepth 1000000 in
/-- C16, failing input: behind `limitForgeChain` the walk of
`GetNextForge11WorkRequired` finds 17 forge-mined blocks of target
`2^252 - 2^232`, which is below the main-net `powLimitForge`; their sum
exceeds `2^256`, the average of the exact sum is the common target with the
compact encoding `0x200fffff`, and the function returns `0x2000f0ef`. -/
theorem forge11_sum_wraps :
    scenarioEnv.IsForge11Enabled limitForgeChain = true ∧
    forgeTargets scenarioEnv mainParams 36 limitForgeChain
      = List.replicate 17 (2 ^ 252 - 2 ^ 232) ∧
    (2 : Nat) ^ 252 - 2 ^ 232 ≤ mainParams.powLimitForge ∧
    2 ^ 256 ≤ (forgeTargets scenarioEnv mainParams 36 limitForgeChain).sum ∧
    GetCompact (min mainParams.powLimitForge
      ((forgeTargets scenarioEnv mainParams 36 limitForgeChain).sum / 17)) = 0x200fffff ∧
    GetNextForge11WorkRequired scenarioEnv mainParams limitForgeChain = .ok 0x2000f0ef ∧
    GetNextForgeWorkRequired scenarioEnv mainParams limitForgeChain = .ok 0x2000f0ef := by
  decide

/-! ## The EMA engine -/

set_option maxRecDepth 1000000 in
/-- The second clamp of the EMA compares with `powLimitForge2`.  With a forge
pow-limit of `2^236 - 1`, which is the value of no network, Forge 1.2 not
active, a forge-mined block of target `0x0ffff0 * 2^216` and three PoW blocks
on it, the EMA returns `0x1e10ffef`, the target `0x10ffef * 2^216` above that
limit. -/
theorem ema_second_clamp_limit :
    legacyEnv.IsForge12Enabled emaChain = false ∧
    lowForgeLimitParams.powLimitForge = 2 ^ 236 - 1 ∧
    windowForgeTargets legacyEnv 4 emaChain = [0x0ffff0 * 2 ^ 216] ∧
    (0x0ffff0 * 2 ^ 216 ≤ lowForgeLimitParams.powLimitForge) ∧
    forgeEMA legacyEnv lowForgeLimitParams emaChain = .ok 0x1e10ffef ∧
    GetNextForgeWorkRequired legacyEnv lowForgeLimitParams emaChain = .ok 0x1e10ffef ∧
    (SetCompact 0x1e10ffef).1 = 0x10ffef * 2 ^ 216 ∧
    lowForgeLimitParams.powLimitForge < (SetCompact 0x1e10ffef).1 := by
  decide

/-! ## The engine of Forge 1.3 -/

/-- The walk of `GetNextForge13WorkRequired` over an available window adds up
the targets of `windowForgeTargets` as long as the sum stays below `2^256`. -/
theorem windowWalk_eq (E : Env) (P : Params) : ∀ (n : Nat) (b : PIndex) (acc : Nat) (cnt : Nat),
    windowAvailable P n b = true → acc + (windowForgeTargets E n b).sum < 2 ^ 256 →
    windowWalk E P n b acc cnt =
      .ok (some (acc + (windowForgeTargets E n b).sum,
        ((cnt + (windowForgeTargets E n b).length : Nat) : Int))) := by
  intro n
  induction n with
  | zero => intro b acc cnt _ _; simp [windowWalk, windowForgeTargets]
  | succ k ih =>
    intro b acc cnt hav hsum
    cases b with
    | nullptr => simp [windowAvailable] at hav
    | entry h hdr p s =>
      cases p with
      | nullptr => simp [windowAvailable] at hav
      | entry h2 hdr2 p2 s2 =>
        simp only [windowAvailable, Bool.and_eq_true, decide_eq_true_eq] at hav
        have hmin : ¬ (h < P.minForgeCheckBlock) := by omega
        by_cases hm : E.IsForgeMined hdr = true
        · simp only [windowForgeTargets, hm, if_true, List.sum_cons, List.length_cons] at hsum ⊢
          have hw : wrap256 (acc + (SetCompact hdr.nBits).1) = acc + (SetCompact hdr.nBits).1 :=
            Nat.mod_eq_of_lt (by omega)
          have := ih (.entry h2 hdr2 p2 s2) (acc + (SetCompact hdr.nBits).1) (cnt + 1) hav.2
            (by omega)
          rw [windowWalk]
          simp only [hmin, if_false, hm, if_true, hw]
          have e2 : ((cnt : Int) + 1) = ((cnt + 1 : Nat) : Int) := by push_cast; ring
          rw [e2, this]
          congr 3
          · ring
          · push_cast; ring
        · simp only [windowForgeTargets, hm, if_false, Bool.false_eq_true] at hsum ⊢
          have := ih (.entry h2 hdr2 p2 s2) acc cnt hav.2 hsum
          rw [windowWalk]
          simp only [hmin, if_false, hm, Bool.false_eq_true]
          exact this

/-- The number of forge-mined blocks in a window is at most its length. -/
theorem windowForgeTargets_length (E : Env) : ∀ (n : Nat) (b : PIndex),
    (windowForgeTargets E n b).length ≤ n := by
  intro n
  induction n with
  | zero => intro b; simp [windowForgeTargets]
  | succ k ih =>
    intro b
    cases b with
    | nullptr => simp [windowForgeTargets]
    | entry h hdr p s =>
      simp only [windowForgeTargets]
      split_ifs
      · have := ih p
        simp only [List.length_cons]
        omega
      · have := ih p
        omega

/-- Where the window is available and neither the sum `S` of the `F` targets
nor the product `floor(S / F) * targetBlockCount` reaches `2^256`,
`GetNextForge13WorkRequired` returns the compact encoding of
`min(powLimitForge2, floor(floor(S / F) * targetBlockCount / F))`. -/
theorem forge13_exact (E : Env) (P : Params) (b : PIndex)
    (hw0 : 0 ≤ P.forgeDifficultyWindow2) (hw1 : P.forgeDifficultyWindow2 < 2 ^ 31)
    (hs : 0 < P.forgeBlockSpacingTarget)
    (hav : windowAvailable P P.forgeDifficultyWindow2.toNat b = true)
    (hF : 1 ≤ (windowForgeTargets E P.forgeDifficultyWindow2.toNat b).length)
    (hsum : (windowForgeTargets E P.forgeDifficultyWindow2.toNat b).sum < 2 ^ 256)
    (hprod : (windowForgeTargets E P.forgeDifficultyWindow2.toNat b).sum /
        (windowForgeTargets E P.forgeDifficultyWindow2.toNat b).length *
        (Int.tdiv P.forgeDifficultyWindow2 P.forgeBlockSpacingTarget).toNat < 2 ^ 256) :
    GetNextForge13WorkRequired E P b =
      .ok (GetCompact (min P.powLimitForge2
        ((windowForgeTargets E P.forgeDifficultyWindow2.toNat b).sum /
          (windowForgeTargets E P.forgeDifficultyWindow2.toNat b).length *
          (Int.tdiv P.forgeDifficultyWindow2 P.forgeBlockSpacingTarget).toNat /
          (windowForgeTargets E P.forgeDifficultyWindow2.toNat b).length))) := by
  have hwalk := windowWalk_eq E P P.forgeDifficultyWindow2.toNat b 0 0 hav (by simpa using hsum)
  simp only [Nat.cast_zero, Nat.zero_add] at hwalk
  have hlen := windowForgeTargets_length E P.forgeDifficultyWindow2.toNat b
  set S := (windowForgeTargets E P.forgeDifficultyWindow2.toNat b).sum with hS
  set n := (windowForgeTargets E P.forgeDifficultyWindow2.toNat b).length with hn
  have hn31 : n < 2 ^ 31 := by omega
  have ht0 : 0 ≤ Int.tdiv P.forgeDifficultyWindow2 P.forgeBlockSpacingTarget := by
    rw [Int.tdiv_eq_ediv hw0 (le_of_lt hs)]
    exact Int.ediv_nonneg hw0 (le_of_lt hs)
  have ht1 : Int.tdiv P.forgeDifficultyWindow2 P.forgeBlockSpacingTarget < 2 ^ 31 := by
    rw [Int.tdiv_eq_ediv hw0 (le_of_lt hs)]
    exact lt_of_le_of_lt (Int.ediv_le_self _ hw0) hw1
  set t := Int.tdiv P.forgeDifficultyWindow2 P.forgeBlockSpacingTarget with ht
  have hsz : ¬ (P.forgeBlockSpacingTarget = 0) := by omega
  have hnz : ¬ ((n : Int) = 0) := by
    have : n ≠ 0 := by omega
    exact_mod_cast this
  have e64 : ((n : Int) % 2 ^ 64).toNat = n := by
    rw [Int.emod_eq_of_lt (by positivity) (by norm_num at hn31 ⊢; omega)]
    simp
  have e32 : (wrapU32 t).toNat = t.toNat := by
    unfold wrapU32
    rw [Int.emod_eq_of_lt ht0 (by norm_num at ht1 ⊢; omega)]
  have hmul : wrap256 (S / n * t.toNat) = S / n * t.toNat := Nat.mod_eq_of_lt hprod
  have hn0 : ¬ (n = 0) := by omega
  unfold GetNextForge13WorkRequired
  simp only [hsz, if_false, hwalk, Outcome.andThen, hnz, e64, ← ht, e32, hmul, hn0]
  congr 2
  by_cases hc : S / n * t.toNat / n > P.powLimitForge2
  · rw [if_pos hc, min_eq_left (le_of_lt hc)]
  · rw [if_neg hc, min_eq_right (by omega)]

set_option maxRecDepth 1000000 in
/-- C18, failing input: behind `sparseForgeChain` the 24 blocks of the window
are available and one of them is forge-mined, with the target `2^253`; with
`targetBlockCount = 12` the claimed value is the compact encoding
`0x2100ffff` of `powLimitForge2`, and `GetNextForge13WorkRequired` returns
`0x21008000`, the target `2^255` left of `12 * 2^253` modulo `2^256`. -/
theorem forge13_product_wraps :
    windowAvailable mainParams 24 sparseForgeChain = true ∧
    windowForgeTargets scenarioEnv 24 sparseForgeChain = [2 ^ 253] ∧
    Int.tdiv mainParams.forgeDifficultyWindow2 mainParams.forgeBlockSpacingTarget = 12 ∧
    GetCompact (min mainParams.powLimitForge2 (2 ^ 253 / 1 * 12 / 1)) = 0x2100ffff ∧
    GetNextForge13WorkRequired scenarioEnv mainParams sparseForgeChain = .ok 0x21008000 ∧
    (SetCompact 0x21008000).1 = 2 ^ 255 := by
  decide

/-! ## Donation test -/

/-- C19 refuted: with the main-net factor 10, a hammer fee of 91 and a
donation of 10 pass the donation test of both functions, since
`(91 + 10) / 10 = 10`, although `10 * (10 - 1) = 90` is not 91. -/
theorem donation_not_exact :
    mainParams.communityContribFactor = 10 ∧
    Int.tdiv (91 + 10) mainParams.communityContribFactor = 10 ∧
    DonationCheck mainParams 91 10 = .ok 101 ∧
    forgeInfoFeePaid mainParams 91 10 = .ok (some 101) ∧
    (10 : Int) * (mainParams.communityContribFactor - 1) ≠ 91 := by
  decide

/-- The donation test in integers: a donation is the quotient of the total by
the factor exactly when the fee lies in a window of `factor` values. -/
theorem tdiv_donation_iff (fee d c : Int) (hfee : 0 ≤ fee) (hd : 0 ≤ d) (hc : 2 ≤ c) :
    d = Int.tdiv (fee + d) c ↔ d * (c - 1) ≤ fee ∧ fee ≤ d * (c - 1) + (c - 1) := by
  rw [Int.tdiv_eq_ediv (by omega) (by omega)]
  have hcpos : 0 < c := by omega
  constructor
  · intro h
    have h1 := Int.ediv_mul_le (fee + d) (ne_of_gt hcpos)
    have h2 := Int.lt_ediv_add_one_mul_self (fee + d) hcpos
    rw [← h] at h1 h2
    constructor <;> nlinarith
  · rintro ⟨h1, h2⟩
    have h3 : d ≤ (fee + d) / c := (Int.le_ediv_iff_mul_le hcpos).2 (by nlinarith)
    have h4 : (fee + d) / c < d + 1 := (Int.ediv_lt_iff_lt_mul hcpos).2 (by nlinarith)
    omega

/-- C19 as amended: for non-negative amounts whose sum is an `int64_t` and a
factor of at least 2, the donation test of `CheckForgeProof` and of
`GetNetworkForgeInfo` passes exactly when
`donation * (factor - 1) <= hammerFee <= donation * (factor - 1) + (factor - 1)`;
in particular it passes when `donation * (factor - 1) = hammerFee`. -/
theorem donation_test_window (P : Params) (hammerFee donation : Int)
    (hfee : 0 ≤ hammerFee) (hdon : 0 ≤ donation) (hc : 2 ≤ P.communityContribFactor)
    (hsum : hammerFee + donation < 2 ^ 63) :
    (DonationCheck P hammerFee donation = .ok (hammerFee + donation) ↔
      donation * (P.communityContribFactor - 1) ≤ hammerFee ∧
      hammerFee ≤ donation * (P.communityContribFactor - 1) + (P.communityContribFactor - 1)) ∧
    (DonationCheck P hammerFee donation = .rejected ↔
      ¬ (donation * (P.communityContribFactor - 1) ≤ hammerFee ∧
      hammerFee ≤ donation * (P.communityContribFactor - 1) + (P.communityContribFactor - 1))) ∧
    (forgeInfoFeePaid P hammerFee donation = .ok (some (hammerFee + donation)) ↔
      donation * (P.communityContribFactor - 1) ≤ hammerFee ∧
      hammerFee ≤ donation * (P.communityContribFactor - 1) + (P.communityContribFactor - 1)) ∧
    (forgeInfoFeePaid P hammerFee donation = .ok none ↔
      ¬ (donation * (P.communityContribFactor - 1) ≤ hammerFee ∧
      hammerFee ≤ donation * (P.communityContribFactor - 1) + (P.communityContribFactor - 1))) ∧
    (donation * (P.communityContribFactor - 1) = hammerFee →
      DonationCheck P hammerFee donation = .ok (hammerFee + donation) ∧
      forgeInfoFeePaid P hammerFee donation = .ok (some (hammerFee + donation))) := by
  have key := tdiv_donation_iff hammerFee donation P.communityContribFactor hfee hdon hc
  have hr : ¬ (hammerFee + donation < -2 ^ 63 ∨ 2 ^ 63 ≤ hammerFee + donation) := by
    have : (0 : Int) < 2 ^ 63 := by norm_num
    omega
  have hz : P.communityContribFactor ≠ 0 := by omega
  have hD : ∀ o : Outcome Int, DonationCheck P hammerFee donation = o ↔
      (if donation ≠ Int.tdiv (hammerFee + donation) P.communityContribFactor then .rejected
       else .ok (hammerFee + donation)) = o := by
    intro o
    unfold DonationCheck
    rw [if_neg hr, if_neg hz]
  have hF : ∀ o : Outcome (Option Int), forgeInfoFeePaid P hammerFee donation = o ↔
      (if donation ≠ Int.tdiv (hammerFee + donation) P.communityContribFactor then .ok none
       else .ok (some (hammerFee + donation))) = o := by
    intro o
    unfold forgeInfoFeePaid
    rw [if_neg hr, if_neg hz]
  by_cases hw : donation = Int.tdiv (hammerFee + donation) P.communityContribFactor
  · have hw2 := key.1 hw
    have e1 := (hD (.ok (hammerFee + donation))).2 (if_neg (not_not.2 hw))
    have e2 := (hF (.ok (some (hammerFee + donation)))).2 (if_neg (not_not.2 hw))
    refine ⟨⟨fun _ => hw2, fun _ => e1⟩, ⟨fun h => ?_, fun h => absurd hw2 h⟩,
      ⟨fun _ => hw2, fun _ => e2⟩, ⟨fun h => ?_, fun h => absurd hw2 h⟩, fun _ => ⟨e1, e2⟩⟩
    · rw [e1] at h; cases h
    · rw [e2] at h; cases h
  · have hw2 : ¬ (donation * (P.communityContribFactor - 1) ≤ hammerFee ∧
        hammerFee ≤ donation * (P.communityContribFactor - 1) + (P.communityContribFactor - 1)) :=
      fun h => hw (key.2 h)
    have e1 := (hD .rejected).2 (if_pos hw)
    have e2 := (hF (.ok none)).2 (if_pos hw)
    refine ⟨⟨fun h => ?_, fun h => absurd h hw2⟩, ⟨fun _ => hw2, fun _ => e1⟩,
      ⟨fun h => ?_, fun h => absurd h hw2⟩, ⟨fun _ => hw2, fun _ => e2⟩, fun h => ?_⟩
    · rw [e1] at h; cases h
    · rw [e2] at h; cases h
    · exact absurd ⟨le_of_eq h, by rw [h]; omega⟩ hw2

/-- The window at the main-net factor 10: a fee of 99 with a donation of 10
passes both tests. -/
theorem donation_test_window_witness :
    DonationCheck mainParams 99 10 = .ok (99 + 10) ∧
    forgeInfoFeePaid mainParams 99 10 = .ok (some (99 + 10)) :=
  ⟨(donation_test_window mainParams 99 10 (by decide) (by decide) (by decide) (by decide)).1.2
      (by decide),
   (donation_test_window mainParams 99 10 (by decide) (by decide) (by decide) (by decide)).2.2.1.2
      (by decide)⟩

/-! ## Skip heights -/

/-- C20: `InvertLowestOne n` is `n & (n - 1)`; for `n >= 2`,
`InvertLowestOne (InvertLowestOne (n - 1)) + 1 <= n`; for a height `n >= 1`,
`GetSkipHeight n` is non-negative and below `n`; and `GetSkipHeight n = 0` for
`n < 2`. -/
theorem skip_height_lower (n : Int) :
    InvertLowestOne n = Int.land n (n - 1) ∧
    (2 ≤ n → InvertLowestOne (InvertLowestOne (n - 1)) + 1 ≤ n) ∧
    (1 ≤ n → 0 ≤ GetSkipHeight n ∧ GetSkipHeight n < n) ∧
    (n < 2 → GetSkipHeight n = 0) := by
  refine ⟨rfl, fun h2 => ?_, fun h1 => getSkipHeight_bounds n h1, fun h => ?_⟩
  · have a := invertLowestOne_bounds (n - 1) (by omega)
    have b := invertLowestOne_bounds (InvertLowestOne (n - 1)) a.1
    omega
  · unfold GetSkipHeight
    rw [if_pos h]

/-- The bounds at the heights 6 and 1. -/
theorem skip_height_lower_witness :
    InvertLowestOne (InvertLowestOne (6 - 1)) + 1 ≤ 6 ∧
    (0 ≤ GetSkipHeight 6 ∧ GetSkipHeight 6 < 6) ∧ GetSkipHeight 1 = 0 :=
  ⟨(skip_height_lower 6).2.1 (by decide), (skip_height_lower 6).2.2.1 (by decide),
    (skip_height_lower 1).2.2.2 (by decide)⟩

/-! ## Miner and validator -/

/-- The count of forge-mined blocks at the tip is the same loop in the miner
and in the validator. -/
theorem minerForgeBlocksAtTip_eq (E : Env) : ∀ (b : PIndex) (n : Int),
    minerForgeBlocksAtTip E b n = forgeBlocksAtTip E b n := by
  intro b
  induction b with
  | nullptr => intro n; rfl
  | entry h hdr p s ihp _ =>
    intro n
    cases p with
    | nullptr => simp [minerForgeBlocksAtTip, forgeBlocksAtTip]
    | entry h2 hdr2 p2 s2 =>
      rw [minerForgeBlocksAtTip, forgeBlocksAtTip]
      split_ifs
      · exact ihp (n + 1)
      · rfl

/-- C27: for every tip the interleaving pre-check of `BusyHammers` has the
result of the interleaving step of `CheckForgeProof` for a block on that tip,
so the miner skips the search if and only if the validator would reject, and
goes on if and only if the validator would pass the step. -/
theorem miner_check_matches_validator (E : Env) (P : Params) (tip : PIndex) :
    MinerInterleavingCheck E P tip = InterleavingStep E P tip ∧
    (MinerInterleavingCheck E P tip = .rejected ↔ InterleavingStep E P tip = .rejected) ∧
    (MinerInterleavingCheck E P tip = .ok () ↔ InterleavingStep E P tip = .ok ()) := by
  have h : MinerInterleavingCheck E P tip = InterleavingStep E P tip := by
    unfold MinerInterleavingCheck InterleavingStep
    split_ifs
    · rw [minerForgeBlocksAtTip_eq]
    · cases tip with
      | nullptr => rfl
      | entry h hdr p s =>
        simp only [isForgeMinedAt, Outcome.andThen]
  exact ⟨h, by rw [h], by rw [h]⟩

/-! ## Forge 1.0 behind a forge-mined block -/

/-- C28: in the Forge 1.0 branch, for a forge-mined `prev` with a parent and
a height of at least `minForgeCheckBlock`, the compact target returned is 0
and decodes to the target 0, so the hash test of `CheckForgeProof` rejects
whatever the hammer hash is; the dispatcher takes this branch when neither
Forge 1.1 nor Forge 1.3 is active. -/
theorem ema_zero_after_forge_block (E : Env) (P : Params) (nHeight : Int) (hdr : CBlockHeader)
    (h2 : Int) (hdr2 : CBlockHeader) (p2 s2 pskip : PIndex)
    (hforge : E.IsForgeMined hdr = true) (hmin : P.minForgeCheckBlock ≤ nHeight) :
    forgeEMA E P (.entry nHeight hdr (.entry h2 hdr2 p2 s2) pskip) = .ok 0 ∧
    (SetCompact 0).1 = 0 ∧
    (∀ (G : PIndex → Nat) (pr : ForgeProof),
      forgeEMA E P (.entry nHeight hdr (.entry h2 hdr2 p2 s2) pskip)
        = .ok (G (.entry nHeight hdr (.entry h2 hdr2 p2 s2) pskip)) →
      HashTargetStep E G (.entry nHeight hdr (.entry h2 hdr2 p2 s2) pskip) pr = .rejected) ∧
    (E.IsForge11Enabled (.entry nHeight hdr (.entry h2 hdr2 p2 s2) pskip) = false →
      E.IsForge13Enabled nHeight = false →
      GetNextForgeWorkRequired E P (.entry nHeight hdr (.entry h2 hdr2 p2 s2) pskip) = .ok 0) := by
  have hlt : ¬ (nHeight < P.minForgeCheckBlock) := by omega
  have hc : GetCompact 0 = 0 := by decide
  have he : forgeEMA E P (.entry nHeight hdr (.entry h2 hdr2 p2 s2) pskip) = .ok 0 := by
    simp only [forgeEMA, emaWalk, hlt, if_false, hforge, if_true, Outcome.andThen, hc]
  refine ⟨he, by decide, fun G pr hG => ?_, fun h11 h13 => ?_⟩
  · rw [he] at hG
    have hG0 : G (.entry nHeight hdr (.entry h2 hdr2 p2 s2) pskip) = 0 := (Outcome.ok.inj hG).symm
    have h0 : (SetCompact 0).1 = 0 := by decide
    simp only [HashTargetStep, hG0, h0, ge_iff_le, Nat.zero_le, if_true]
  · simp only [GetNextForgeWorkRequired, h11, h13, Bool.false_eq_true, false_and, if_false]
    exact he

/-- The forge-mined block at height 2 of the scenario chain before Forge 1.1. -/
theorem ema_zero_after_forge_block_witness :
    forgeEMA legacyEnv shortParams forgeIndex2 = .ok 0 ∧
    GetNextForgeWorkRequired legacyEnv shortParams forgeIndex2 = .ok 0 :=
  ⟨(ema_zero_after_forge_block legacyEnv shortParams 2 ⟨1585891964, 0x1e0ffff0, 192⟩ 1
      ⟨1585891954, 0x1e0ffff0, 1⟩ genesisIndex genesisIndex genesisIndex (by decide) (by decide)).1,
   (ema_zero_after_forge_block legacyEnv shortParams 2 ⟨1585891964, 0x1e0ffff0, 192⟩ 1
      ⟨1585891954, 0x1e0ffff0, 1⟩ genesisIndex genesisIndex genesisIndex (by decide)
      (by decide)).2.2.2 (by decide) (by decide)⟩

/-! ## PoW bonus under Forge 1.1 and 1.2 -/

/-- The scan for the last forge-mined block reads the environment through
`IsForgeMined` and `GetDifficulty` only. -/
theorem findLastForge_congr (E1 E2 : Env) (hm : E1.IsForgeMined = E2.IsForgeMined)
    (hd : E1.GetDifficulty = E2.GetDifficulty) (n : Nat) : ∀ (b : PIndex) (d : Int),
    findLastForge E1 n b d = findLastForge E2 n b d := by
  induction n with
  | zero => intro b d; rfl
  | succ k ih =>
    intro b d
    cases b with
    | nullptr => rfl
    | entry h hdr p s =>
      cases p with
      | nullptr => simp [findLastForge, hm, hd]
      | entry h2 hdr2 p2 s2 =>
        rw [findLastForge, findLastForge, hm, hd]
        split_ifs
        · rfl
        · exact ih _ _

/-- The work of a PoW block, branch by branch: nothing for a compact target
that is not valid; otherwise the base work, scaled by the Forge 1.1 branch
when 1.1 is active and 1.2 is not, and by the Forge 1.2 branch when 1.2 is
active. -/
theorem getBlockProof_pow_branches (E : Env) (P : Params) (nHeight : Int) (hdr : CBlockHeader)
    (pprev pskip : PIndex) (hpow : E.IsForgeMined hdr = false) :
    GetBlockProof E P (.entry nHeight hdr pprev pskip) =
      if validCompact hdr.nBits = true then
        (if E.IsForge11Enabled (.entry nHeight hdr pprev pskip) = true ∧
            E.IsForge12Enabled (.entry nHeight hdr pprev pskip) = false then
          (findLastForge E P.maxKPow.toNat pprev 0).andThen fun r =>
            .ok (wrap256 (baseWork hdr.nBits * powBonusK P r.1 r.2))
        else if E.IsForge12Enabled (.entry nHeight hdr pprev pskip) = true then
          (findLastForge12 E P.maxKPow.toNat pprev 0).andThen fun r =>
            .ok (wrap256 (baseWork hdr.nBits * powBonusK12 P r.1 r.2))
        else .ok (baseWork hdr.nBits))
      else .ok 0 := by
  by_cases hv : (SetCompact hdr.nBits).2.1 = true ∨ (SetCompact hdr.nBits).2.2 = true ∨
      (SetCompact hdr.nBits).1 = 0
  · have hvc : validCompact hdr.nBits = false := by
      unfold validCompact
      rcases hv with h | h | h <;> simp [h]
    simp only [GetBlockProof, hv, if_true, hvc, Bool.false_eq_true, if_false]
  · have hneg : (SetCompact hdr.nBits).2.1 = false := by
      cases h : (SetCompact hdr.nBits).2.1
      · rfl
      · exact absurd (Or.inl h) hv
    have hov : (SetCompact hdr.nBits).2.2 = false := by
      cases h : (SetCompact hdr.nBits).2.2
      · rfl
      · exact absurd (Or.inr (Or.inl h)) hv
    have hnz : (SetCompact hdr.nBits).1 ≠ 0 := fun h => hv (Or.inr (Or.inr h))
    obtain ⟨_, hw⟩ := baseWork_valid hdr.nBits hneg hov hnz
    have hvc : validCompact hdr.nBits = true := by
      simp [validCompact, hneg, hov, hnz]
    simp only [GetBlockProof, hneg, hov, hnz, hw, hpow, Outcome.andThen, hvc,
      Bool.false_eq_true, false_or, if_false, if_true, powBonus, powBonus12,
      Bool.not_eq_true]

/-- C21: for a PoW block and the chain behind it, `GetBlockProof` under an
activation with Forge 1.2 active returns what it returns under an activation
with Forge 1.1 active and 1.2 not (the header test and the difficulties being
the same).  Under the first it is the base work times the factor `powBonusK12`
of the block count and difficulty found by the scan `findLastForge12` (lines
233-261), under the second the base work times the factor `powBonusK` of what
the scan `findLastForge` finds (lines 192-231); the two scans find the same,
the two factors are equal, and for `0 <= maxKPow < 2^31` and a count `d` of at
most `maxKPow` both are the factor of the spec: `maxKPow - d`, halved below
`powSplit1`, halved again below `powSplit2`, raised to 1. -/
theorem pow_bonus_same_under_12 (E1 E2 : Env) (P : Params) (nHeight : Int) (hdr : CBlockHeader)
    (pprev pskip : PIndex)
    (hm : E1.IsForgeMined = E2.IsForgeMined) (hd : E1.GetDifficulty = E2.GetDifficulty)
    (hpow : E1.IsForgeMined hdr = false)
    (h11 : E1.IsForge11Enabled (.entry nHeight hdr pprev pskip) = true)
    (h12 : E1.IsForge12Enabled (.entry nHeight hdr pprev pskip) = false)
    (h12' : E2.IsForge12Enabled (.entry nHeight hdr pprev pskip) = true) :
    GetBlockProof E2 P (.entry nHeight hdr pprev pskip)
      = GetBlockProof E1 P (.entry nHeight hdr pprev pskip) ∧
    GetBlockProof E1 P (.entry nHeight hdr pprev pskip) =
      (if validCompact hdr.nBits = true then
        (findLastForge E1 P.maxKPow.toNat pprev 0).andThen fun r =>
          .ok (wrap256 (baseWork hdr.nBits * powBonusK P r.1 r.2))
       else .ok 0) ∧
    GetBlockProof E2 P (.entry nHeight hdr pprev pskip) =
      (if validCompact hdr.nBits = true then
        (findLastForge12 E2 P.maxKPow.toNat pprev 0).andThen fun r =>
          .ok (wrap256 (baseWork hdr.nBits * powBonusK12 P r.1 r.2))
       else .ok 0) ∧
    findLastForge12 E2 P.maxKPow.toNat pprev 0 = findLastForge E1 P.maxKPow.toNat pprev 0 ∧
    (∀ (d : Int) (q : ℚ), powBonusK12 P d q = powBonusK P d q) ∧
    (∀ (d : Nat) (q : ℚ), 0 ≤ P.maxKPow → P.maxKPow < 2 ^ 31 → d ≤ P.maxKPow.toNat →
      powBonusK12 P d q = bonusFactor P d q ∧ powBonusK P d q = bonusFactor P d q) := by
  have hpow2 : E2.IsForgeMined hdr = false := by rw [← hm]; exact hpow
  have hscan : findLastForge12 E2 P.maxKPow.toNat pprev 0
      = findLastForge E1 P.maxKPow.toNat pprev 0 := by
    rw [findLastForge12_eq, findLastForge_congr E1 E2 hm hd]
  have g1 : GetBlockProof E1 P (.entry nHeight hdr pprev pskip) =
      (if validCompact hdr.nBits = true then
        (findLastForge E1 P.maxKPow.toNat pprev 0).andThen fun r =>
          .ok (wrap256 (baseWork hdr.nBits * powBonusK P r.1 r.2))
       else .ok 0) := by
    rw [getBlockProof_pow_branches E1 P nHeight hdr pprev pskip hpow]
    simp only [h11, h12, and_self, if_true]
  have g2 : GetBlockProof E2 P (.entry nHeight hdr pprev pskip) =
      (if validCompact hdr.nBits = true then
        (findLastForge12 E2 P.maxKPow.toNat pprev 0).andThen fun r =>
          .ok (wrap256 (baseWork hdr.nBits * powBonusK12 P r.1 r.2))
       else .ok 0) := by
    rw [getBlockProof_pow_branches E2 P nHeight hdr pprev pskip hpow2]
    simp only [h12', Bool.true_eq_false, and_false, if_false, if_true]
  refine ⟨?_, g1, g2, hscan, powBonusK12_eq P, ?_⟩
  · rw [g1, g2, hscan]
    simp only [powBonusK12_eq]
  · intro d q h0 h1 hd
    rw [powBonusK12_eq]
    exact ⟨powBonusK_eq P d q h0 h1 hd, powBonusK_eq P d q h0 h1 hd⟩

/-- The PoW block at height 3 of the scenario chain under Forge 1.1 alone and
under Forge 1.2: behind a forge-mined parent of difficulty 0.01 the factor is
`maxKPow = 5` under both. -/
theorem pow_bonus_same_under_12_witness :
    scenarioEnv.IsForge12Enabled powIndex3 = false ∧ forge12Env.IsForge12Enabled powIndex3 = true ∧
    GetBlockProof forge12Env mainParams powIndex3 = GetBlockProof scenarioEnv mainParams powIndex3 ∧
    findLastForge12 forge12Env mainParams.maxKPow.toNat forgeIndex2 0
      = findLastForge scenarioEnv mainParams.maxKPow.toNat forgeIndex2 0 :=
  ⟨by decide, by decide,
    (pow_bonus_same_under_12 scenarioEnv forge12Env mainParams 3 ⟨1585891974, 0x1e0ffff0, 7⟩
      forgeIndex2 powIndex1 rfl rfl (by decide) (by decide) (by decide) (by decide)).1,
    (pow_bonus_same_under_12 scenarioEnv forge12Env mainParams 3 ⟨1585891974, 0x1e0ffff0, 7⟩
      forgeIndex2 powIndex1 rfl rfl (by decide) (by decide) (by decide) (by decide)).2.2.2.1⟩

/-- Where none of the `n` blocks from `b` on is forge-mined, the scan steps
over all of them. -/
theorem blocksSinceForge_none (E : Env) (n : Nat) : ∀ b : PIndex,
    lastForgeWithin E n b = none → nthPrev n b ≠ .nullptr → blocksSinceForge E n b = n := by
  induction n with
  | zero => intro b _ _; rfl
  | succ k ih =>
    intro b hnone hb
    cases b with
    | nullptr => simp [nthPrev] at hb
    | entry h hdr p s =>
      by_cases hm : E.IsForgeMined hdr = true
      · simp [lastForgeWithin, hm] at hnone
      · simp only [lastForgeWithin, hm, Bool.false_eq_true, if_false] at hnone
        simp only [nthPrev] at hb
        simp only [blocksSinceForge, hm, Bool.false_eq_true, if_false, ih p hnone hb]

/-- C29: for a PoW block with Forge 1.1 or 1.2 active, `1 <= maxKPow` (an
`int`) and a scan that stays on the chain, `GetBlockProof` is the base work
times a factor `k` with `1 <= k <= maxKPow`; and when none of the `maxKPow`
blocks from the parent on is forge-mined, `k = 1` and, the compact target
being valid, `GetBlockProof` is the plain work `floor(2^256 / (target + 1))`. -/
theorem pow_bonus_factor_range (E : Env) (P : Params) (nHeight : Int) (hdr : CBlockHeader)
    (pprev pskip : PIndex)
    (hpow : E.IsForgeMined hdr = false)
    (hact : E.IsForge11Enabled (.entry nHeight hdr pprev pskip) = true ∨
      E.IsForge12Enabled (.entry nHeight hdr pprev pskip) = true)
    (hK0 : 1 ≤ P.maxKPow) (hK1 : P.maxKPow < 2 ^ 31)
    (hscan : lastForgeWithin E P.maxKPow.toNat pprev ≠ none ∨
      nthPrev P.maxKPow.toNat pprev ≠ .nullptr) :
    (∃ k : Nat, 1 ≤ k ∧ (k : Int) ≤ P.maxKPow ∧
      findLastForge E P.maxKPow.toNat pprev 0 =
        .ok ((blocksSinceForge E P.maxKPow.toNat pprev : Int),
          lastForgeDifficulty E P.maxKPow.toNat pprev) ∧
      powBonusK P (blocksSinceForge E P.maxKPow.toNat pprev)
        (lastForgeDifficulty E P.maxKPow.toNat pprev) = k ∧
      GetBlockProof E P (.entry nHeight hdr pprev pskip)
        = .ok (wrap256 (baseWork hdr.nBits * k))) ∧
    (lastForgeWithin E P.maxKPow.toNat pprev = none →
      powBonusK P (blocksSinceForge E P.maxKPow.toNat pprev)
        (lastForgeDifficulty E P.maxKPow.toNat pprev) = 1 ∧
      (validCompact hdr.nBits = true →
        GetBlockProof E P (.entry nHeight hdr pprev pskip)
          = .ok (2 ^ 256 / ((SetCompact hdr.nBits).1 + 1)))) := by
  have hK0' : 0 ≤ P.maxKPow := by omega
  have hgp := getBlockProof_pow E P nHeight hdr pprev pskip hpow hact hK0' hK1 hscan
  have hfl := findLastForge_eq E P.maxKPow.toNat pprev 0 hscan
  rw [zero_add] at hfl
  have hk := powBonusK_eq P (blocksSinceForge E P.maxKPow.toNat pprev)
    (lastForgeDifficulty E P.maxKPow.toNat pprev) hK0' hK1 (blocksSinceForge_le E _ pprev)
  have hkb := bonusFactor_le P (blocksSinceForge E P.maxKPow.toNat pprev)
    (lastForgeDifficulty E P.maxKPow.toNat pprev)
  have hmax : max P.maxKPow.toNat 1 = P.maxKPow.toNat := by
    have : 1 ≤ P.maxKPow.toNat := by omega
    omega
  constructor
  · refine ⟨_, hkb.1, ?_, hfl, hk, hgp⟩
    have := hkb.2
    rw [hmax] at this
    omega
  · intro hnone
    have hnn : nthPrev P.maxKPow.toNat pprev ≠ .nullptr := by
      rcases hscan with h | h
      · exact absurd hnone h
      · exact h
    have hd := blocksSinceForge_none E P.maxKPow.toNat pprev hnone hnn
    have hone : bonusFactor P (blocksSinceForge E P.maxKPow.toNat pprev)
        (lastForgeDifficulty E P.maxKPow.toNat pprev) = 1 := by
      rw [hd]
      unfold bonusFactor
      simp only [Nat.sub_self, Nat.zero_div]
      split_ifs <;> rfl
    refine ⟨by rw [hk, hone], fun hv => ?_⟩
    rw [hgp, hone, Nat.mul_one]
    have hbw : baseWork hdr.nBits = 2 ^ 256 / ((SetCompact hdr.nBits).1 + 1) := by
      unfold baseWork work
      rw [if_pos hv]
    have hnz : (SetCompact hdr.nBits).1 ≠ 0 := by
      intro e
      simp [validCompact, e] at hv
    have hlt : baseWork hdr.nBits < 2 ^ 256 := by
      rw [hbw]
      exact Nat.div_lt_self (by positivity) (by omega)
    unfold wrap256
    rw [Nat.mod_eq_of_lt hlt, hbw]

/-- A PoW block at height 7 on six PoW blocks: no forge-mined block among the
five blocks from the parent on, so the work is the plain work. -/
theorem pow_bonus_factor_range_witness :
    lastForgeWithin scenarioEnv mainParams.maxKPow.toNat plainPowChain6 = none ∧
    GetBlockProof scenarioEnv mainParams (.entry 7 ⟨840, 0x1b0ffff0, 1⟩ plainPowChain6 .nullptr)
      = .ok (2 ^ 256 / ((SetCompact 0x1b0ffff0).1 + 1)) :=
  ⟨by decide,
    ((pow_bonus_factor_range scenarioEnv mainParams 7 ⟨840, 0x1b0ffff0, 1⟩ plainPowChain6 .nullptr
      (by decide) (Or.inl (by decide)) (by decide) (by decide) (Or.inr (by decide))).2
      (by decide)).2 (by decide)⟩

/-! ## Ready hammers and the maturity step -/

/-- The scan of `GetNetworkForgeInfo` runs through from a block, and it lists
exactly the blocks at the depths below the number of iterations that are not
forge-mined, as ready from the depth `hammerGestationBlocks` on. -/
theorem forgeInfoScan_mem (E : Env) (P : Params) : ∀ (n : Nat) (i : Int) (b : PIndex),
    b ≠ .nullptr →
    ∃ r, forgeInfoScan E P n i b = .ok r ∧
      ∀ (c : PIndex) (ready : Bool), (c, ready) ∈ r ↔
        ∃ j : Nat, j < n ∧ nthPrev j b = c ∧ c ≠ .nullptr ∧ forgeMined E c = false ∧
          ready = !decide (i + j < P.hammerGestationBlocks) := by
  intro n
  induction n with
  | zero =>
    intro i b _
    exact ⟨[], rfl, fun c ready => by simp⟩
  | succ k ih =>
    intro i b hb
    cases b with
    | nullptr => exact absurd rfl hb
    | entry h hdr p s =>
      have hhere : ∀ (c : PIndex) (ready : Bool),
          (c, ready) ∈ (if E.IsForgeMined hdr then ([] : List (PIndex × Bool))
            else [(.entry h hdr p s, !decide (i < P.hammerGestationBlocks))]) ↔
          (c = .entry h hdr p s ∧ forgeMined E c = false ∧
            ready = !decide (i + (0 : Nat) < P.hammerGestationBlocks)) := by
        intro c ready
        by_cases hm : E.IsForgeMined hdr = true
        · simp only [hm, if_true, List.not_mem_nil, false_iff]
          rintro ⟨rfl, hf, _⟩
          simp [forgeMined, hm] at hf
        · simp only [hm, Bool.false_eq_true, if_false, List.mem_singleton, Prod.mk.injEq,
            Nat.cast_zero, add_zero]
          constructor
          · rintro ⟨rfl, rfl⟩
            exact ⟨rfl, by simpa [forgeMined] using hm, rfl⟩
          · rintro ⟨rfl, _, rfl⟩
            exact ⟨rfl, rfl⟩
      cases p with
      | nullptr =>
        refine ⟨(if E.IsForgeMined hdr then ([] : List (PIndex × Bool))
          else [(.entry h hdr .nullptr s, !decide (i < P.hammerGestationBlocks))]),
          by simp only [forgeInfoScan], fun c ready => ?_⟩
        rw [hhere]
        constructor
        · rintro ⟨rfl, hf, hr⟩
          exact ⟨0, by omega, rfl, by simp, hf, hr⟩
        · rintro ⟨j, _, hj, hc, hf, hr⟩
          cases j with
          | zero => exact ⟨hj.symm, hf, hr⟩
          | succ j' =>
            simp only [nthPrev, nthPrev_nullptr] at hj
            exact absurd hj.symm hc
      | entry h2 hdr2 p2 s2 =>
        obtain ⟨r, hr, hmem⟩ := ih (i + 1) (.entry h2 hdr2 p2 s2) (by simp)
        refine ⟨(if E.IsForgeMined hdr then ([] : List (PIndex × Bool))
          else [(.entry h hdr (.entry h2 hdr2 p2 s2) s, !decide (i < P.hammerGestationBlocks))]) ++ r,
          by simp only [forgeInfoScan, hr, Outcome.andThen], fun c ready => ?_⟩
        rw [List.mem_append, hhere, hmem]
        constructor
        · rintro (⟨rfl, hf, hrd⟩ | ⟨j, hj, hn, hc, hf, hrd⟩)
          · exact ⟨0, by omega, rfl, by simp, hf, hrd⟩
          · refine ⟨j + 1, by omega, hn, hc, hf, ?_⟩
            rw [hrd]
            push_cast
            congr 3
            ring
        · rintro ⟨j, hj, hn, hc, hf, hrd⟩
          cases j with
          | zero => exact Or.inl ⟨hn.symm, hf, hrd⟩
          | succ j' =>
            refine Or.inr ⟨j', by omega, hn, hc, hf, ?_⟩
            rw [hrd]
            push_cast
            congr 3
            ring

/-- On a chain with heights from 0 the block `n` steps back exists only for
`n` up to the height, and has the height lowered by `n`. -/
theorem nthPrev_height_of_ne (n : Nat) : ∀ b : PIndex, Heights b → nthPrev n b ≠ .nullptr →
    (n : Int) ≤ b.height ∧ (nthPrev n b).height = b.height - n := by
  induction n with
  | zero => intro b hb _; exact ⟨by simpa using heights_nonneg b hb, by simp [nthPrev]⟩
  | succ k ih =>
    intro b hb hn
    cases b with
    | nullptr => exact absurd hb (by simp [Heights])
    | entry h hdr p s =>
      cases p with
      | nullptr => simp [nthPrev, nthPrev_nullptr] at hn
      | entry h2 hdr2 p2 s2 =>
        obtain ⟨he, hp⟩ := (heights_entry h h2 hdr hdr2 p2 s2 s).1 hb
        simp only [nthPrev] at hn ⊢
        obtain ⟨a1, a2⟩ := ih _ hp hn
        simp only [PIndex.height] at a1 a2 ⊢
        constructor
        · push_cast; omega
        · rw [a2]; push_cast; omega

/-- The maturity step for a candidate at height `t + 1` and a BCT at height
`H`, in terms of the depth `t - H` of the BCT below the tip. -/
theorem maturityStep_next (P : Params) (t H : Int)
    (H0 : 0 ≤ H) (Ht : H ≤ t) (ht : t < 2 ^ 31 - 1)
    (hG : 0 ≤ P.hammerGestationBlocks) (hL : 0 ≤ P.hammerLifespanBlocks)
    (hGL : P.hammerGestationBlocks + P.hammerLifespanBlocks < 2 ^ 31) :
    MaturityStep P (t + 1) H H = .ok () ↔
      P.hammerGestationBlocks ≤ t - H + 1 ∧
        t - H < P.hammerGestationBlocks + P.hammerLifespanBlocks := by
  have hd := maturity_depth (t + 1) H (by omega) (by omega) H0 (by omega)
  have hov : ¬ (P.hammerGestationBlocks + P.hammerLifespanBlocks < -2 ^ 31
        ∨ 2 ^ 31 ≤ P.hammerGestationBlocks + P.hammerLifespanBlocks) := by
    norm_num at *; omega
  simp only [MaturityStep, hd, ne_eq, not_true_eq_false, if_false, hov]
  split_ifs <;> simp <;> omega

/-- C30: on a chain with heights from 0 and a tip of height `t`, with
gestation `G >= 1`, lifespan `L >= 0` and `G + L` an `int`: a BCT at height
`H` whose depth `t - H` satisfies `G <= t - H < G + L` passes the maturity
step for the next block at height `t + 1`, and every BCT that passes it has
`t - H < G + L`; the scan of `GetNetworkForgeInfo` from the tip runs through,
the blocks it counts as ready are at such depths, so their BCTs pass the
maturity step, and every PoW block of the chain whose BCTs pass the maturity
step is among the blocks the scan counts. -/
theorem ready_hammers_are_mature (E : Env) (P : Params) (tip : PIndex)
    (hH : Heights tip) (ht : tip.height < 2 ^ 31 - 1)
    (hG : 1 ≤ P.hammerGestationBlocks) (hL : 0 ≤ P.hammerLifespanBlocks)
    (hGL : P.hammerGestationBlocks + P.hammerLifespanBlocks < 2 ^ 31) :
    (∀ H : Int, 0 ≤ H → H ≤ tip.height →
      (P.hammerGestationBlocks ≤ tip.height - H ∧
          tip.height - H < P.hammerGestationBlocks + P.hammerLifespanBlocks →
        MaturityStep P (tip.height + 1) H H = .ok ()) ∧
      (MaturityStep P (tip.height + 1) H H = .ok () →
        tip.height - H < P.hammerGestationBlocks + P.hammerLifespanBlocks)) ∧
    ∃ r, GetNetworkForgeInfoScan E P tip = .ok r ∧
      (∀ c, (c, true) ∈ r →
        P.hammerGestationBlocks ≤ tip.height - c.height ∧
        tip.height - c.height < P.hammerGestationBlocks + P.hammerLifespanBlocks ∧
        MaturityStep P (tip.height + 1) c.height c.height = .ok ()) ∧
      (∀ n : Nat, nthPrev n tip ≠ .nullptr → forgeMined E (nthPrev n tip) = false →
        MaturityStep P (tip.height + 1) (nthPrev n tip).height (nthPrev n tip).height = .ok () →
        ∃ ready, (nthPrev n tip, ready) ∈ r) := by
  have hG0 : 0 ≤ P.hammerGestationBlocks := by omega
  have hne : tip ≠ .nullptr := by
    intro e; rw [e] at hH; exact absurd hH (by simp [Heights])
  constructor
  · intro H H0 Ht
    have hm := maturityStep_next P tip.height H H0 Ht ht hG0 hL hGL
    exact ⟨fun h => hm.2 ⟨by omega, h.2⟩, fun h => (hm.1 h).2⟩
  · obtain ⟨r, hr, hmem⟩ := forgeInfoScan_mem E P
      (P.hammerLifespanBlocks + P.hammerGestationBlocks).toNat 0 tip hne
    refine ⟨r, hr, fun c hc => ?_, fun n hn hf hm => ?_⟩
    · obtain ⟨j, hj, hjc, hcn, _, hrd⟩ := (hmem c true).1 hc
      rw [← hjc] at hcn ⊢
      obtain ⟨a1, a2⟩ := nthPrev_height_of_ne j tip hH hcn
      have hjG : P.hammerGestationBlocks ≤ j := by
        simp only [zero_add, Bool.true_eq, Bool.not_eq_true', decide_eq_false_iff_not,
          not_lt] at hrd
        exact hrd
      have hjL : (j : Int) < P.hammerGestationBlocks + P.hammerLifespanBlocks := by omega
      rw [a2]
      refine ⟨by omega, by omega, ?_⟩
      exact (maturityStep_next P tip.height (tip.height - j) (by omega) (by omega) ht hG0 hL
        hGL).2 ⟨by omega, by omega⟩
    · obtain ⟨a1, a2⟩ := nthPrev_height_of_ne n tip hH hn
      rw [a2] at hm
      have := (maturityStep_next P tip.height (tip.height - n) (by omega) (by omega) ht hG0 hL
        hGL).1 hm
      exact ⟨_, (hmem _ _).2 ⟨n, by omega, rfl, hn, hf, rfl⟩⟩

/-- The scenario chain with gestation 2 and lifespan 3: the tip has height 2,
the genesis block lies at depth 2 and is counted as ready, and a BCT in it
passes the maturity step at height 3. -/
theorem ready_hammers_are_mature_witness :
    Heights forgeIndex2 ∧
    GetNetworkForgeInfoScan scenarioEnv scenarioParams forgeIndex2
      = .ok [(powIndex1, false), (genesisIndex, true)] ∧
    MaturityStep scenarioParams (forgeIndex2.height + 1) 0 0 = .ok () :=
  ⟨by unfold forgeIndex2 powIndex1 genesisIndex; simp only [Heights]; decide, by decide,
    ((ready_hammers_are_mature scenarioEnv scenarioParams forgeIndex2
      (by unfold forgeIndex2 powIndex1 genesisIndex; simp only [Heights]; decide) (by decide)
      (by decide) (by decide) (by decide)).1 0 (by decide) (by decide)).1 (by decide)⟩

/-! ## The vector of the active chain -/

/-- The length of a resized vector. -/
theorem length_resize (v : List PIndex) (n : Nat) : (resize v n).length = n := by
  unfold resize
  simp only [List.length_append, List.length_take, List.length_replicate]
  omega

/-- The entries of a resized vector, read with the null pointer as default. -/
theorem getD_resize (v : List PIndex) (n i : Nat) (h : i < n) :
    (resize v n).getD i .nullptr = v.getD i .nullptr := by
  unfold resize
  simp only [List.getD_eq_getElem?_getD, List.getElem?_append, List.length_take,
    List.getElem?_take, List.getElem?_replicate]
  by_cases hi : i < v.length
  · have : i < min n v.length := by omega
    simp [this, h]
  · have h1 : ¬ i < min n v.length := by omega
    have h2 : i - min n v.length < n - v.length := by omega
    have h3 : v[i]? = none := List.getElem?_eq_none (by omega)
    simp [h1, h2, h3]

/-- The entries of a vector after one is set. -/
theorem getD_set (v : List PIndex) (k i : Nat) (p : PIndex) (hk : k < v.length) :
    (v.set k p).getD i .nullptr = if k = i then p else v.getD i .nullptr := by
  simp only [List.getD_eq_getElem?_getD, List.getElem?_set, hk, if_true]
  split_ifs <;> rfl

/-- In a vector with the chain invariant the entries below an entry are its
ancestors. -/
theorem chainInvariant_ancestors (v : List PIndex) (hinv : ChainInvariant v) (i : Nat)
    (hi : i < v.length) : ∀ d : Nat, d ≤ i →
    v.getD (i - d) .nullptr = nthPrev d (v.getD i .nullptr) := by
  intro d
  induction d with
  | zero => intro _; rfl
  | succ k ih =>
    intro hk
    have h1 := ih (by omega)
    have h2 := (hinv (i - k) (by omega)).2.2 (by omega)
    have e : i - (k + 1) = i - k - 1 := by omega
    rw [e, ← h2, h1]
    have hadd := nthPrev_add 1 k (v.getD i .nullptr)
    rw [← hadd]
    cases nthPrev k (v.getD i .nullptr) <;> rfl

/-- The loop of `SetTip` from a block of a chain with heights from 0, on a
vector that is long enough and whose blocks up to that height have their
ancestors below them: it runs through, changes no entry above, and leaves the
ancestors of the block at the entries up to its height. -/
theorem setTipWalk_eq : ∀ (p : PIndex) (v : List PIndex), Heights p →
    p.height.toNat < v.length →
    (∀ i, i ≤ p.height.toNat → v.getD i .nullptr ≠ .nullptr →
      ∀ d, d ≤ i → v.getD (i - d) .nullptr = nthPrev d (v.getD i .nullptr)) →
    ∃ w, SetTipWalk p v = .ok w ∧ w.length = v.length ∧
      (∀ i, p.height.toNat < i → w.getD i .nullptr = v.getD i .nullptr) ∧
      (∀ d, d ≤ p.height.toNat → w.getD (p.height.toNat - d) .nullptr = nthPrev d p) := by
  intro p
  induction p with
  | nullptr => intro v hH; exact absurd hH (by simp [Heights])
  | entry h hdr pp s ihp _ =>
    intro v hH hlen hQ
    have h0 : 0 ≤ h := heights_nonneg _ hH
    simp only [PIndex.height] at hlen hQ ⊢
    have hrange : ¬ (h < 0 ∨ (v.length : Int) ≤ h) := by omega
    rw [SetTipWalk, if_neg hrange]
    by_cases heq : v.getD h.toNat .nullptr = .entry h hdr pp s
    · rw [if_pos heq]
      refine ⟨v, rfl, rfl, fun _ _ => rfl, fun d hd => ?_⟩
      have := hQ h.toNat (le_refl _) (by rw [heq]; simp) d hd
      rw [this, heq]
    · rw [if_neg heq]
      have hset : ∀ i, (v.set h.toNat (.entry h hdr pp s)).getD i .nullptr =
          if h.toNat = i then .entry h hdr pp s else v.getD i .nullptr :=
        fun i => getD_set v h.toNat i _ hlen
      cases pp with
      | nullptr =>
        have hz : h = 0 := by simpa [Heights] using hH
        subst hz
        refine ⟨_, rfl, List.length_set _ _ _, fun i hi => ?_, fun d hd => ?_⟩
        · rw [hset, if_neg (by omega)]
        · have hd0 : d = 0 := by simpa using hd
          subst hd0
          rw [hset]
          simp [nthPrev]
      | entry h2 hdr2 p2 s2 =>
        obtain ⟨he, hp⟩ := (heights_entry h h2 hdr hdr2 p2 s2 s).1 hH
        have h20 : 0 ≤ h2 := heights_nonneg _ hp
        have hh : h.toNat = h2.toNat + 1 := by omega
        obtain ⟨w, hw, hwl, hwa, hwb⟩ := ihp (v.set h.toNat (.entry h hdr (.entry h2 hdr2 p2 s2) s))
          hp (by simp only [PIndex.height, List.length_set]; omega) (by
            intro i hi hne d hd
            simp only [PIndex.height] at hi
            rw [hset, if_neg (by omega)] at hne ⊢
            rw [hset, if_neg (by omega)]
            exact hQ i (by omega) hne d hd)
        simp only [PIndex.height] at hwa hwb
        refine ⟨w, hw, by rw [hwl, List.length_set], fun i hi => ?_, fun d hd => ?_⟩
        · rw [hwa i (by omega), hset, if_neg (by omega)]
        · cases d with
          | zero =>
            rw [Nat.sub_zero, hwa _ (by omega), hset, if_pos rfl]
            rfl
          | succ d' =>
            have e : h.toNat - (d' + 1) = h2.toNat - d' := by omega
            rw [e, hwb d' (by omega)]
            rfl

/-- C25: for a vector with the chain invariant and a block index `idx` with
heights from 0 along `pprev` (as every well-formed index has them), `SetTip`
runs through, the vector then has length `idx.height + 1`, entry `i` is the
ancestor of `idx` at height `i` for every `0 <= i <= idx.height`, and the
chain invariant holds again; `SetTip` of the null pointer leaves the vector
empty. -/
theorem setTip_chain (vChain : List PIndex) (idx : PIndex)
    (hinv : ChainInvariant vChain) (hH : Heights idx) :
    (∃ w, SetTip idx vChain = .ok w ∧ (w.length : Int) = idx.height + 1 ∧
      (∀ i : Nat, (i : Int) ≤ idx.height →
        w.getD i .nullptr = nthPrev (idx.height.toNat - i) idx ∧
        (w.getD i .nullptr).height = i) ∧
      ChainInvariant w) ∧
    SetTip .nullptr vChain = .ok [] ∧
    (WellFormed idx → Heights idx) := by
  refine ⟨?_, rfl, fun hwf => (wellFormed_heights_skips idx hwf).1⟩
  have h0 : 0 ≤ idx.height := heights_nonneg _ hH
  cases idx with
  | nullptr => exact absurd hH (by simp [Heights])
  | entry h hdr pp s =>
    simp only [PIndex.height] at h0 ⊢
    have hlen : (resize vChain (h + 1).toNat).length = (h + 1).toNat := length_resize _ _
    have hQ : ∀ i, i ≤ h.toNat → (resize vChain (h + 1).toNat).getD i .nullptr ≠ .nullptr →
        ∀ d, d ≤ i → (resize vChain (h + 1).toNat).getD (i - d) .nullptr
          = nthPrev d ((resize vChain (h + 1).toNat).getD i .nullptr) := by
      intro i hi hne d hd
      rw [getD_resize _ _ _ (by omega)] at hne ⊢
      rw [getD_resize _ _ _ (by omega)]
      have hil : i < vChain.length := by
        by_contra hc
        apply hne
        rw [List.getD_eq_getElem?_getD, List.getElem?_eq_none (by omega)]
        rfl
      exact chainInvariant_ancestors vChain hinv i hil d hd
    obtain ⟨w, hw, hwl, _, hwb⟩ := setTipWalk_eq (.entry h hdr pp s)
      (resize vChain (h + 1).toNat) hH (by simp only [PIndex.height]; omega) hQ
    simp only [PIndex.height] at hwb
    have hent : ∀ i : Nat, (i : Int) ≤ h →
        w.getD i .nullptr = nthPrev (h.toNat - i) (.entry h hdr pp s) := by
      intro i hi
      have := hwb (h.toNat - i) (by omega)
      have e : h.toNat - (h.toNat - i) = i := by omega
      rw [e] at this
      exact this
    have hhei : ∀ i : Nat, (i : Int) ≤ h →
        Heights (w.getD i .nullptr) ∧ (w.getD i .nullptr).height = i := by
      intro i hi
      rw [hent i hi]
      have := nthPrev_heights (h.toNat - i) (.entry h hdr pp s) hH
        (by simp only [PIndex.height]; omega)
      simp only [PIndex.height] at this ⊢
      refine ⟨this.1, ?_⟩
      rw [this.2]
      omega
    refine ⟨w, ?_, by rw [hwl, hlen]; omega, fun i hi => ⟨hent i hi, (hhei i hi).2⟩, ?_⟩
    · simp only [SetTip]
      rw [if_neg (by omega)]
      exact hw
    · intro i hi
      have hi' : (i : Int) ≤ h := by rw [hwl, hlen] at hi; omega
      obtain ⟨a, b⟩ := hhei i hi'
      refine ⟨?_, b, fun hpos => ?_⟩
      · intro e
        rw [e] at a
        exact absurd a (by simp [Heights])
      · rw [hent i hi', hent (i - 1) (by omega)]
        have e : h.toNat - (i - 1) = (h.toNat - i) + 1 := by omega
        rw [e, ← nthPrev_add 1 (h.toNat - i)]
        cases nthPrev (h.toNat - i) (PIndex.entry h hdr pp s) <;> rfl

/-- The tip moves from `forgeIndex2` to the block
`powIndex3` on it: the vector of three blocks gets the fourth. -/
theorem setTip_chain_witness :
    ChainInvariant [genesisIndex, powIndex1, forgeIndex2] ∧ Heights powIndex3 ∧
    ∃ w, SetTip powIndex3 [genesisIndex, powIndex1, forgeIndex2] = .ok w ∧
      (w.length : Int) = powIndex3.height + 1 ∧
      (∀ i : Nat, (i : Int) ≤ powIndex3.height →
        w.getD i .nullptr = nthPrev (powIndex3.height.toNat - i) powIndex3 ∧
        (w.getD i .nullptr).height = i) ∧
      ChainInvariant w :=
  have hinv : ChainInvariant [genesisIndex, powIndex1, forgeIndex2] := by
    intro i hi
    have : i = 0 ∨ i = 1 ∨ i = 2 := by simp at hi; omega
    rcases this with rfl | rfl | rfl <;> decide
  have hH : Heights powIndex3 := by
    unfold powIndex3 forgeIndex2 powIndex1 genesisIndex
    simp only [Heights]
    decide
  ⟨hinv, hH, (setTip_chain [genesisIndex, powIndex1, forgeIndex2] powIndex3 hinv hH).1⟩

/-! ## Compact encoding and decoding -/

/-- A value below `2^fuel` is below two to the number of its binary digits. -/
theorem bitsAux_spec : ∀ (fuel x : Nat), x < 2 ^ fuel →
    x < 2 ^ bitsAux fuel x ∧ bitsAux fuel x ≤ fuel := by
  intro fuel
  induction fuel with
  | zero => intro x hx; simp at hx; subst hx; simp [bitsAux]
  | succ k ih =>
    intro x hx
    by_cases h0 : x = 0
    · subst h0; simp [bitsAux]
    · have hx2 : x / 2 < 2 ^ k := by
        rw [pow_succ] at hx
        omega
      obtain ⟨a, b⟩ := ih (x / 2) hx2
      simp only [bitsAux, h0, if_false]
      refine ⟨?_, by omega⟩
      rw [pow_succ]
      omega

/-- The value a mantissa `m` and a size `n` stand for. -/
theorem setCompact_of_parts (m n : Nat) (hm : m < 2 ^ 23) (hn : n ≤ 33)
    (h33 : n = 33 → m < 2 ^ 16) :
    SetCompact (m + n * 2 ^ 24) =
      ((if n ≤ 3 then m / 2 ^ (8 * (3 - n)) else wrap256 (m * 2 ^ (8 * (n - 3)))), false, false) := by
  have hsize : (m + n * 2 ^ 24) >>> 24 = n := by
    rw [Nat.shiftRight_eq_div_pow, Nat.add_mul_div_right _ _ (by positivity)]
    have : m / 2 ^ 24 = 0 := Nat.div_eq_of_lt (lt_trans hm (by norm_num))
    omega
  have hword : (m + n * 2 ^ 24) &&& 0x007fffff = m := by
    have e : (0x007fffff : Nat) = 2 ^ 23 - 1 := by norm_num
    rw [e, Nat.and_pow_two_sub_one_eq_mod]
    have e2 : n * 2 ^ 24 = 2 ^ 23 * (n * 2) := by ring
    rw [e2, Nat.add_mul_mod_self_left]
    exact Nat.mod_eq_of_lt hm
  have hsign : (m + n * 2 ^ 24) &&& 0x00800000 = 0 := by
    have e : (0x00800000 : Nat) = 2 ^ 23 := by norm_num
    rw [e, Nat.and_two_pow, Nat.testBit_to_div_mod]
    have e2 : n * 2 ^ 24 = 2 ^ 23 * (n * 2) := by ring
    rw [e2, Nat.add_mul_div_left _ _ (by positivity)]
    have : m / 2 ^ 23 = 0 := Nat.div_eq_of_lt hm
    rw [this]
    have : (0 + n * 2) % 2 = 0 := by omega
    simp [this]
  unfold SetCompact
  simp only [hsize, hword, hsign]
  by_cases h3 : n ≤ 3
  · simp only [h3, if_true, Nat.shiftRight_eq_div_pow]
    have : ¬ (n > 34) := by omega
    have h1 : ¬ (n > 33) := by omega
    have h2 : ¬ (n > 32) := by omega
    simp [this, h1, h2]
  · simp only [h3, if_false, Nat.shiftLeft_eq]
    have h4 : ¬ (n > 34) := by omega
    have h1 : ¬ (n > 33) := by omega
    by_cases h2 : n > 32
    · have : m < 2 ^ 16 := h33 (by omega)
      have h5 : ¬ (m > 0xffff) := by norm_num at this ⊢; omega
      simp [h4, h1, h5]
    · simp [h4, h1, h2]

/-- The compact encoding of a 256-bit value in parts: a mantissa below `2^23`
and a size of at most 33 that stand for a value not above the value encoded. -/
theorem getCompact_parts (x : Nat) (hx : x < 2 ^ 256) :
    ∃ m n, GetCompact x = m + n * 2 ^ 24 ∧ m < 2 ^ 23 ∧ n ≤ 33 ∧ (n = 33 → m < 2 ^ 16) ∧
      (if n ≤ 3 then m / 2 ^ (8 * (3 - n)) else m * 2 ^ (8 * (n - 3))) ≤ x := by
  obtain ⟨hb, hb256⟩ := bitsAux_spec 256 x hx
  have hN : (bits x + 7) / 8 ≤ 32 := by unfold bits; omega
  have hxN : x < 2 ^ (8 * ((bits x + 7) / 8)) :=
    lt_of_lt_of_le hb (Nat.pow_le_pow_right (by norm_num) (by unfold bits; omega))
  unfold GetCompact
  simp only []
  generalize (bits x + 7) / 8 = N at hN hxN ⊢
  have hor : ∀ a n : Nat, a < 2 ^ 24 → n ≤ 33 → (a ||| (n <<< 24)) % 2 ^ 32 = a + n * 2 ^ 24 := by
    intro a n ha hn
    rw [Nat.shiftLeft_eq, Nat.or_comm, Nat.mul_comm n, ← Nat.mul_add_lt_is_or ha,
      Nat.mod_eq_of_lt]
    · ring
    · have : 2 ^ 24 * n ≤ 2 ^ 24 * 33 := Nat.mul_le_mul_left _ hn
      have e : (2 : Nat) ^ 24 * 33 + 2 ^ 24 ≤ 2 ^ 32 := by norm_num
      omega
  have hbit : ∀ a : Nat, a < 2 ^ 24 → (a &&& 0x00800000 ≠ 0 ↔ 2 ^ 23 ≤ a) := by
    intro a ha
    have h1 := Nat.and_two_pow a 23
    have h2 : a.testBit 23 = decide (a / 2 ^ 23 % 2 = 1) := Nat.testBit_to_div_mod
    norm_num at h1 h2 ha ⊢
    rw [h1, h2]
    by_cases hge : 8388608 ≤ a
    · have : a / 8388608 % 2 = 1 := by omega
      simp [this, hge]
    · have : a / 8388608 % 2 = 0 := by omega
      simp [this, hge]
  -- the mantissa before the sign bit is looked at
  have hM : ∃ M, M < 2 ^ 24 ∧
      (if N ≤ 3 then ((x % 2 ^ 64) <<< (8 * (3 - N))) % 2 ^ 32
        else (x >>> (8 * (N - 3))) % 2 ^ 64 % 2 ^ 32) = M ∧
      (if N ≤ 3 then M / 2 ^ (8 * (3 - N)) = x else M * 2 ^ (8 * (N - 3)) ≤ x) := by
    by_cases h3 : N ≤ 3
    · have hx24 : x * 2 ^ (8 * (3 - N)) < 2 ^ 24 := by
        have e : (2 : Nat) ^ 24 = 2 ^ (8 * N) * 2 ^ (8 * (3 - N)) := by
          rw [← pow_add]; congr 1; omega
        rw [e]
        exact Nat.mul_lt_mul_of_pos_right hxN (by positivity)
      have hxs : x < 2 ^ 64 := by
        have : x ≤ x * 2 ^ (8 * (3 - N)) := Nat.le_mul_of_pos_right _ (by positivity)
        have e : (2 : Nat) ^ 24 < 2 ^ 64 := by norm_num
        omega
      refine ⟨x * 2 ^ (8 * (3 - N)), hx24, ?_, ?_⟩
      · rw [if_pos h3, Nat.mod_eq_of_lt hxs, Nat.shiftLeft_eq, Nat.mod_eq_of_lt]
        exact lt_trans hx24 (by norm_num)
      · rw [if_pos h3]
        exact Nat.mul_div_cancel _ (by positivity)
    · have hq : x / 2 ^ (8 * (N - 3)) < 2 ^ 24 := by
        rw [Nat.div_lt_iff_lt_mul (by positivity), ← pow_add]
        have : 24 + 8 * (N - 3) = 8 * N := by omega
        rw [this]
        exact hxN
      refine ⟨x / 2 ^ (8 * (N - 3)), hq, ?_, ?_⟩
      · rw [if_neg h3, Nat.shiftRight_eq_div_pow, Nat.mod_eq_of_lt (lt_trans hq (by norm_num)),
          Nat.mod_eq_of_lt (lt_trans hq (by norm_num))]
      · rw [if_neg h3]
        exact Nat.div_mul_le_self _ _
  obtain ⟨M, hM24, hMeq, hMval⟩ := hM
  rw [hMeq]
  by_cases hs : 2 ^ 23 ≤ M
  · have hd : decide (M &&& 0x00800000 ≠ 0) = true := by
      rw [decide_eq_true_eq]; exact (hbit M hM24).2 hs
    simp only [hd, if_true]
    have hm16 : M >>> 8 < 2 ^ 16 := by
      rw [Nat.shiftRight_eq_div_pow, Nat.div_lt_iff_lt_mul (by positivity)]
      calc M < 2 ^ 24 := hM24
        _ = 2 ^ 16 * 2 ^ 8 := by norm_num
    refine ⟨M >>> 8, N + 1, hor _ _ (lt_trans hm16 (by norm_num)) (by omega),
      lt_trans hm16 (by norm_num), by omega, fun _ => hm16, ?_⟩
    rw [Nat.shiftRight_eq_div_pow]
    by_cases h3 : N ≤ 3
    · rw [if_pos h3] at hMval
      by_cases h2 : N + 1 ≤ 3
      · rw [if_pos h2, Nat.div_div_eq_div_mul, ← pow_add]
        have : 8 + 8 * (3 - (N + 1)) = 8 * (3 - N) := by omega
        rw [this, hMval]
      · rw [if_neg h2]
        have hN3 : N = 3 := by omega
        subst hN3
        simp only [Nat.sub_self, Nat.mul_zero, pow_zero, Nat.div_one] at hMval
        subst hMval
        exact Nat.div_mul_le_self _ _
    · rw [if_neg h3] at hMval
      rw [if_neg (by omega)]
      have e : 8 * (N + 1 - 3) = 8 + 8 * (N - 3) := by omega
      rw [e, pow_add, ← Nat.mul_assoc]
      exact le_trans (Nat.mul_le_mul_right _ (Nat.div_mul_le_self _ _)) hMval
  · have hd : decide (M &&& 0x00800000 ≠ 0) = false := by
      rw [decide_eq_false_iff_not]; exact fun h => hs ((hbit M hM24).1 h)
    simp only [hd, Bool.false_eq_true, if_false]
    refine ⟨M, N, hor _ _ hM24 (by omega), by omega, by omega, fun h => by omega, ?_⟩
    by_cases h3 : N ≤ 3
    · rw [if_pos h3] at hMval ⊢
      exact le_of_eq hMval
    · rw [if_neg h3] at hMval ⊢
      exact hMval

/-- The target a compact encoding stands for is not above the value encoded,
and it is neither negative nor overflowing. -/
theorem setCompact_getCompact_le (x : Nat) (hx : x < 2 ^ 256) :
    (SetCompact (GetCompact x)).1 ≤ x ∧ (SetCompact (GetCompact x)).2.1 = false ∧
    (SetCompact (GetCompact x)).2.2 = false := by
  obtain ⟨m, n, hc, hm, hn, h33, hv⟩ := getCompact_parts x hx
  rw [hc, setCompact_of_parts m n hm hn h33]
  refine ⟨?_, rfl, rfl⟩
  by_cases h3 : n ≤ 3
  · rw [if_pos h3] at hv
    simp only [h3, if_true]
    exact hv
  · rw [if_neg h3] at hv
    simp only [h3, if_false]
    exact le_trans (Nat.mod_le _ _) hv

/-! ## DarkGravityWave: the retargeted value -/

/-- The PoW targets from a block are those from the nearest PoW block. -/
theorem powTargets_nearest (E : Env) (k : Nat) : ∀ b : PIndex,
    powTargets E (k + 1) (nearestPow E b) = powTargets E (k + 1) b := by
  intro b
  induction b with
  | nullptr => rfl
  | entry h hdr p s ihp _ =>
    by_cases hm : E.IsForgeMined hdr = true
    · simp only [nearestPow, hm, if_true, powTargets]
      exact ihp
    · simp only [nearestPow, hm, if_false, Bool.false_eq_true]

/-- The `k`-th PoW block from a block is the one from the nearest PoW block. -/
theorem kthPow_nearest (E : Env) (k : Nat) : ∀ b : PIndex,
    kthPow E (k + 1) (nearestPow E b) = kthPow E (k + 1) b := by
  intro b
  induction b with
  | nullptr => rfl
  | entry h hdr p s ihp _ =>
    by_cases hm : E.IsForgeMined hdr = true
    · simp only [nearestPow, hm, if_true, kthPow]
      exact ihp
    · simp only [nearestPow, hm, if_false, Bool.false_eq_true]

/-- One step of the progressive average of values up to `B` stays up to `B`. -/
theorem progressive_step_le (B avg n t : Nat) (ha : avg ≤ B) (ht : t ≤ B) :
    (if n = 1 then t else (avg * n + t) / (n + 1)) ≤ B := by
  split_ifs
  · exact ht
  · apply Nat.div_le_of_le_mul
    calc avg * n + t ≤ B * n + B := Nat.add_le_add (Nat.mul_le_mul_right _ ha) ht
      _ = (n + 1) * B := by ring

/-- The progressive average of values up to `B` is up to `B`. -/
theorem progressiveAvg_le (B : Nat) : ∀ (ts : List Nat) (n avg : Nat), avg ≤ B →
    (∀ t ∈ ts, t ≤ B) → progressiveAvg n avg ts ≤ B := by
  intro ts
  induction ts with
  | nil => intro n avg ha _; exact ha
  | cons t ts ih =>
    intro n avg ha hts
    simp only [progressiveAvg]
    exact ih _ _ (progressive_step_le B avg n t ha (hts t (by simp)))
      (fun u hu => hts u (by simp [hu]))

/-- The averaging loop of `DarkGravityWave` over PoW targets up to `B`, with
`B * (N + 1)` a 256-bit value: it ends at the last of the PoW blocks with
their progressive average. -/
theorem dgwAverage_eq (E : Env) (N B : Nat) (hB : B * (N + 1) < 2 ^ 256) :
    ∀ (k n : Nat) (pindex : PIndex) (avg : Nat),
    n + (k + 1) = N + 1 → k + 1 ≤ powBlocksBehind E pindex → avg ≤ B →
    (∀ t ∈ powTargets E (k + 1) pindex, t ≤ B) →
    dgwAverage E N (k + 1) n pindex avg =
      .ok (kthPow E (k + 1) pindex, progressiveAvg n avg (powTargets E (k + 1) pindex)) := by
  intro k
  induction k with
  | zero =>
    intro n pindex avg hn hc ha hts
    obtain ⟨hskip, h, hdr, p, s, hnear, hpow⟩ :=
      skipForgeMined_nearest E pindex (hasPowBlock_of_count E pindex (by omega))
    rw [hnear] at hskip
    have hlast : n = N := by omega
    rw [← powTargets_nearest, hnear] at hts
    rw [← powTargets_nearest, ← kthPow_nearest, hnear]
    have hz : powTargets E 0 p = [] := by cases p <;> rfl
    have hpt : powTargets E (0 + 1) (.entry h hdr p s) = [(SetCompact hdr.nBits).1] := by
      simp [powTargets, hpow, hz]
    rw [hpt] at hts ⊢
    have ht : (SetCompact hdr.nBits).1 ≤ B := hts _ (by simp)
    have hwrap : wrap256 (wrap256 (avg * n) + (SetCompact hdr.nBits).1)
        = avg * n + (SetCompact hdr.nBits).1 := by
      have h1 : avg * n + (SetCompact hdr.nBits).1 < 2 ^ 256 := by
        calc avg * n + (SetCompact hdr.nBits).1 ≤ B * n + B :=
              Nat.add_le_add (Nat.mul_le_mul_right _ ha) ht
          _ = B * (n + 1) := by ring
          _ ≤ B * (N + 1) := Nat.mul_le_mul_left _ (by omega)
          _ < 2 ^ 256 := hB
      have h2 : avg * n < 2 ^ 256 := by omega
      unfold wrap256
      rw [Nat.mod_eq_of_lt h2, Nat.mod_eq_of_lt h1]
    rw [hlast] at hwrap
    simp only [dgwAverage, hskip, hwrap, ne_eq, hlast, not_true_eq_false, if_false, hpow,
      Bool.false_eq_true, kthPow, if_true, progressiveAvg]
  | succ j ih =>
    intro n pindex avg hn hc ha hts
    obtain ⟨hskip, h, hdr, p, s, hnear, hpow⟩ :=
      skipForgeMined_nearest E pindex (hasPowBlock_of_count E pindex (by omega))
    have hcount : powBlocksBehind E pindex = powBlocksBehind E p + 1 := by
      rw [← powBlocksBehind_nearest, hnear]
      simp [powBlocksBehind, hpow]
    rw [hnear] at hskip
    have hlast : ¬ (n = N) := by omega
    rw [← powTargets_nearest, hnear] at hts
    rw [← powTargets_nearest, ← kthPow_nearest, hnear]
    have hpt : powTargets E (j + 1 + 1) (.entry h hdr p s) =
        (SetCompact hdr.nBits).1 :: powTargets E (j + 1) p := by
      simp [powTargets, hpow]
    have hkp : kthPow E (j + 1 + 1) (.entry h hdr p s) = kthPow E (j + 1) p := by
      simp [kthPow, hpow]
    rw [hpt] at hts ⊢
    rw [hkp]
    have ht : (SetCompact hdr.nBits).1 ≤ B := hts _ (by simp)
    have hnN : n ≤ N := by omega
    have hwrap : wrap256 (wrap256 (avg * n) + (SetCompact hdr.nBits).1)
        = avg * n + (SetCompact hdr.nBits).1 := by
      have h1 : avg * n + (SetCompact hdr.nBits).1 < 2 ^ 256 := by
        calc avg * n + (SetCompact hdr.nBits).1 ≤ B * n + B :=
              Nat.add_le_add (Nat.mul_le_mul_right _ ha) ht
          _ = B * (n + 1) := by ring
          _ ≤ B * (N + 1) := Nat.mul_le_mul_left _ (by omega)
          _ < 2 ^ 256 := hB
      have h2 : avg * n < 2 ^ 256 := by omega
      unfold wrap256
      rw [Nat.mod_eq_of_lt h2, Nat.mod_eq_of_lt h1]
    cases p with
    | nullptr =>
      simp only [powBlocksBehind] at hcount
      omega
    | entry h2 hdr2 p2 s2 =>
      have := ih (n + 1) (.entry h2 hdr2 p2 s2)
        (if n = 1 then (SetCompact hdr.nBits).1
          else (avg * n + (SetCompact hdr.nBits).1) / (n + 1))
        (by omega) (by omega) (progressive_step_le B avg n _ ha ht)
        (fun t ht' => hts t (by simp [ht']))
      simp only [dgwAverage, hskip, ne_eq, hlast, not_false_eq_true, if_true, hwrap,
        progressiveAvg]
      exact this

/-- The two tests on `nActualTimespan` are the clamp of the spec, which lies
in `[0, 72 * spacing]`. -/
theorem clampTimespan_eq (P : Params) (actual : Int) (hs0 : 0 < P.nPowTargetSpacing) :
    (if (if actual < Int.tdiv (24 * P.nPowTargetSpacing) 3
          then Int.tdiv (24 * P.nPowTargetSpacing) 3 else actual) > 24 * P.nPowTargetSpacing * 3
      then 24 * P.nPowTargetSpacing * 3
      else (if actual < Int.tdiv (24 * P.nPowTargetSpacing) 3
          then Int.tdiv (24 * P.nPowTargetSpacing) 3 else actual)) = clampTimespan P actual ∧
    Int.tdiv (24 * P.nPowTargetSpacing) 3 = 8 * P.nPowTargetSpacing ∧
    8 * P.nPowTargetSpacing ≤ clampTimespan P actual ∧
    clampTimespan P actual ≤ 72 * P.nPowTargetSpacing := by
  have e : Int.tdiv (24 * P.nPowTargetSpacing) 3 = 8 * P.nPowTargetSpacing := by
    rw [Int.tdiv_eq_ediv (by omega) (by norm_num)]
    omega
  unfold clampTimespan
  rw [e]
  refine ⟨?_, rfl, ?_, ?_⟩
  · split_ifs <;> omega
  · omega
  · omega

/-- The conversions of `DarkGravityWave` for a spacing with `72 * spacing`
below `2^32`: the divisor as `uint64_t` and a clamped time span as `uint32_t`
keep their values. -/
theorem spacing_conversions (s : Int) (hs0 : 0 < s) (hs1 : 72 * s < 2 ^ 32) :
    (24 * s % 2 ^ 64).toNat = (24 * s).toNat ∧ ¬ ((24 * s).toNat = 0) ∧
    ∀ a : Int, 8 * s ≤ a → a ≤ 72 * s → (wrapU32 a).toNat = a.toNat := by
  have e : 24 * s % 2 ^ 64 = 24 * s := Int.emod_eq_of_lt (by omega) (by omega)
  refine ⟨by rw [e], by omega, fun a h1 h2 => ?_⟩
  unfold wrapU32
  rw [Int.emod_eq_of_lt (by omega) (by omega)]

/-- Behind the skip of forge-mined blocks at the tip, on a chain with 24 PoW
blocks of targets up to `B` (with `25 * B` a 256-bit value) behind the block
held, `DarkGravityWave` returns the compact encoding of the retargeted value
after the tiers and the clamp to the pow-limit. -/
theorem dgwFromTip_eq (E : Env) (P : Params) (tip : PIndex) (blockTime : Int) (B : Nat)
    (hB : B * 25 < 2 ^ 256)
    (hs0 : 0 < P.nPowTargetSpacing) (hs1 : 72 * P.nPowTargetSpacing < 2 ^ 32)
    (hguard : ¬ (tip.height - P.lastScryptBlock < 24))
    (hc : 24 ≤ powBlocksBehind E tip)
    (hts : ∀ t ∈ powTargets E 24 tip, t ≤ B) :
    dgwFromTip E P tip blockTime =
      .ok (GetCompact (min P.powLimit (staleTipTiers P P.powLimit blockTime tip.time
        (wrap256 (progressiveAvg 1 0 (powTargets E 24 tip) *
          (clampTimespan P (tip.time - (kthPow E 24 tip).time)).toNat) /
          (24 * P.nPowTargetSpacing).toNat)))) ∧
    progressiveAvg 1 0 (powTargets E 24 tip) ≤ B := by
  have havg := dgwAverage_eq E 24 B hB 23 1 tip 0 (by norm_num) hc (Nat.zero_le _) hts
  have hle := progressiveAvg_le B (powTargets E 24 tip) 1 0 (Nat.zero_le _) hts
  refine ⟨?_, hle⟩
  cases tip with
  | nullptr => simp [powBlocksBehind] at hc
  | entry h hdr p s =>
    simp only [PIndex.height] at hguard
    obtain ⟨_, _, c3, c4⟩ := clampTimespan_eq P (hdr.nTime - (kthPow E 24 (.entry h hdr p s)).time) hs0
    obtain ⟨hdiv, hdz, hu⟩ := spacing_conversions P.nPowTargetSpacing hs0 hs1
    have hu32 := hu _ c3 c4
    have hmin : ∀ x : Nat, (if x > P.powLimit then P.powLimit else x) = min P.powLimit x := by
      intro x
      split_ifs with hgt
      · exact (min_eq_left (le_of_lt hgt)).symm
      · exact (min_eq_right (by omega)).symm
    have htime : (PIndex.entry h hdr p s).time = hdr.nTime := rfl
    have c1 := (clampTimespan_eq P (hdr.nTime - (kthPow E 24 (.entry h hdr p s)).time) hs0).1
    rw [htime]
    unfold dgwFromTip
    simp only []
    rw [if_neg hguard, havg]
    simp only [Outcome.andThen, c1, hu32, hdiv, hdz, if_false, hmin]

/-- The tiers of `DarkGravityWave` are the escalator of the spec wherever the
products stay 256-bit values. -/
theorem staleTipTiers_eq (P : Params) (blockTime lastTime : Int) (base : Nat)
    (hbase : base * 100000 < 2 ^ 256) :
    staleTipTiers P P.powLimit blockTime lastTime base = escalator P (blockTime - lastTime) base := by
  have w1 : wrap256 (base * 100000) = base * 100000 := Nat.mod_eq_of_lt hbase
  have w2 : wrap256 (base * 10000) = base * 10000 := Nat.mod_eq_of_lt (by omega)
  have w3 : wrap256 (base * 1000) = base * 1000 := Nat.mod_eq_of_lt (by omega)
  have w4 : wrap256 (base * 100) = base * 100 := Nat.mod_eq_of_lt (by omega)
  unfold staleTipTiers escalator
  rw [w1, w2, w3, w4]
  split_ifs <;> omega

/-- Where `DarkGravityWave` neither takes the early return for minimum
difficulty nor fails in the skip of forge-mined blocks, it goes on from the
block it measures from. -/
theorem dgw_from_tip (E : Env) (P : Params) (prev : PIndex) (blockTime : Int)
    (hprev : prev ≠ .nullptr)
    (hmin : ¬ (P.fPowAllowMinDifficultyBlocks = true ∧
      blockTime > prev.time + P.nPowTargetSpacing * 10))
    (hpow : E.IsForge11Enabled prev = true → hasPowBlock E prev = true) :
    DarkGravityWave E P prev blockTime = dgwFromTip E P (dgwTip E prev) blockTime := by
  cases prev with
  | nullptr => exact absurd rfl hprev
  | entry h hdr p s =>
    simp only [PIndex.time] at hmin
    unfold DarkGravityWave dgwTip
    simp only []
    rw [if_neg hmin]
    split_ifs with c
    · rw [(skipForgeMined_nearest E _ (hpow c)).1]
      rfl
    · rfl

/-- Whatever `dgwFromTip` returns is the compact encoding of a value up to the
pow-limit. -/
theorem dgwFromTip_le (E : Env) (P : Params) (tip : PIndex) (blockTime : Int) (r : Nat)
    (h : dgwFromTip E P tip blockTime = .ok r) : ∃ v, v ≤ P.powLimit ∧ r = GetCompact v := by
  unfold dgwFromTip at h
  cases tip with
  | nullptr => exact ⟨P.powLimit, le_refl _, (Outcome.ok.inj h).symm⟩
  | entry hh hdr p s =>
    simp only [] at h
    by_cases c : hh - P.lastScryptBlock < 24
    · rw [if_pos c] at h
      exact ⟨P.powLimit, le_refl _, (Outcome.ok.inj h).symm⟩
    · rw [if_neg c] at h
      cases hd : dgwAverage E 24 24 1 (PIndex.entry hh hdr p s) 0 with
      | rejected => rw [hd] at h; simp [Outcome.andThen] at h
      | aborted => rw [hd] at h; simp [Outcome.andThen] at h
      | ok q =>
        rw [hd] at h
        simp only [Outcome.andThen] at h
        by_cases c2 : (24 * P.nPowTargetSpacing % 2 ^ 64).toNat = 0
        · rw [if_pos c2] at h
          cases h
        · rw [if_neg c2] at h
          have h2 := Outcome.ok.inj h
          rw [← h2]
          have hcl : ∀ X : Nat, (if X > P.powLimit then P.powLimit else X) ≤ P.powLimit := by
            intro X
            split_ifs <;> omega
          exact ⟨_, hcl _, rfl⟩

/-- On every path the target that the result of `DarkGravityWave` decodes to is
not above the pow-limit. -/
theorem dgw_le_powLimit (E : Env) (P : Params) (hL : P.powLimit < 2 ^ 256) (prev : PIndex)
    (blockTime : Int) (r : Nat) (h : DarkGravityWave E P prev blockTime = .ok r) :
    (SetCompact r).1 ≤ P.powLimit := by
  have key : ∀ v, v ≤ P.powLimit → (SetCompact (GetCompact v)).1 ≤ P.powLimit := fun v hv =>
    le_trans (setCompact_getCompact_le v (lt_of_le_of_lt hv hL)).1 hv
  have hft : ∀ tip, dgwFromTip E P tip blockTime = .ok r → (SetCompact r).1 ≤ P.powLimit := by
    intro tip ht
    obtain ⟨v, hv, rfl⟩ := dgwFromTip_le E P tip blockTime r ht
    exact key v hv
  unfold DarkGravityWave at h
  cases prev with
  | nullptr => simp at h
  | entry hh hdr p s =>
    simp only [] at h
    split_ifs at h with c1 c2
    · rw [← Outcome.ok.inj h]
      exact key _ (le_refl _)
    · cases hsk : skipForgeMined E (PIndex.entry hh hdr p s) with
      | rejected => rw [hsk] at h; simp [Outcome.andThen] at h
      | aborted => rw [hsk] at h; simp [Outcome.andThen] at h
      | ok q =>
        rw [hsk] at h
        exact hft q h
    · exact hft _ h

set_option maxRecDepth 100000 in
/-- C22 refuted: behind `fastPowChain24` the 24 PoW targets are all
`0x0ffff1 * 2^192`, so is their progressive average, and the time span 23 is
clamped to 80 of 240; the candidate of time 785 comes 1 after the tip.
`DarkGravityWave` returns `0x1b055550`, which decodes to `0x055550 * 2^192`,
below `floor(avg / 3)`: the compact encoding cuts the mantissa. -/
theorem dgw_result_below_third :
    progressiveAvg 1 0 (powTargets scenarioEnv 24 fastPowChain24) = 0x0ffff1 * 2 ^ 192 ∧
    clampTimespan mainParams (fastPowChain24.time - (kthPow scenarioEnv 24 fastPowChain24).time)
      = 80 ∧
    (785 : Int) ≤ fastPowChain24.time + 10 * mainParams.nPowTargetSpacing ∧
    DarkGravityWave scenarioEnv mainParams fastPowChain24 785 = .ok 0x1b055550 ∧
    GetCompact (min mainParams.powLimit (0x0ffff1 * 2 ^ 192 * 80 / 240)) = 0x1b055550 ∧
    (SetCompact 0x1b055550).1 = 0x055550 * 2 ^ 192 ∧
    (SetCompact 0x1b055550).1 < 0x0ffff1 * 2 ^ 192 / 3 := by
  decide

/-- C22 as amended: on a chain on which `DarkGravityWave` reaches the
averaging step, with the 24 PoW targets up to `powLimit` and a candidate at
most `10 * nPowTargetSpacing` after the tip used, the result is the compact
encoding of `v = min(powLimit, floor(avg * a / (24 * spacing)))`, with `avg`
the progressive average of the 24 targets and `a` the time span clamped to
`[24 * spacing div 3, 24 * spacing * 3]`; `v` lies between `floor(avg / 3)`
and `3 * avg`; the target the result decodes to is at most `v`, so at most
`3 * avg`; and on every path the target the result decodes to is at most
`powLimit`. -/
theorem dgw_retarget (E : Env) (P : Params) (prev : PIndex) (blockTime : Int)
    (hprev : prev ≠ .nullptr)
    (hmin : ¬ (P.fPowAllowMinDifficultyBlocks = true ∧
      blockTime > prev.time + P.nPowTargetSpacing * 10))
    (hpow : E.IsForge11Enabled prev = true → hasPowBlock E prev = true)
    (hguard : ¬ ((dgwTip E prev).height - P.lastScryptBlock < 24))
    (hc : 24 ≤ powBlocksBehind E (dgwTip E prev))
    (hts : ∀ t ∈ powTargets E 24 (dgwTip E prev), t ≤ P.powLimit)
    (hs0 : 0 < P.nPowTargetSpacing) (hs1 : 72 * P.nPowTargetSpacing < 2 ^ 32)
    (hL : P.powLimit * (72 * P.nPowTargetSpacing).toNat < 2 ^ 256)
    (hslack : blockTime ≤ (dgwTip E prev).time + 10 * P.nPowTargetSpacing) :
    DarkGravityWave E P prev blockTime =
      .ok (GetCompact (min P.powLimit
        (progressiveAvg 1 0 (powTargets E 24 (dgwTip E prev)) *
          (clampTimespan P ((dgwTip E prev).time - (kthPow E 24 (dgwTip E prev)).time)).toNat /
          (24 * P.nPowTargetSpacing).toNat))) ∧
    progressiveAvg 1 0 (powTargets E 24 (dgwTip E prev)) / 3 ≤
      min P.powLimit
        (progressiveAvg 1 0 (powTargets E 24 (dgwTip E prev)) *
          (clampTimespan P ((dgwTip E prev).time - (kthPow E 24 (dgwTip E prev)).time)).toNat /
          (24 * P.nPowTargetSpacing).toNat) ∧
    min P.powLimit
        (progressiveAvg 1 0 (powTargets E 24 (dgwTip E prev)) *
          (clampTimespan P ((dgwTip E prev).time - (kthPow E 24 (dgwTip E prev)).time)).toNat /
          (24 * P.nPowTargetSpacing).toNat)
      ≤ 3 * progressiveAvg 1 0 (powTargets E 24 (dgwTip E prev)) ∧
    (SetCompact (GetCompact (min P.powLimit
        (progressiveAvg 1 0 (powTargets E 24 (dgwTip E prev)) *
          (clampTimespan P ((dgwTip E prev).time - (kthPow E 24 (dgwTip E prev)).time)).toNat /
          (24 * P.nPowTargetSpacing).toNat)))).1
      ≤ min P.powLimit
        (progressiveAvg 1 0 (powTargets E 24 (dgwTip E prev)) *
          (clampTimespan P ((dgwTip E prev).time - (kthPow E 24 (dgwTip E prev)).time)).toNat /
          (24 * P.nPowTargetSpacing).toNat) ∧
    (∀ (prev' : PIndex) (blockTime' : Int) (r : Nat),
      DarkGravityWave E P prev' blockTime' = .ok r → (SetCompact r).1 ≤ P.powLimit) := by
  have h72 : 25 ≤ (72 * P.nPowTargetSpacing).toNat := by omega
  have hL256 : P.powLimit < 2 ^ 256 :=
    lt_of_le_of_lt (Nat.le_mul_of_pos_right _ (by omega)) hL
  have hB : P.powLimit * 25 < 2 ^ 256 :=
    lt_of_le_of_lt (Nat.mul_le_mul_left _ h72) hL
  obtain ⟨hft, havg⟩ := dgwFromTip_eq E P (dgwTip E prev) blockTime P.powLimit hB hs0 hs1 hguard
    hc hts
  obtain ⟨_, _, c3, c4⟩ := clampTimespan_eq P
    ((dgwTip E prev).time - (kthPow E 24 (dgwTip E prev)).time) hs0
  set avg := progressiveAvg 1 0 (powTargets E 24 (dgwTip E prev)) with havgdef
  set a := clampTimespan P ((dgwTip E prev).time - (kthPow E 24 (dgwTip E prev)).time) with hadef
  have ha1 : 8 * P.nPowTargetSpacing.toNat ≤ a.toNat := by omega
  have ha2 : a.toNat ≤ 72 * P.nPowTargetSpacing.toNat := by omega
  have hT : (24 * P.nPowTargetSpacing).toNat = 24 * P.nPowTargetSpacing.toNat := by omega
  have hspos : 0 < P.nPowTargetSpacing.toNat := by omega
  have ha72 : a.toNat ≤ (72 * P.nPowTargetSpacing).toNat := by omega
  have hnowrap : wrap256 (avg * a.toNat) = avg * a.toNat := by
    apply Nat.mod_eq_of_lt
    calc avg * a.toNat ≤ P.powLimit * (72 * P.nPowTargetSpacing).toNat :=
          Nat.mul_le_mul havg ha72
      _ < 2 ^ 256 := hL
  have htier : staleTipTiers P P.powLimit blockTime (dgwTip E prev).time
      (avg * a.toNat / (24 * P.nPowTargetSpacing).toNat)
      = avg * a.toNat / (24 * P.nPowTargetSpacing).toNat := by
    unfold staleTipTiers
    rw [if_neg (by omega), if_neg (by omega), if_neg (by omega), if_neg (by omega),
      if_neg (by omega)]
  have hlow : avg / 3 ≤ avg * a.toNat / (24 * P.nPowTargetSpacing).toNat := by
    rw [hT]
    calc avg / 3 = avg * (8 * P.nPowTargetSpacing.toNat) / (3 * (8 * P.nPowTargetSpacing.toNat)) :=
          (Nat.mul_div_mul_right _ _ (by omega)).symm
      _ = avg * (8 * P.nPowTargetSpacing.toNat) / (24 * P.nPowTargetSpacing.toNat) := by
          congr 1; ring
      _ ≤ avg * a.toNat / (24 * P.nPowTargetSpacing.toNat) :=
          Nat.div_le_div_right (Nat.mul_le_mul_left _ ha1)
  have hup : avg * a.toNat / (24 * P.nPowTargetSpacing).toNat ≤ 3 * avg := by
    rw [hT]
    apply Nat.div_le_of_le_mul
    calc avg * a.toNat ≤ avg * (72 * P.nPowTargetSpacing.toNat) := Nat.mul_le_mul_left _ ha2
      _ = 24 * P.nPowTargetSpacing.toNat * (3 * avg) := by ring
  have hthird : avg / 3 ≤ P.powLimit := le_trans (Nat.div_le_self _ _) havg
  refine ⟨?_, le_min hthird hlow, le_trans (min_le_right _ _) hup, ?_, ?_⟩
  · rw [dgw_from_tip E P prev blockTime hprev hmin hpow, hft, hnowrap, htier]
  · exact (setCompact_getCompact_le _ (lt_of_le_of_lt (min_le_left _ _) hL256)).1
  · intro prev' blockTime' r hr
    exact dgw_le_powLimit E P hL256 prev' blockTime' r hr

set_option maxRecDepth 100000 in
/-- The chain `powChain24` with the main-net parameters and a candidate 5
after the tip: the result is the compact encoding of the retargeted value. -/
theorem dgw_retarget_witness :
    (1005 : Int) ≤ (dgwTip scenarioEnv powChain24).time + 10 * mainParams.nPowTargetSpacing ∧
    DarkGravityWave scenarioEnv mainParams powChain24 1005 =
      .ok (GetCompact (min mainParams.powLimit
        (progressiveAvg 1 0 (powTargets scenarioEnv 24 (dgwTip scenarioEnv powChain24)) *
          (clampTimespan mainParams ((dgwTip scenarioEnv powChain24).time -
            (kthPow scenarioEnv 24 (dgwTip scenarioEnv powChain24)).time)).toNat /
          (24 * mainParams.nPowTargetSpacing).toNat))) :=
  ⟨by decide,
    (dgw_retarget scenarioEnv mainParams powChain24 1005 (by decide) (by decide)
      (fun _ => by decide) (by decide) (by decide) (by decide) (by decide) (by decide)
      (by decide) (by decide)).1⟩

/-- C23: on a chain on which `DarkGravityWave` reaches the averaging step (the
24 PoW targets up to `powLimit`, `3 * powLimit * 100000` a 256-bit value as on
main-net), with `slack = block.time - tip.time` and `base` the retargeted
value `avg * actual / target`, the result is the compact encoding of
`min(powLimit, e)`, where `e` is `powLimit` for `slack > 30 * spacing`, else
`base * 100000` for `slack > 25 * spacing`, else `base * 10000` for
`slack > 20 * spacing`, else `base * 1000` for `slack > 15 * spacing`, else
`base * 100` for `slack > 10 * spacing`, and `base` otherwise; `base` is at
most `3 * powLimit`, and with the main-net parameters the products of the
code do not wrap for any `base <= 3 * powLimit`. -/
theorem dgw_escalator (E : Env) (P : Params) (prev : PIndex) (blockTime : Int)
    (hprev : prev ≠ .nullptr)
    (hmin : ¬ (P.fPowAllowMinDifficultyBlocks = true ∧
      blockTime > prev.time + P.nPowTargetSpacing * 10))
    (hpow : E.IsForge11Enabled prev = true → hasPowBlock E prev = true)
    (hguard : ¬ ((dgwTip E prev).height - P.lastScryptBlock < 24))
    (hc : 24 ≤ powBlocksBehind E (dgwTip E prev))
    (hts : ∀ t ∈ powTargets E 24 (dgwTip E prev), t ≤ P.powLimit)
    (hs0 : 0 < P.nPowTargetSpacing) (hs1 : 72 * P.nPowTargetSpacing < 2 ^ 32)
    (hL : P.powLimit * (72 * P.nPowTargetSpacing).toNat < 2 ^ 256)
    (hL3 : 3 * P.powLimit * 100000 < 2 ^ 256) :
    DarkGravityWave E P prev blockTime =
      .ok (GetCompact (min P.powLimit (escalator P (blockTime - (dgwTip E prev).time)
        (progressiveAvg 1 0 (powTargets E 24 (dgwTip E prev)) *
          (clampTimespan P ((dgwTip E prev).time - (kthPow E 24 (dgwTip E prev)).time)).toNat /
          (24 * P.nPowTargetSpacing).toNat)))) ∧
    progressiveAvg 1 0 (powTargets E 24 (dgwTip E prev)) *
          (clampTimespan P ((dgwTip E prev).time - (kthPow E 24 (dgwTip E prev)).time)).toNat /
          (24 * P.nPowTargetSpacing).toNat ≤ 3 * P.powLimit ∧
    (∀ (slack : Int) (base : Nat),
      (slack > 30 * P.nPowTargetSpacing → escalator P slack base = P.powLimit) ∧
      (slack ≤ 30 * P.nPowTargetSpacing → slack > 25 * P.nPowTargetSpacing →
        escalator P slack base = base * 100000) ∧
      (slack ≤ 25 * P.nPowTargetSpacing → slack > 20 * P.nPowTargetSpacing →
        escalator P slack base = base * 10000) ∧
      (slack ≤ 20 * P.nPowTargetSpacing → slack > 15 * P.nPowTargetSpacing →
        escalator P slack base = base * 1000) ∧
      (slack ≤ 15 * P.nPowTargetSpacing → slack > 10 * P.nPowTargetSpacing →
        escalator P slack base = base * 100) ∧
      (slack ≤ 10 * P.nPowTargetSpacing → escalator P slack base = base)) ∧
    (∀ (base : Nat) (blockTime' lastTime : Int), base ≤ 3 * mainParams.powLimit →
      base * 100000 < 2 ^ 256 ∧
      staleTipTiers mainParams mainParams.powLimit blockTime' lastTime base
        = escalator mainParams (blockTime' - lastTime) base) := by
  have h72 : 25 ≤ (72 * P.nPowTargetSpacing).toNat := by omega
  have hB : P.powLimit * 25 < 2 ^ 256 :=
    lt_of_le_of_lt (Nat.mul_le_mul_left _ h72) hL
  obtain ⟨hft, havg⟩ := dgwFromTip_eq E P (dgwTip E prev) blockTime P.powLimit hB hs0 hs1 hguard
    hc hts
  obtain ⟨_, _, c3, c4⟩ := clampTimespan_eq P
    ((dgwTip E prev).time - (kthPow E 24 (dgwTip E prev)).time) hs0
  set avg := progressiveAvg 1 0 (powTargets E 24 (dgwTip E prev)) with havgdef
  set a := clampTimespan P ((dgwTip E prev).time - (kthPow E 24 (dgwTip E prev)).time) with hadef
  have ha2 : a.toNat ≤ 72 * P.nPowTargetSpacing.toNat := by omega
  have hT : (24 * P.nPowTargetSpacing).toNat = 24 * P.nPowTargetSpacing.toNat := by omega
  have ha72 : a.toNat ≤ (72 * P.nPowTargetSpacing).toNat := by omega
  clear c3 c4
  have hnowrap : wrap256 (avg * a.toNat) = avg * a.toNat := by
    apply Nat.mod_eq_of_lt
    calc avg * a.toNat ≤ P.powLimit * (72 * P.nPowTargetSpacing).toNat :=
          Nat.mul_le_mul havg ha72
      _ < 2 ^ 256 := hL
  have hup : avg * a.toNat / (24 * P.nPowTargetSpacing).toNat ≤ 3 * avg := by
    rw [hT]
    apply Nat.div_le_of_le_mul
    calc avg * a.toNat ≤ avg * (72 * P.nPowTargetSpacing.toNat) := Nat.mul_le_mul_left _ ha2
      _ = 24 * P.nPowTargetSpacing.toNat * (3 * avg) := by ring
  have hbase : avg * a.toNat / (24 * P.nPowTargetSpacing).toNat ≤ 3 * P.powLimit :=
    le_trans hup (Nat.mul_le_mul_left _ havg)
  have hbw : avg * a.toNat / (24 * P.nPowTargetSpacing).toNat * 100000 < 2 ^ 256 :=
    lt_of_le_of_lt (Nat.mul_le_mul_right _ hbase) hL3
  refine ⟨?_, hbase, fun slack base => ?_, fun base bt lt hb => ?_⟩
  · rw [dgw_from_tip E P prev blockTime hprev hmin hpow, hft, hnowrap,
      staleTipTiers_eq P blockTime _ _ hbw]
  · unfold escalator
    refine ⟨fun h => ?_, fun h1 h2 => ?_, fun h1 h2 => ?_, fun h1 h2 => ?_, fun h1 h2 => ?_,
      fun h1 => ?_⟩
    · rw [if_pos h]
    · rw [if_neg (by omega), if_pos h2]
    · rw [if_neg (by omega), if_neg (by omega), if_pos h2]
    · rw [if_neg (by omega), if_neg (by omega), if_neg (by omega), if_pos h2]
    · rw [if_neg (by omega), if_neg (by omega), if_neg (by omega), if_neg (by omega), if_pos h2]
    · rw [if_neg (by omega), if_neg (by omega), if_neg (by omega), if_neg (by omega),
        if_neg (by omega)]
  · have hm : 3 * mainParams.powLimit * 100000 < 2 ^ 256 := by decide
    have hw : base * 100000 < 2 ^ 256 := lt_of_le_of_lt (Nat.mul_le_mul_right _ hb) hm
    exact ⟨hw, staleTipTiers_eq mainParams bt lt base hw⟩

set_option maxRecDepth 100000 in
/-- The chain `powChain24` with the main-net parameters and a candidate 260
after the tip, in the tier of 25 spacings. -/
theorem dgw_escalator_witness :
    (1260 : Int) - (dgwTip scenarioEnv powChain24).time > 25 * mainParams.nPowTargetSpacing ∧
    DarkGravityWave scenarioEnv mainParams powChain24 1260 =
      .ok (GetCompact (min mainParams.powLimit
        (escalator mainParams (1260 - (dgwTip scenarioEnv powChain24).time)
          (progressiveAvg 1 0 (powTargets scenarioEnv 24 (dgwTip scenarioEnv powChain24)) *
            (clampTimespan mainParams ((dgwTip scenarioEnv powChain24).time -
              (kthPow scenarioEnv 24 (dgwTip scenarioEnv powChain24)).time)).toNat /
            (24 * mainParams.nPowTargetSpacing).toNat)))) :=
  ⟨by decide,
    (dgw_escalator scenarioEnv mainParams powChain24 1260 (by decide) (by decide)
      (fun _ => by decide) (by decide) (by decide) (by decide) (by decide) (by decide)
      (by decide) (by decide)).1⟩

/-! ## The EMA of Forge 1.0 -/

/-- Where the product of the last forge target and the factor stays a 256-bit
value, the Forge 1.0 branch computes the pre-clamp target of the spec: for a
walk that finds the forge-mined block `b` behind `nPow >= 1` PoW blocks, the
result is the compact encoding of `emaPreClamp` after the two clamps. -/
theorem forgeEMA_exact (E : Env) (P : Params) (prev : PIndex) (nHeight : Int)
    (hdr : CBlockHeader) (pprev pskip : PIndex) (nPow : Int)
    (hwalk : emaWalk E P prev 0 = .ok (none, .entry nHeight hdr pprev pskip, nPow))
    (hn : 1 ≤ nPow) (hs : 0 < P.forgeBlockSpacingTarget)
    (hi : 1 ≤ Int.tdiv P.forgeTargetAdjustAggression P.forgeBlockSpacingTarget)
    (hf : (Int.tdiv P.forgeTargetAdjustAggression P.forgeBlockSpacingTarget - 1)
        * P.forgeBlockSpacingTarget + 2 * nPow < 2 ^ 32)
    (hd : (Int.tdiv P.forgeTargetAdjustAggression P.forgeBlockSpacingTarget + 1)
        * P.forgeBlockSpacingTarget < 2 ^ 64)
    (hnw : (SetCompact hdr.nBits).1 *
      ((Int.tdiv P.forgeTargetAdjustAggression P.forgeBlockSpacingTarget - 1)
        * P.forgeBlockSpacingTarget + 2 * nPow).toNat < 2 ^ 256) :
    forgeEMA E P prev =
      .ok (GetCompact
        (if emaPreClamp P (SetCompact hdr.nBits).1 nPow > P.powLimitForge2 then
          (if E.IsForge12Enabled (.entry nHeight hdr pprev pskip) then P.powLimitForge2
           else P.powLimitForge)
         else emaPreClamp P (SetCompact hdr.nBits).1 nPow)) := by
  generalize hI : Int.tdiv P.forgeTargetAdjustAggression P.forgeBlockSpacingTarget = I at *
  have hprod : 0 ≤ (I - 1) * P.forgeBlockSpacingTarget :=
    mul_nonneg (by omega) (le_of_lt hs)
  have hprod2 : 0 < (I + 1) * P.forgeBlockSpacingTarget := mul_pos (by omega) hs
  have e32 : (wrapU32 ((I - 1) * P.forgeBlockSpacingTarget + nPow + nPow)).toNat
      = ((I - 1) * P.forgeBlockSpacingTarget + 2 * nPow).toNat := by
    unfold wrapU32
    generalize (I - 1) * P.forgeBlockSpacingTarget = x at *
    rw [Int.emod_eq_of_lt (by omega) (by omega)]
    congr 1
    ring
  have e64 : (((I + 1) * P.forgeBlockSpacingTarget) % 2 ^ 64).toNat
      = ((I + 1) * P.forgeBlockSpacingTarget).toNat := by
    generalize (I + 1) * P.forgeBlockSpacingTarget = y at *
    rw [Int.emod_eq_of_lt (by omega) (by omega)]
  have hdz : ¬ (((I + 1) * P.forgeBlockSpacingTarget).toNat = 0) := by
    generalize (I + 1) * P.forgeBlockSpacingTarget = y at *
    omega
  have hsz : ¬ (P.forgeBlockSpacingTarget = 0) := by omega
  have hnz : ¬ (nPow = 0) := by omega
  have hw : wrap256 ((SetCompact hdr.nBits).1 *
      ((I - 1) * P.forgeBlockSpacingTarget + 2 * nPow).toNat)
      = (SetCompact hdr.nBits).1 * ((I - 1) * P.forgeBlockSpacingTarget + 2 * nPow).toNat :=
    Nat.mod_eq_of_lt hnw
  unfold forgeEMA emaPreClamp
  rw [hwalk]
  simp only [Outcome.andThen, hnz, hsz, if_false, hI, e32, e64, hdz, hw]
  congr 2
  by_cases h12 : E.IsForge12Enabled (.entry nHeight hdr pprev pskip) = true
  · simp only [h12, and_true, not_true_eq_false, and_false, if_false, if_true]
  · simp only [h12, and_false, if_false, not_false_eq_true, and_true, Bool.false_eq_true]

/-- The pre-clamp target of the spec is `T` for `nPow = s`, and it grows with
`nPow`. -/
theorem emaPreClamp_props (P : Params) (T : Nat) (hs : 0 < P.forgeBlockSpacingTarget)
    (hi : 1 ≤ Int.tdiv P.forgeTargetAdjustAggression P.forgeBlockSpacingTarget) :
    emaPreClamp P T P.forgeBlockSpacingTarget = T ∧
    (∀ n m : Int, n ≤ m → emaPreClamp P T n ≤ emaPreClamp P T m) := by
  generalize hI : Int.tdiv P.forgeTargetAdjustAggression P.forgeBlockSpacingTarget = I at *
  have hprod2 : 0 < (I + 1) * P.forgeBlockSpacingTarget := mul_pos (by omega) hs
  unfold emaPreClamp
  rw [hI]
  constructor
  · have e : (I - 1) * P.forgeBlockSpacingTarget + 2 * P.forgeBlockSpacingTarget
        = (I + 1) * P.forgeBlockSpacingTarget := by ring
    rw [e]
    exact Nat.mul_div_cancel _ (by omega)
  · intro n m hnm
    apply Nat.div_le_div_right
    apply Nat.mul_le_mul_left
    apply Int.toNat_le_toNat
    omega

/-- C17: where the walk of the Forge 1.0 branch finds a forge-mined block
(`found`), the branch returns a compact value whose target is at most
`powLimitForge2` when `IsForge12Enabled` holds at that block and at most
`powLimitForge` when it does not.  The parameters are to be like those of the
networks: a block spacing target and a divisor `(interval + 1) * spacing` that
are not zero, and a `powLimitForge` that is no less than `powLimitForge2` (the
test-net leaves `powLimitForge2` zero) or than the largest quotient
`(2^256 - 1) / divisor` (main-net: `2^252 - 1` and a divisor of 32). -/
theorem ema_within_forge_limit (E : Env) (P : Params) (prev : PIndex) (nHeight : Int)
    (hdr : CBlockHeader) (pprev pskip : PIndex) (nPow : Int)
    (hwalk : emaWalk E P prev 0 = .ok (none, .entry nHeight hdr pprev pskip, nPow))
    (hs : P.forgeBlockSpacingTarget ≠ 0)
    (hdiv : (((Int.tdiv P.forgeTargetAdjustAggression P.forgeBlockSpacingTarget + 1)
      * P.forgeBlockSpacingTarget) % 2 ^ 64).toNat ≠ 0)
    (hL : P.powLimitForge < 2 ^ 256) (hL2 : P.powLimitForge2 < 2 ^ 256)
    (hlim : P.powLimitForge2 ≤ P.powLimitForge ∨
      (2 ^ 256 - 1) / (((Int.tdiv P.forgeTargetAdjustAggression P.forgeBlockSpacingTarget + 1)
        * P.forgeBlockSpacingTarget) % 2 ^ 64).toNat ≤ P.powLimitForge) :
    ∃ r, forgeEMA E P prev = .ok r ∧
      (SetCompact r).2.1 = false ∧ (SetCompact r).2.2 = false ∧
      (SetCompact r).1 ≤
        (if E.IsForge12Enabled (.entry nHeight hdr pprev pskip) then P.powLimitForge2
         else P.powLimitForge) := by
  generalize hD : (((Int.tdiv P.forgeTargetAdjustAggression P.forgeBlockSpacingTarget + 1)
      * P.forgeBlockSpacingTarget) % 2 ^ 64).toNat = D at hdiv hlim
  have hfin : ∀ v lim : Nat, v < 2 ^ 256 → v ≤ lim →
      (SetCompact (GetCompact v)).2.1 = false ∧ (SetCompact (GetCompact v)).2.2 = false ∧
      (SetCompact (GetCompact v)).1 ≤ lim := by
    intro v lim hv hle
    obtain ⟨a, b, c⟩ := setCompact_getCompact_le v hv
    exact ⟨b, c, le_trans a hle⟩
  unfold forgeEMA
  rw [hwalk]
  simp only [Outcome.andThen]
  by_cases hn : nPow = 0
  · rw [if_pos hn]
    exact ⟨_, rfl, hfin 0 _ (by norm_num) (Nat.zero_le _)⟩
  · rw [if_neg hn, if_neg hs]
    simp only [hD]
    rw [if_neg hdiv]
    generalize hV : wrap256 ((SetCompact hdr.nBits).1 *
      (wrapU32 ((Int.tdiv P.forgeTargetAdjustAggression P.forgeBlockSpacingTarget - 1)
        * P.forgeBlockSpacingTarget + nPow + nPow)).toNat) / D = v
    have hvq : v ≤ (2 ^ 256 - 1) / D := by
      rw [← hV]
      apply Nat.div_le_div_right
      have : wrap256 ((SetCompact hdr.nBits).1 *
          (wrapU32 ((Int.tdiv P.forgeTargetAdjustAggression P.forgeBlockSpacingTarget - 1)
            * P.forgeBlockSpacingTarget + nPow + nPow)).toNat) < 2 ^ 256 :=
        Nat.mod_lt _ (by norm_num)
      omega
    have hv256 : v < 2 ^ 256 := by
      have : (2 ^ 256 - 1) / D ≤ 2 ^ 256 - 1 := Nat.div_le_self _ _
      have : (0 : Nat) < 2 ^ 256 := by norm_num
      omega
    refine ⟨_, rfl, ?_⟩
    by_cases h12 : E.IsForge12Enabled (.entry nHeight hdr pprev pskip) = true
    · simp only [h12, and_true, not_true_eq_false, and_false, if_false, if_true]
      by_cases hc : v > P.powLimitForge2
      · rw [if_pos hc]
        exact hfin _ _ hL2 le_rfl
      · rw [if_neg hc]
        exact hfin _ _ hv256 (by omega)
    · simp only [h12, and_false, if_false, not_false_eq_true, and_true, Bool.false_eq_true]
      by_cases hc : v > P.powLimitForge2
      · rw [if_pos hc]
        exact hfin _ _ hL le_rfl
      · rw [if_neg hc]
        refine hfin _ _ hv256 ?_
        rcases hlim with h | h
        · omega
        · exact le_trans hvq h

set_option maxRecDepth 1000000 in
/-- The bound of the EMA on the main-net parameters, behind `limitEmaChain`
(the forge-mined block at height 125 is found behind one PoW block, the result
`0x2006ffff` decodes to `0x06ffff * 2^232`), and on the test-net values of the
parameters that the EMA reads, behind `emaChain` (the forge-mined block at
height 1 is found behind three PoW blocks; every target above the zero
`powLimitForge2` is replaced by `powLimitForge`, encoded `0x200fffff`). -/
theorem ema_within_forge_limit_witness :
    (∃ r, forgeEMA legacyEnv mainParams limitEmaChain = .ok r ∧
      (SetCompact r).2.1 = false ∧ (SetCompact r).2.2 = false ∧
      (SetCompact r).1 ≤ mainParams.powLimitForge) ∧
    (∃ r, forgeEMA legacyEnv testnetEmaParams emaChain = .ok r ∧
      (SetCompact r).2.1 = false ∧ (SetCompact r).2.2 = false ∧
      (SetCompact r).1 ≤ testnetEmaParams.powLimitForge) ∧
    GetNextForgeWorkRequired legacyEnv mainParams limitEmaChain
      = forgeEMA legacyEnv mainParams limitEmaChain ∧
    forgeEMA legacyEnv mainParams limitEmaChain = .ok 0x2006ffff ∧
    forgeEMA legacyEnv testnetEmaParams emaChain = .ok 0x200fffff :=
  ⟨ema_within_forge_limit legacyEnv mainParams limitEmaChain 125 ⟨2015, 0x200fffff, 192⟩
      powChain124 .nullptr 1 (by decide) (by decide) (by decide) (by decide) (by decide)
      (Or.inr (by decide)),
   ema_within_forge_limit legacyEnv testnetEmaParams emaChain 1 ⟨780, 0x1e0ffff0, 192⟩
      dgwGenesis .nullptr 3 (by decide) (by decide) (by decide) (by decide) (by decide)
      (Or.inl (by decide)),
   by decide, by decide, by decide⟩

set_option maxRecDepth 1000000 in
/-- C24, failing input: with the main-net parameters and Forge 1.1, 1.2, 1.3
not active, behind `limitEmaChain` the walk steps over one PoW block and finds
the forge-mined block of target `T = 2^252 - 2^232`, which is below
`powLimitForge`.  With `interval = 15` and `s = 2` the factor is 30 and
`30 * T` exceeds `2^256`: the pre-clamp target of the claim is
`floor(30 * T / 32)` with the compact encoding `0x200effff`, and the function
returns `0x2006ffff`. -/
theorem ema_product_wraps :
    emaWalk legacyEnv mainParams limitEmaChain 0
      = .ok (none, .entry 125 ⟨2015, 0x200fffff, 192⟩ powChain124 .nullptr, 1) ∧
    (SetCompact 0x200fffff).1 = 2 ^ 252 - 2 ^ 232 ∧
    (SetCompact 0x200fffff).1 ≤ mainParams.powLimitForge ∧
    emaPreClamp mainParams (2 ^ 252 - 2 ^ 232) 1 = (2 ^ 252 - 2 ^ 232) * 30 / 32 ∧
    2 ^ 256 ≤ (2 ^ 252 - 2 ^ 232) * 30 ∧
    emaPreClamp mainParams (2 ^ 252 - 2 ^ 232) 1 ≤ mainParams.powLimitForge ∧
    GetCompact (emaPreClamp mainParams (2 ^ 252 - 2 ^ 232) 1) = 0x200effff ∧
    forgeEMA legacyEnv mainParams limitEmaChain = .ok 0x2006ffff ∧
    GetNextForgeWorkRequired legacyEnv mainParams limitEmaChain = .ok 0x2006ffff := by
  decide

/-! ## Binning of the hammers -/

/-- A quotient of integers below `2^24` in size that is an integer is the
value of `hammersPerBin`: nothing is rounded. -/
theorem hammersPerBin_exact (t c q : Int) (hc : c ≠ 0) (hq : t = q * c)
    (ht : |(t : ℚ)| < 2 ^ 24) (hc2 : |(c : ℚ)| < 2 ^ 24) (hq2 : |(q : ℚ)| < 2 ^ 24) :
    hammersPerBin t c = .ok q := by
  have h1 : toFloat (t : ℚ) = some (t : ℚ) :=
    roundBinary_intCast 24 (-149) 128 t (by norm_num) (by norm_num) (by norm_num) ht
  have h2 : toFloat (c : ℚ) = some (c : ℚ) :=
    roundBinary_intCast 24 (-149) 128 c (by norm_num) (by norm_num) (by norm_num) hc2
  have h3 : toFloat (q : ℚ) = some (q : ℚ) :=
    roundBinary_intCast 24 (-149) 128 q (by norm_num) (by norm_num) (by norm_num) hq2
  have hcq : ¬ ((c : ℚ) = 0) := by exact_mod_cast hc
  have hdiv : (t : ℚ) / (c : ℚ) = (q : ℚ) := by
    rw [hq]
    push_cast
    exact mul_div_cancel_right₀ _ hcq
  have hr : ¬ (q < -2 ^ 31 ∨ 2 ^ 31 ≤ q) := by
    have a := abs_lt.mp hq2
    have a1 : ((-2 ^ 24 : Int) : ℚ) < (q : ℚ) := by push_cast; exact a.1
    have a2 : (q : ℚ) < ((2 ^ 24 : Int) : ℚ) := by push_cast; exact a.2
    have b1 : (-2 ^ 24 : Int) < q := by exact_mod_cast a1
    have b2 : q < (2 ^ 24 : Int) := by exact_mod_cast a2
    norm_num at b1 b2 ⊢
    omega
  unfold hammersPerBin
  simp only [h1, h2, if_neg hcq, hdiv, h3, Int.ceil_intCast, if_neg hr]

/-- The value of `hammersPerBin` from the three roundings and the ceiling. -/
theorem hammersPerBin_of (t c : Int) (a b q : ℚ) (n : Int) (h1 : toFloat (t : ℚ) = some a)
    (h2 : toFloat (c : ℚ) = some b) (hb : b ≠ 0) (h3 : toFloat (a / b) = some q)
    (hc : Int.ceil q = n) (hr : ¬ (n < -2 ^ 31 ∨ 2 ^ 31 ≤ n)) :
    hammersPerBin t c = .ok n := by
  unfold hammersPerBin
  simp only [h1, h2]
  rw [if_neg hb]
  simp only [h3, hc]
  rw [if_neg hr]

/-- The quotient is a `float`: `2^24 + 1` hammers for one thread give `2^24`
hammers per bin, since `2^24 + 1` is no `float` and is rounded to `2^24`. -/
theorem hammersPerBin_rounds : hammersPerBin 16777217 1 = .ok 16777216 := by
  have q1 : quantumExp 24 (-149) ((16777217 : Int) : ℚ) = 1 := by
    unfold quantumExp
    rw [log2_of_bounds _ 24 (by norm_num) (by norm_num)]
    norm_num
  have q2 : quantumExp 24 (-149) ((16777216 : Int) : ℚ) = 1 := by
    unfold quantumExp
    rw [log2_of_bounds _ 24 (by norm_num) (by norm_num)]
    norm_num
  have r1 : roundTiesEven (((16777217 : Int) : ℚ) / 2 ^ (1 : Int)) = 8388608 := by
    have hf : Int.floor (((16777217 : Int) : ℚ) / 2 ^ (1 : Int)) = 8388608 := by
      rw [Int.floor_eq_iff]
      norm_num
    unfold roundTiesEven
    simp only [hf]
    norm_num
  have r2 : roundTiesEven (((16777216 : Int) : ℚ) / 2 ^ (1 : Int)) = 8388608 := by
    have e : ((16777216 : Int) : ℚ) / 2 ^ (1 : Int) = ((8388608 : Int) : ℚ) := by norm_num
    rw [e, roundTiesEven_intCast]
  have f1 : toFloat ((16777217 : Int) : ℚ) = some ((16777216 : Int) : ℚ) := by
    have := roundBinary_eval 24 (-149) 128 _ 1 8388608 q1 r1 (by norm_num)
    rw [toFloat, this]
    norm_num
  have f3 : toFloat ((16777216 : Int) : ℚ) = some ((16777216 : Int) : ℚ) := by
    have := roundBinary_eval 24 (-149) 128 _ 1 8388608 q2 r2 (by norm_num)
    rw [toFloat, this]
    norm_num
  have f2 : toFloat ((1 : Int) : ℚ) = some ((1 : Int) : ℚ) :=
    roundBinary_intCast 24 (-149) 128 1 (by norm_num) (by norm_num) (by norm_num) (by norm_num)
  have hdiv : ((16777216 : Int) : ℚ) / ((1 : Int) : ℚ) = ((16777216 : Int) : ℚ) := by norm_num
  exact hammersPerBin_of 16777217 1 _ _ _ 16777216 f1 f2 (by norm_num) (by rw [hdiv]; exact f3)
    (Int.ceil_intCast _) (by norm_num)

/-- C26, failing inputs: with one thread and the ready BCTs `a` (3 hammers)
and `b` (2 hammers), `totalHammers` is 5 and the only bin holds the range of
`a` alone, 3 hammers: the loop that moves on to the next BCT looks for the
status `mature`, which no BCT has, and runs to the end.  With a created BCT
`c` (5 hammers) before the ready `b` (3 hammers), `totalHammers` is 3 and
there are two bins for one thread, both with hammers of `c`, none of `b`. -/
theorem bins_miss_ready_hammers :
    totalHammers [⟨"a", "ready", 3, "g", false⟩, ⟨"b", "ready", 2, "g", false⟩] = 5 ∧
    hammersPerBin 5 1 = .ok 5 ∧
    BusyHammersBins [⟨"a", "ready", 3, "g", false⟩, ⟨"b", "ready", 2, "g", false⟩] 1
      = .ok [[⟨"a", "g", false, 0, 3⟩]] ∧
    ((([[⟨"a", "g", false, 0, 3⟩]] : List (List CHammerRange)).map
      fun bin => (bin.map fun range => range.count).sum).sum ≠ 5) ∧
    totalHammers [⟨"c", "created", 5, "g", false⟩, ⟨"b", "ready", 3, "g", false⟩] = 3 ∧
    BusyHammersBins [⟨"c", "created", 5, "g", false⟩, ⟨"b", "ready", 3, "g", false⟩] 1
      = .ok [[⟨"c", "g", false, 0, 3⟩], [⟨"c", "g", false, 3, 2⟩]] ∧
    ([[⟨"c", "g", false, 0, 3⟩], [⟨"c", "g", false, 3, 2⟩]] : List (List CHammerRange)).length
      > 1 := by
  have h5 : hammersPerBin 5 1 = .ok 5 :=
    hammersPerBin_exact 5 1 5 (by decide) (by decide) (by norm_num) (by norm_num) (by norm_num)
  have h3 : hammersPerBin 3 1 = .ok 3 :=
    hammersPerBin_exact 3 1 3 (by decide) (by decide) (by norm_num) (by norm_num) (by norm_num)
  have t1 : totalHammers [⟨"a", "ready", 3, "g", false⟩, ⟨"b", "ready", 2, "g", false⟩] = 5 := by
    decide
  have t2 : totalHammers [⟨"c", "created", 5, "g", false⟩, ⟨"b", "ready", 3, "g", false⟩] = 3 := by
    decide
  refine ⟨t1, h5, ?_, by decide, t2, ?_, by decide⟩
  · unfold BusyHammersBins
    rw [t1, if_neg (by decide), h5]
    decide
  · unfold BusyHammersBins
    rw [t2, if_neg (by decide), h3]
    decide

end Forge
